import Mathlib

/-! # rez: resize orchestration and thread partitioning (`resize.go`)

A shallow embedding of `resize.go` and proofs about it.

Conventions of the embedding.

* Go `int` values are `Int`.  No arithmetic in the file is reduced modulo `2^64`:
  the statements are about executions in which no `int` operation overflows.
* A Go slice is a `Slice`: the backing storage from its first element up to its
  capacity, together with its length.  The three operations Go performs on slices in
  `resize.go` (`s[i]`, `s[lo:hi]`, `s[lo:]`) return `none` exactly where Go panics.
* A `go f(args)` statement is recorded as the tuple of its evaluated arguments
  (`Worker` for `go scaleSlice(...)`, `FieldTask` for `go scaleSlices(...)`), in
  program order.  A run-time panic stops the function; what was launched before the
  panic stays in the record (`Outcome`).
* Functions, types and tables of the package that live outside `resize.go`
  (`makeKernel`, `Filter`, `bin`, the convolution routines) are parameters or are
  modelled from the specification; each such definition says so.
-/

set_option autoImplicit false

namespace Rez

/-! ## Go slices -/

/-- A Go slice: `store` holds the elements from the slice's first element up to its
capacity, `len` is its length (`len ≤ store.length` for a slice Go can build). -/
structure Slice (α : Type) where
  store : List α
  len : Nat
deriving Repr, DecidableEq

namespace Slice

variable {α : Type}

/-- Capacity `cap(s)`. -/
def cap (s : Slice α) : Nat := s.store.length

/-- A slice Go can build has its length within its capacity. -/
def WellFormed (s : Slice α) : Prop := s.len ≤ s.cap

instance (s : Slice α) : Decidable s.WellFormed := by
  unfold WellFormed; infer_instance

/-- The slice of a whole list (length = capacity), as `make` or a literal builds it. -/
def ofList (l : List α) : Slice α := ⟨l, l.length⟩

/-- Index expression `s[i]`: `none` is Go's "index out of range" panic. -/
def index (s : Slice α) (i : Int) : Option α :=
  if 0 ≤ i ∧ i < s.len then s.store.get? i.toNat else none

/-- The window `s[lo:hi]` of a slice when the bounds are in range: it starts at element
`lo` and has length `hi - lo`. -/
def sub (s : Slice α) (lo hi : Int) : Slice α :=
  ⟨s.store.drop lo.toNat, (hi - lo).toNat⟩

/-- Slice expression `s[lo:hi]`: in range iff `0 ≤ lo ≤ hi ≤ cap(s)`; `none` is Go's
"slice bounds out of range" panic. -/
def slice (s : Slice α) (lo hi : Int) : Option (Slice α) :=
  if 0 ≤ lo ∧ lo ≤ hi ∧ hi ≤ s.cap then some (s.sub lo hi) else none

/-- Slice expression `s[lo:]` (the high bound defaults to `len(s)`): in range iff
`0 ≤ lo ≤ len(s)`. -/
def sliceFrom (s : Slice α) (lo : Int) : Option (Slice α) :=
  if 0 ≤ lo ∧ lo ≤ s.len then some (s.sub lo s.len) else none

end Slice

/-! ## Types of `resize.go` -/

/-- `type Config struct`. -/
structure Config where
  Depth : Int
  Input : Int
  Output : Int
  Vertical : Bool
  Interlaced : Bool
  Threads : Int
deriving Repr, DecidableEq

/-- The routines a `Scaler` value of this package can be: the functions named in
`getHorizontalScaler` and `getVerticalScaler`.  Their bodies are outside `resize.go`;
a `Scaler` value is identified by the function it refers to. -/
inductive Scaler where
  | h8scale2 | h8scale4 | h8scale6 | h8scale8 | h8scale10 | h8scale12 | h8scaleN
  | v8scale2 | v8scale4 | v8scale6 | v8scale8 | v8scale10 | v8scale12 | v8scaleN
deriving Repr, DecidableEq

/-- The fields of `Kernel` that `resize.go` reads: `size` (tap count), `coeffs`
(`[]int16`) and `offsets` (`[]int`).  The type is declared outside `resize.go`. -/
structure Kernel where
  size : Int
  coeffs : Slice Int
  offsets : Slice Int
deriving Repr, DecidableEq

/-- `type Context struct`.  `kernels` is built by a one-element literal and at most
one `append`, so its length and capacity agree and it is kept as a list. -/
structure Context where
  cfg : Config
  kernels : List Kernel
  scaler : Scaler
deriving Repr, DecidableEq

/-! ## Routine selectors -/

/-- `func getHorizontalScaler(taps int) Scaler`. -/
def getHorizontalScaler (taps : Int) : Scaler :=
  if taps = 2 then .h8scale2
  else if taps = 4 then .h8scale4
  else if taps = 6 then .h8scale6
  else if taps = 8 then .h8scale8
  else if taps = 10 then .h8scale10
  else if taps = 12 then .h8scale12
  else .h8scaleN

/-- `func getVerticalScaler(taps int) Scaler`. -/
def getVerticalScaler (taps : Int) : Scaler :=
  if taps = 2 then .v8scale2
  else if taps = 4 then .v8scale4
  else if taps = 6 then .v8scale6
  else if taps = 8 then .v8scale8
  else if taps = 10 then .v8scale10
  else if taps = 12 then .v8scale12
  else .v8scaleN

/-! ## Context construction -/

/-- `func NewResize(cfg *Config, filter Filter) Resizer`.

`makeKernel` and the type `Filter` are declared outside `resize.go`: they are the
parameters `mk` and `F`.  `makeKernel` receives `&ctx.cfg`, which it reads.  The result
pairs the new context with the value of the caller's `*cfg` when the call returns
(`NewResize` copies `*cfg` and never assigns through `cfg`). -/
def NewResize {F : Type} (mk : Config → F → Int → Kernel) (cfg : Config) (filter : F) :
    Context × Config :=
  -- ctx := Context{cfg: *cfg};  ctx.cfg.Depth = 8
  let ctxcfg : Config := { cfg with Depth := 8 }
  -- ctx.kernels = []Kernel{makeKernel(&ctx.cfg, filter, 0)}
  let k0 : Kernel := mk ctxcfg filter 0
  -- ctx.scaler = getHorizontalScaler(ctx.kernels[0].size)
  let scaler0 : Scaler := getHorizontalScaler k0.size
  if cfg.Vertical then
    -- ctx.scaler = getVerticalScaler(ctx.kernels[0].size)
    let scaler1 : Scaler := getVerticalScaler k0.size
    if cfg.Interlaced then
      -- ctx.kernels = append(ctx.kernels, makeKernel(&ctx.cfg, filter, 1))
      ({ cfg := ctxcfg, kernels := [k0] ++ [mk ctxcfg filter 1], scaler := scaler1 }, cfg)
    else
      ({ cfg := ctxcfg, kernels := [k0], scaler := scaler1 }, cfg)
  else
    ({ cfg := ctxcfg, kernels := [k0], scaler := scaler0 }, cfg)

/-! ## The partitioner -/

/-- Run-time panics of the Go code. -/
inductive Fault where
  | sliceBounds
  | indexRange
  | divideByZero
deriving Repr, DecidableEq

/-- The evaluated arguments of one `go scaleSlice(group, scaler, dst[..], src[..],
cof[..], off[..], taps, width, ih, dp, sp)` statement.  The four slice arguments are
recorded by the bounds of their slice expressions, relative to the slices
`scaleSlices` received: `dst[dstLo:dstHi]`, `src[srcLo:]`, `cof[cofLo:cofHi]`,
`off[offLo:offHi]`. -/
structure Worker where
  scaler : Scaler
  dstLo : Int
  dstHi : Int
  srcLo : Int
  cofLo : Int
  cofHi : Int
  offLo : Int
  offHi : Int
  taps : Int
  width : Int
  height : Int
  dp : Int
  sp : Int
deriving Repr, DecidableEq

/-- What a run of `scaleSlices` did: the workers it launched, in order, and the panic
that stopped it, if any. -/
structure Outcome where
  launched : List Worker
  fault : Option Fault
deriving Repr, DecidableEq

/-- Put a launched worker in front of the rest of the run. -/
def Outcome.push (w : Worker) (o : Outcome) : Outcome :=
  ⟨w :: o.launched, o.fault⟩

/-- The four cursors of `scaleSlices`. -/
structure Cursor where
  dst_idx : Int
  src_idx : Int
  off_idx : Int
  cof_idx : Int
deriving Repr, DecidableEq

/-- The inner loop `for j := 0; j < ih; j++ { src_idx += sp * off[off_idx+j] }`,
with `n` the number of iterations left; `none` is an index panic. -/
def srcWalk (off : Slice Int) (sp off_idx : Int) : Nat → Int → Int → Option Int
  | 0, _, src_idx => some src_idx
  | n + 1, j, src_idx =>
    match off.index (off_idx + j) with
    | none => none
    | some d => srcWalk off sp off_idx n (j + 1) (src_idx + sp * d)

/-- The loop `for i := 0; i < threads; i++ { ... }` of `scaleSlices`, with `n` the
number of iterations left (`threads - i`). -/
def sliceLoop (scaler : Scaler) (vertical : Bool)
    (threads taps width height dp sp nh : Int)
    (dst src : Slice Nat) (cof off : Slice Int) : Nat → Int → Cursor → Outcome
  | 0, _, _ => ⟨[], none⟩
  | n + 1, i, c =>
    let last : Bool := decide (i + 1 = threads)
    let ih : Int := if last then height - nh * (threads - 1) else nh
    if ih = 0 then
      -- continue
      sliceLoop scaler vertical threads taps width height dp sp nh dst src cof off n (i + 1) c
    else
      let next : Int := if vertical then ih else width
      match dst.slice c.dst_idx (c.dst_idx + dp * (ih - 1) + width),
            src.sliceFrom c.src_idx,
            cof.slice c.cof_idx (c.cof_idx + next * taps),
            off.slice c.off_idx (c.off_idx + next) with
      | some _, some _, some _, some _ =>
        let w : Worker :=
          { scaler := scaler
            dstLo := c.dst_idx, dstHi := c.dst_idx + dp * (ih - 1) + width
            srcLo := c.src_idx
            cofLo := c.cof_idx, cofHi := c.cof_idx + next * taps
            offLo := c.off_idx, offHi := c.off_idx + next
            taps := taps, width := width, height := ih, dp := dp, sp := sp }
        if last then
          -- break
          ⟨[w], none⟩
        else if vertical then
          match srcWalk off sp c.off_idx ih.toNat 0 c.src_idx with
          | none => ⟨[w], some .indexRange⟩
          | some s =>
            (sliceLoop scaler vertical threads taps width height dp sp nh dst src cof off n
              (i + 1)
              { dst_idx := c.dst_idx + ih * dp, src_idx := s
                off_idx := c.off_idx + ih, cof_idx := c.cof_idx + ih * taps }).push w
        else
          (sliceLoop scaler vertical threads taps width height dp sp nh dst src cof off n
            (i + 1)
            { c with dst_idx := c.dst_idx + ih * dp, src_idx := c.src_idx + sp * ih }).push w
      | _, _, _, _ => ⟨[], some .sliceBounds⟩

/-- The nominal chunk size: `nh := height / threads; if nh < 1 { nh = 1 }` (Go's `/`
truncates toward zero). -/
def chunk (height threads : Int) : Int :=
  if Int.tdiv height threads < 1 then 1 else Int.tdiv height threads

/-- `func scaleSlices(group, scaler, vertical, threads, taps, width, height, dp, sp,
dst, src, cof, off)`: the workers it launches.  `height / threads` panics when
`threads` is zero. -/
def scaleSlices (scaler : Scaler) (vertical : Bool)
    (threads taps width height dp sp : Int)
    (dst src : Slice Nat) (cof off : Slice Int) : Outcome :=
  if threads = 0 then ⟨[], some .divideByZero⟩
  else
    sliceLoop scaler vertical threads taps width height dp sp (chunk height threads)
      dst src cof off threads.toNat 0 ⟨0, 0, 0, 0⟩

/-! ## The call `Resize` -/

/-- Modelled from the spec: `bin` is declared outside `resize.go`; the spec gives
`field = 1` if (vertical AND interlaced) else `0`. -/
def bin (b : Bool) : Int := if b then 1 else 0

/-- The evaluated arguments of one `go scaleSlices(&group, c.scaler, c.cfg.Vertical,
c.cfg.Threads, k.size, dwidth, dheight, dp<<field, sp<<field, dst[dp*i:], src[sp*i:],
k.coeffs, k.offsets)` statement.  The two buffer arguments are recorded by the low
bound of their slice expressions: `dst[dstLo:]`, `src[srcLo:]`. -/
structure FieldTask where
  scaler : Scaler
  vertical : Bool
  threads : Int
  taps : Int
  width : Int
  height : Int
  dp : Int
  sp : Int
  dstLo : Int
  srcLo : Int
  cof : Slice Int
  off : Slice Int
deriving Repr, DecidableEq

/-- What a run of `Resize` did before `group.Wait()`: the field tasks it started, in
order, and the panic that stopped it, if any. -/
structure ResizeOutcome where
  tasks : List FieldTask
  fault : Option Fault
deriving Repr, DecidableEq

/-- Put a started field task in front of the rest of the run. -/
def ResizeOutcome.push (t : FieldTask) (o : ResizeOutcome) : ResizeOutcome :=
  ⟨t :: o.tasks, o.fault⟩

/-- The loop `for i, k := range c.kernels[:1+field] { ... }` of `Resize`, over the
kernels still to visit, with `i` the index of the first of them. -/
def fieldLoop (c : Context) (dst src : Slice Nat) (dwidth dheight dp sp field : Int) :
    List Kernel → Int → ResizeOutcome
  | [], _ => ⟨[], none⟩
  | k :: ks, i =>
    match dst.sliceFrom (dp * i), src.sliceFrom (sp * i) with
    | some _, some _ =>
      (fieldLoop c dst src dwidth dheight dp sp field ks (i + 1)).push
        { scaler := c.scaler, vertical := c.cfg.Vertical, threads := c.cfg.Threads
          taps := k.size, width := dwidth, height := dheight
          dp := dp * 2 ^ field.toNat, sp := sp * 2 ^ field.toNat
          dstLo := dp * i, srcLo := sp * i
          cof := k.coeffs, off := k.offsets }
    | _, _ => ⟨[], some .sliceBounds⟩

/-- `func (c *Context) Resize(dst, src []byte, width, height, dp, sp int)`: the field
tasks it starts.  `x >> field` is `Int`'s `>>>` (floor), `x << field` is
`x * 2 ^ field`. -/
def Resize (c : Context) (dst src : Slice Nat) (width height dp sp : Int) : ResizeOutcome :=
  let field : Int := bin (c.cfg.Vertical && c.cfg.Interlaced)
  let dwidth : Int := if c.cfg.Vertical then width else c.cfg.Output
  let dheight : Int := if c.cfg.Vertical then c.cfg.Output >>> field.toNat else height
  -- c.kernels[:1+field]
  if 1 + field ≤ c.kernels.length then
    fieldLoop c dst src dwidth dheight dp sp field (c.kernels.take (1 + field).toNat) 0
  else ⟨[], some .sliceBounds⟩

/-- The run of a started field task: `scaleSlices` on the task's arguments, the two
buffers being the windows `dst[dstLo:]` and `src[srcLo:]` of the buffers of `Resize`. -/
def FieldTask.run (t : FieldTask) (dst src : Slice Nat) : Outcome :=
  scaleSlices t.scaler t.vertical t.threads t.taps t.width t.height t.dp t.sp
    (dst.sub t.dstLo dst.len) (src.sub t.srcLo src.len) t.cof t.off

/-! ## Convolution routines (contract) -/

/-- Orientation of a routine: the `v8scale*` routines, those `getVerticalScaler`
returns, are the vertical ones. -/
def Scaler.vertical : Scaler → Bool
  | .v8scale2 | .v8scale4 | .v8scale6 | .v8scale8 | .v8scale10 | .v8scale12 | .v8scaleN => true
  | _ => false

/-- Modelled from the spec: the routines clamp a result to the valid 8-bit range
`[0, 255]`. -/
def clamp8 (v : Int) : Nat := if v < 0 then 0 else if 255 < v then 255 else v.toNat

/-- Sum of a list of readings; `none` as soon as one reading is out of range. -/
def optSum : List (Option Int) → Option Int
  | [] => some 0
  | none :: _ => none
  | some a :: l => (optSum l).map (a + ·)

/-- Modelled from the spec: one term of the weighted sum of a routine, coefficient
`cof[cb + i]` times sample `src[sb + step * i]`; `none` when a reading is out of range. -/
def tapTerm (cof : Slice Int) (src : Slice Nat) (cb sb step : Int) (i : Nat) : Option Int :=
  match cof.index (cb + i), src.index (sb + step * i) with
  | some c, some s => some (c * (s : Int))
  | _, _ => none

/-- Modelled from the spec: the convolution routines are outside `resize.go`.  One
output sample is the weighted sum of `taps` source samples, rescaled (`rescale`, the
fixed-point rounding of the kernel, is a parameter) and clamped to `[0, 255]`; `none`
when a reading falls outside the windows the routine was handed. -/
def sample (rescale : Int → Int) (cof : Slice Int) (src : Slice Nat) (taps : Int)
    (cb sb step : Int) : Option Nat :=
  (optSum ((List.range taps.toNat).map (tapTerm cof src cb sb step))).map
    (fun v => clamp8 (rescale v))

/-- Modelled from the spec: sample `(r, x)` of a routine run on the windows `src`,
`cof`, `off`.  Vertical: output row `r` combines `taps` source rows starting at the
source cursor advanced by `sp` times the sum of the offsets before `r`, with
coefficients `cof[r*taps .. r*taps+taps)`.  Horizontal: output column `x` of row `r`
uses `off[x]` and `cof[x*taps .. x*taps+taps)` on source row `r`. -/
def routineSample (rescale : Int → Int) (vertical : Bool) (src : Slice Nat)
    (cof off : Slice Int) (taps sp : Int) (r x : Nat) : Option Nat :=
  if vertical then
    match optSum ((List.range r).map (fun (j : Nat) => off.index (j : Int))) with
    | none => none
    | some s => sample rescale cof src taps ((r : Int) * taps) (sp * s + (x : Int)) sp
  else
    match off.index (x : Int) with
    | none => none
    | some o => sample rescale cof src taps ((x : Int) * taps) ((r : Int) * sp + o) 1

/-- Modelled from the spec: the bytes a routine writes, row by row, as pairs of the
index `r*dp + x` in its destination window and the value written there. -/
def routineWrites (rescale : Int → Int) (vertical : Bool) (src : Slice Nat)
    (cof off : Slice Int) (taps width height dp sp : Int) : List (Int × Option Nat) :=
  (List.range height.toNat).flatMap fun (r : Nat) =>
    (List.range width.toNat).map fun (x : Nat) =>
      ((r : Int) * dp + (x : Int), routineSample rescale vertical src cof off taps sp r x)

/-- The bytes one launched worker writes, as pairs (index in the destination buffer of
`scaleSlices`, value): its routine run on the windows `src[srcLo:]`, `cof[cofLo:cofHi]`,
`off[offLo:offHi]`, writing into `dst[dstLo:dstHi]`. -/
def Worker.writes (rescale : Int → Int) (w : Worker) (src : Slice Nat)
    (cof off : Slice Int) : List (Int × Option Nat) :=
  (routineWrites rescale w.scaler.vertical (src.sub w.srcLo src.len)
      (cof.sub w.cofLo w.cofHi) (off.sub w.offLo w.offHi)
      w.taps w.width w.height w.dp w.sp).map
    fun pv => (w.dstLo + pv.1, pv.2)

/-- All bytes written by the workers of a run of `scaleSlices`, in launch order. -/
def Outcome.writes (rescale : Int → Int) (o : Outcome) (src : Slice Nat)
    (cof off : Slice Int) : List (Int × Option Nat) :=
  o.launched.flatMap fun w => w.writes rescale src cof off

/-- Modelled from the spec: the destination bytes a worker writes are
`r*dp + x` for `0 ≤ r < ih`, `0 ≤ x < width` of its destination window; `base` is the
index at which the destination buffer of `scaleSlices` starts in the caller's. -/
def Worker.footprint (base : Int) (w : Worker) : List Int :=
  (List.range w.height.toNat).flatMap fun (r : Nat) =>
    (List.range w.width.toNat).map fun (x : Nat) => base + w.dstLo + (r : Int) * w.dp + (x : Int)

/-! ## Closed forms for the partition -/

/-- Sum of the first `r` entries of an offsets table. -/
def offSum (off : Slice Int) (r : Nat) : Int := (off.store.take r).sum

/-- Range length of the worker of loop iteration `k` when `threads = T` and the nominal
chunk is `m`: the last iteration takes the remainder. -/
def rangeLen (height : Int) (T m k : Nat) : Int :=
  if k + 1 = T then height - (m : Int) * ((T : Int) - 1) else (m : Int)

/-- The cursors of `scaleSlices` when the loop stands at output row `r`. -/
def cursorAt (vertical : Bool) (taps dp sp : Int) (off : Slice Int) (r : Nat) : Cursor :=
  { dst_idx := (r : Int) * dp
    src_idx := if vertical then sp * offSum off r else sp * (r : Int)
    off_idx := if vertical then (r : Int) else 0
    cof_idx := if vertical then (r : Int) * taps else 0 }

/-- The worker of loop iteration `k`, in closed form: its first output row is `k * m`. -/
def workerAt (scaler : Scaler) (vertical : Bool) (taps width height dp sp : Int)
    (off : Slice Int) (T m k : Nat) : Worker :=
  let c := cursorAt vertical taps dp sp off (k * m)
  let ih := rangeLen height T m k
  let next : Int := if vertical then ih else width
  { scaler := scaler
    dstLo := c.dst_idx, dstHi := c.dst_idx + dp * (ih - 1) + width
    srcLo := c.src_idx
    cofLo := c.cof_idx, cofHi := c.cof_idx + next * taps
    offLo := c.off_idx, offHi := c.off_idx + next
    taps := taps, width := width, height := ih, dp := dp, sp := sp }

/-- All four slice expressions of a `go scaleSlice(...)` statement are in range. -/
def Worker.InBounds (w : Worker) (dst src : Slice Nat) (cof off : Slice Int) : Prop :=
  (0 ≤ w.dstLo ∧ w.dstLo ≤ w.dstHi ∧ w.dstHi ≤ dst.cap) ∧
  (0 ≤ w.srcLo ∧ w.srcLo ≤ src.len) ∧
  (0 ≤ w.cofLo ∧ w.cofLo ≤ w.cofHi ∧ w.cofHi ≤ cof.cap) ∧
  (0 ≤ w.offLo ∧ w.offLo ≤ w.offHi ∧ w.offHi ≤ off.cap)

instance (w : Worker) (dst src : Slice Nat) (cof off : Slice Int) :
    Decidable (w.InBounds dst src cof off) := by
  unfold Worker.InBounds; infer_instance


/-- The buffers handed to `scaleSlices` are large enough for a partition of `height`
output rows into `threads` ranges: non-negative width, stride and tap count; a
destination of `height` rows; coefficient and offset tables for every output sample of
the partitioned kernel axis; for the vertical cursor walk, a well-formed offsets table
holding the deltas of all rows before the last range; every worker's source cursor
inside the source buffer. -/
def Adequate (vertical : Bool) (threads taps width height dp sp : Int)
    (dst src : Slice Nat) (cof off : Slice Int) : Prop :=
  0 ≤ width ∧ 0 ≤ dp ∧ 0 ≤ taps ∧
  dp * (height - 1) + width ≤ dst.cap ∧
  (if vertical then height else width) * taps ≤ cof.cap ∧
  (if vertical then height else width) ≤ off.cap ∧
  (vertical = true → off.WellFormed ∧ chunk height threads * (threads - 1) ≤ off.len) ∧
  ∀ k : Nat, k < threads.toNat →
    0 ≤ (if vertical then sp * offSum off (k * (chunk height threads).toNat)
          else sp * ((k * (chunk height threads).toNat : Nat) : Int)) ∧
    (if vertical then sp * offSum off (k * (chunk height threads).toNat)
          else sp * ((k * (chunk height threads).toNat : Nat) : Int)) ≤ src.len

instance (vertical : Bool) (threads taps width height dp sp : Int)
    (dst src : Slice Nat) (cof off : Slice Int) :
    Decidable (Adequate vertical threads taps width height dp sp dst src cof off) := by
  unfold Adequate; infer_instance


/-- The bytes of output row `r` of a run on the whole buffers (a single range starting
at row 0): pairs (index in the destination buffer, value). -/
def rowWrites (rescale : Int → Int) (vertical : Bool) (src : Slice Nat)
    (cof off : Slice Int) (taps width height dp sp : Int) (r : Nat) :
    List (Int × Option Nat) :=
  (List.range width.toNat).map fun (x : Nat) =>
    ((r : Int) * dp + (x : Int),
      routineSample rescale vertical (src.sub 0 src.len)
        (cof.sub 0 ((if vertical then height else width) * taps))
        (off.sub 0 (if vertical then height else width)) taps sp r x)

/-- The workers of iterations `l`, in closed form, without the skipped ones. -/
def launchedOf (scaler : Scaler) (vertical : Bool) (taps width height dp sp : Int)
    (off : Slice Int) (T m : Nat) (l : List Nat) : List Worker :=
  (l.map (workerAt scaler vertical taps width height dp sp off T m)).filter
    (fun w => decide (w.height ≠ 0))

/-- The value `field` of `Resize`: 1 for a vertical interlaced configuration, else 0. -/
def Context.field (c : Context) : Int := bin (c.cfg.Vertical && c.cfg.Interlaced)

/-- The value `dwidth` of `Resize`. -/
def Context.dwidth (c : Context) (width : Int) : Int :=
  if c.cfg.Vertical then width else c.cfg.Output

/-- The value `dheight` of `Resize`. -/
def Context.dheight (c : Context) (height : Int) : Int :=
  if c.cfg.Vertical then c.cfg.Output >>> c.field.toNat else height

/-- The field task `Resize` starts for kernel `k` at index `i`. -/
def fieldTaskAt (c : Context) (width height dp sp : Int) (i : Nat) (k : Kernel) : FieldTask :=
  { scaler := c.scaler, vertical := c.cfg.Vertical, threads := c.cfg.Threads
    taps := k.size, width := c.dwidth width, height := c.dheight height
    dp := dp * 2 ^ c.field.toNat, sp := sp * 2 ^ c.field.toNat
    dstLo := dp * (i : Int), srcLo := sp * (i : Int)
    cof := k.coeffs, off := k.offsets }

/-! ## Sample inputs -/

/-- A two-tap kernel for two output rows. -/
def sampleKernel : Kernel :=
  { size := 2, coeffs := Slice.ofList [32, 32, 32, 32], offsets := Slice.ofList [1, 1] }

/-- A vertical interlaced context: four output rows, two per field, two threads. -/
def sampleInterlaced : Context :=
  { cfg := { Depth := 8, Input := 6, Output := 4, Vertical := true, Interlaced := true,
             Threads := 2 }
    kernels := [sampleKernel, sampleKernel]
    scaler := .v8scale2 }

/-- A destination frame of four rows of two bytes. -/
def sampleDst : Slice Nat := Slice.ofList [0, 0, 0, 0, 0, 0, 0, 0]

/-- A source frame of six rows of two bytes. -/
def sampleSrc : Slice Nat := Slice.ofList [10, 20, 30, 40, 50, 60, 70, 80, 90, 100, 110, 120]

/-- The first worker of either field of the sample interlaced call: one row of two
bytes, rows of its field four bytes apart. -/
def sampleWorker : Worker :=
  { scaler := .v8scale2, dstLo := 0, dstHi := 2, srcLo := 0, cofLo := 0, cofHi := 2
    offLo := 0, offHi := 1, taps := 2, width := 2, height := 1, dp := 4, sp := 4 }

/-! ## Destination rows -/

/-- The destination rows a worker is assigned, each given by the index of its first
byte in the caller's destination buffer (`base` is where the destination buffer of
`scaleSlices` starts in it). -/
def Worker.rowStarts (base : Int) (w : Worker) : List Int :=
  (List.range w.height.toNat).map fun (r : Nat) => base + w.dstLo + (r : Int) * w.dp

/-- The destination rows assigned to the workers a field task launched. -/
def FieldTask.rowStarts (t : FieldTask) (dst src : Slice Nat) : List Int :=
  (t.run dst src).launched.flatMap (Worker.rowStarts t.dstLo)

/-- The destination rows assigned to workers over all the field tasks of a `Resize`
call. -/
def assignedRows (c : Context) (dst src : Slice Nat) (width height dp sp : Int) : List Int :=
  (Resize c dst src width height dp sp).tasks.flatMap fun t => t.rowStarts dst src

/-- A vertical interlaced context with an odd output extent: five output rows. -/
def sampleOdd : Context :=
  { cfg := { Depth := 8, Input := 6, Output := 5, Vertical := true, Interlaced := true,
             Threads := 1 }
    kernels := [sampleKernel, sampleKernel]
    scaler := .v8scale2 }

/-- A destination frame of five rows of two bytes. -/
def sampleDst5 : Slice Nat := Slice.ofList [0, 0, 0, 0, 0, 0, 0, 0, 0, 0]

/-- The elements of a slice, first to last. -/
def Slice.toList {α : Type} (s : Slice α) : List α := s.store.take s.len

/-! ## Sample inputs for one partition -/

/-- Offsets of a vertical kernel for seven output rows from ten source rows. -/
def sampleOff7 : Slice Int := Slice.ofList [1, 2, 1, 2, 1, 2, 1]

/-- Worker 0 of the partition of seven rows of two bytes into three ranges
(`dp = sp = 2`, two taps, offsets `sampleOff7`): rows 0 and 1. -/
def sampleFirst : Worker :=
  { scaler := .v8scale2, dstLo := 0, dstHi := 4, srcLo := 0, cofLo := 0, cofHi := 4
    offLo := 0, offHi := 2, taps := 2, width := 2, height := 2, dp := 2, sp := 2 }

/-- Worker 2, the last, of the same partition: rows 4, 5 and 6. -/
def sampleLast : Worker :=
  { scaler := .v8scale2, dstLo := 8, dstHi := 14, srcLo := 12, cofLo := 8, cofHi := 14
    offLo := 4, offHi := 7, taps := 2, width := 2, height := 3, dp := 2, sp := 2 }

/-- Coefficients of a two-tap kernel for seven output rows. -/
def sampleCof7 : Slice Int := Slice.ofList [32, 32, 16, 48, 48, 16, 32, 32, 16, 48, 48, 16, 32, 32]

/-- Worker 1 of the horizontal partition of four rows of two bytes into two ranges
(`dp = 2`, `sp = 3`, two taps): rows 2 and 3. -/
def sampleHorizontal : Worker :=
  { scaler := .h8scale2, dstLo := 4, dstHi := 8, srcLo := 6, cofLo := 0, cofHi := 4
    offLo := 0, offHi := 2, taps := 2, width := 2, height := 2, dp := 2, sp := 3 }

/-! ## Sample inputs for construction -/

/-- A kernel builder whose tap count depends on the field: 4 taps for field 0, 6 for
field 1, two output rows each. -/
def sampleMk (_ : Config) (_ : Unit) (field : Int) : Kernel :=
  { size := 4 + 2 * field
    coeffs := Slice.ofList (List.replicate (2 * (4 + 2 * field).toNat) 8)
    offsets := Slice.ofList [1, 1] }

/-- A vertical interlaced configuration: four output rows, one thread. -/
def sampleConfig : Config :=
  { Depth := 16, Input := 6, Output := 4, Vertical := true, Interlaced := true, Threads := 1 }

/-- A source frame of twenty rows of two bytes. -/
def sampleSrc40 : Slice Nat := Slice.ofList (List.replicate 40 7)

/-- The vertical interlaced sample context with one thread: each field is one range of
two rows. -/
def sampleInterlacedOne : Context :=
  { sampleInterlaced with cfg := { sampleInterlaced.cfg with Threads := 1 } }

/-- The single worker of either field of `sampleInterlacedOne`: two rows of two bytes,
four bytes apart. -/
def sampleFieldWorker : Worker :=
  { scaler := .v8scale2, dstLo := 0, dstHi := 6, srcLo := 0, cofLo := 0, cofHi := 4
    offLo := 0, offHi := 2, taps := 2, width := 2, height := 2, dp := 4, sp := 4 }

/-- The second worker of either field of the sample interlaced call with two threads:
the second row of the field. -/
def sampleSecond : Worker :=
  { scaler := .v8scale2, dstLo := 4, dstHi := 6, srcLo := 4, cofLo := 2, cofHi := 4
    offLo := 1, offHi := 2, taps := 2, width := 2, height := 1, dp := 4, sp := 4 }

/-! ## The kernel builder -/

/-- Modelled from the spec: `makeKernel`, the filter-design collaborator (`BuildKernel`
in section 6 of the specification), is not part of `resize.go`.  Section 3 has a Kernel
"created once at construction time from a Filter specification and a (input-extent,
output-extent) pair", with `taps` the "number of source samples contributing to each
output sample"; the field index asks for the tables of the alternate field.  A builder
is a tap count determined by the configuration and the filter, and coefficient and
offset tables that may also depend on the field. -/
structure KernelBuilder (F : Type) where
  /-- Tap count for a configuration and a filter. -/
  taps : Config → F → Int
  /-- Coefficient table for a configuration, a filter and a field. -/
  coeffs : Config → F → Int → Slice Int
  /-- Offset table for a configuration, a filter and a field. -/
  offsets : Config → F → Int → Slice Int

/-- Modelled from the spec: `makeKernel(cfg, filter, field)` for a builder of the
specification: the kernel of the field, with the builder's tap count. -/
def KernelBuilder.makeKernel {F : Type} (b : KernelBuilder F) (cfg : Config) (filter : F)
    (field : Int) : Kernel :=
  { size := b.taps cfg filter
    coeffs := b.coeffs cfg filter field
    offsets := b.offsets cfg filter field }

/-- A builder of four-tap kernels with two output rows per field; the coefficient table
of field 1 differs from that of field 0. -/
def sampleBuilder : KernelBuilder Unit :=
  { taps := fun _ _ => 4
    coeffs := fun _ _ field => Slice.ofList (List.replicate 8 (8 + field))
    offsets := fun _ _ _ => Slice.ofList [1, 1] }

/-! # Theorems -/

/-! ## Lemmas on slices -/

theorem Slice.slice_eq_some {α : Type} (s : Slice α) (lo hi : Int)
    (h : 0 ≤ lo ∧ lo ≤ hi ∧ hi ≤ s.cap) :
    s.slice lo hi = some (s.sub lo hi) := by
  unfold Slice.slice; rw [if_pos h]

theorem Slice.sliceFrom_eq_some {α : Type} (s : Slice α) (lo : Int)
    (h : 0 ≤ lo ∧ lo ≤ s.len) :
    s.sliceFrom lo = some (s.sub lo s.len) := by
  unfold Slice.sliceFrom; rw [if_pos h]

theorem Slice.index_natCast {α : Type} (s : Slice α) (i : Nat) (h : i < s.len)
    (hwf : s.WellFormed) :
    ∃ h2 : i < s.store.length, s.index (i : Int) = some (s.store.get ⟨i, h2⟩) := by
  have h2 : i < s.store.length := lt_of_lt_of_le h hwf
  refine ⟨h2, ?_⟩
  unfold Slice.index
  rw [if_pos ⟨by omega, by omega⟩]
  simp [List.getElem?_eq_getElem h2]

theorem srcWalk_eq (off : Slice Int) (sp : Int) (a : Nat) (hwf : off.WellFormed) :
    ∀ (n j : Nat) (s : Int), a + j + n ≤ off.len →
      srcWalk off sp (a : Int) n (j : Int) s
        = some (s + sp * ((off.store.drop (a + j)).take n).sum) := by
  intro n
  induction n with
  | zero => intro j s _; simp [srcWalk]
  | succ n ih =>
    intro j s h
    obtain ⟨h2, hidx⟩ := off.index_natCast (a + j) (by omega) hwf
    have hcast : ((a : Int) + (j : Int)) = ((a + j : Nat) : Int) := by push_cast; ring
    unfold srcWalk
    rw [hcast, hidx]
    have := ih (j + 1) (s + sp * off.store.get ⟨a + j, h2⟩) (by omega)
    have hj : ((j : Int) + 1) = ((j + 1 : Nat) : Int) := by push_cast; ring
    simp only [hj]
    rw [this, List.drop_eq_getElem_cons h2, List.take_succ_cons, List.sum_cons]
    simp only [List.get_eq_getElem]
    congr 1
    have : a + (j + 1) = a + j + 1 := by omega
    rw [this]; ring

theorem offSum_add (off : Slice Int) (r n : Nat) :
    offSum off (r + n) = offSum off r + ((off.store.drop r).take n).sum := by
  unfold offSum
  rw [List.take_add, List.sum_append]

theorem rangeLen_of_not_last (height : Int) (T m k : Nat) (h : k + 1 ≠ T) :
    rangeLen height T m k = (m : Int) := by
  unfold rangeLen; rw [if_neg h]

theorem cursorAt_step (vertical : Bool) (taps dp sp : Int) (off : Slice Int) (i m : Nat) :
    cursorAt vertical taps dp sp off ((i + 1) * m) =
      { dst_idx := (cursorAt vertical taps dp sp off (i * m)).dst_idx + (m : Int) * dp
        src_idx := if vertical then
            (cursorAt vertical taps dp sp off (i * m)).src_idx
              + sp * ((off.store.drop (i * m)).take m).sum
          else (cursorAt vertical taps dp sp off (i * m)).src_idx + sp * (m : Int)
        off_idx := if vertical then
            (cursorAt vertical taps dp sp off (i * m)).off_idx + (m : Int)
          else (cursorAt vertical taps dp sp off (i * m)).off_idx
        cof_idx := if vertical then
            (cursorAt vertical taps dp sp off (i * m)).cof_idx + (m : Int) * taps
          else (cursorAt vertical taps dp sp off (i * m)).cof_idx } := by
  have hr : (i + 1) * m = i * m + m := by ring
  cases vertical
  · simp only [cursorAt, hr]
    congr 1 <;> simp <;> ring
  · simp only [cursorAt, hr, offSum_add]
    congr 1 <;> simp <;> ring

theorem sliceLoop_eq (scaler : Scaler) (vertical : Bool) (taps width height dp sp : Int)
    (dst src : Slice Nat) (cof off : Slice Int) (T m : Nat) (hm : 1 ≤ m)
    (hb : ∀ k, k < T → rangeLen height T m k ≠ 0 →
      (workerAt scaler vertical taps width height dp sp off T m k).InBounds dst src cof off)
    (hoff : vertical = true → ∀ k, k + 1 < T → (k + 1) * m ≤ off.len)
    (hwf : vertical = true → off.WellFormed) :
    ∀ n i : Nat, i + n = T →
      sliceLoop scaler vertical (T : Int) taps width height dp sp (m : Int) dst src cof off
          n (i : Int) (cursorAt vertical taps dp sp off (i * m))
        = ⟨((List.range' i n).map (workerAt scaler vertical taps width height dp sp off T m)).filter
            (fun w => decide (w.height ≠ 0)), none⟩ := by
  intro n
  induction n with
  | zero => intro i _; simp [sliceLoop]
  | succ n ih =>
    intro i hin
    have hlast : ((i : Int) + 1 = (T : Int)) ↔ i + 1 = T := by
      constructor <;> intro h <;> omega
    have hih : (if decide ((i : Int) + 1 = (T : Int)) = true
        then height - (m : Int) * ((T : Int) - 1) else (m : Int)) = rangeLen height T m i := by
      unfold rangeLen
      by_cases h : i + 1 = T
      · rw [if_pos h, if_pos (by simpa using hlast.mpr h)]
      · rw [if_neg h, if_neg (by simpa using fun h2 => h (hlast.mp h2))]
    rw [List.range'_succ, List.map_cons, List.filter_cons]
    unfold sliceLoop
    simp only [hih]
    by_cases h0 : rangeLen height T m i = 0
    · have hl : i + 1 = T := by
        by_contra hne
        rw [rangeLen_of_not_last _ _ _ _ hne] at h0
        omega
      have hn : n = 0 := by omega
      subst hn
      have hw : (workerAt scaler vertical taps width height dp sp off T m i).height = 0 := h0
      simp [h0, sliceLoop, hw]
    · have hw : (workerAt scaler vertical taps width height dp sp off T m i).height ≠ 0 := h0
      obtain ⟨hd, hs, hc, ho⟩ := hb i (by omega) h0
      rw [if_neg h0, if_pos (decide_eq_true hw)]
      have e1 := dst.slice_eq_some _ _ hd
      have e2 := src.sliceFrom_eq_some _ hs
      have e3 := cof.slice_eq_some _ _ hc
      have e4 := off.slice_eq_some _ _ ho
      simp only [workerAt] at e1 e2 e3 e4
      simp only [e1, e2, e3, e4]
      by_cases hl : i + 1 = T
      · have hn : n = 0 := by omega
        subst hn
        simp [hlast.mpr hl, workerAt]
      · have hl2 : ¬ ((i : Int) + 1 = (T : Int)) := fun h => hl (hlast.mp h)
        have hrl := rangeLen_of_not_last height T m i hl
        simp only [hl2, decide_False, Bool.false_eq_true, if_false]
        have hstep := ih (i + 1) (by omega)
        rw [cursorAt_step] at hstep
        have hcast : ((i : Int) + 1) = ((i + 1 : Nat) : Int) := by push_cast; ring
        cases vertical with
        | false =>
          simp only [Bool.false_eq_true, if_false] at hstep ⊢
          simp only [hrl, hcast]
          have hcur : ({ cursorAt false taps dp sp off (i * m) with
              dst_idx := (cursorAt false taps dp sp off (i * m)).dst_idx + (m : Int) * dp
              src_idx := (cursorAt false taps dp sp off (i * m)).src_idx + sp * (m : Int) } : Cursor)
              = { dst_idx := (cursorAt false taps dp sp off (i * m)).dst_idx + (m : Int) * dp
                  src_idx := (cursorAt false taps dp sp off (i * m)).src_idx + sp * (m : Int)
                  off_idx := (cursorAt false taps dp sp off (i * m)).off_idx
                  cof_idx := (cursorAt false taps dp sp off (i * m)).cof_idx } := rfl
          rw [hcur, hstep]
          simp [Outcome.push, workerAt, hrl]
        | true =>
          simp only [if_true] at hstep ⊢
          have hlen := hoff rfl i (by omega)
          have hwalk := srcWalk_eq off sp (i * m) (hwf rfl) m 0 (cursorAt true taps dp sp off (i * m)).src_idx
            (by have : (i + 1) * m = i * m + m := by ring
                omega)
          have hoi : (cursorAt true taps dp sp off (i * m)).off_idx = ((i * m : Nat) : Int) := by
            simp [cursorAt]
          simp only [hrl, hcast, Int.toNat_natCast, hoi]
          have h00 : (0 : Int) = ((0 : Nat) : Int) := rfl
          rw [h00, hwalk]
          simp only [Nat.add_zero]
          rw [← hoi, hstep]
          simp [Outcome.push, workerAt, hrl]
theorem chunk_of_le (height threads : Int) (h1 : 1 ≤ threads) (h2 : threads ≤ height) :
    1 ≤ chunk height threads ∧ chunk height threads * threads ≤ height ∧
      chunk height threads = height / threads := by
  have hdiv : Int.tdiv height threads = height / threads :=
    Int.tdiv_eq_ediv (by omega) (by omega)
  have hge : 1 ≤ height / threads := by
    rw [Int.le_ediv_iff_mul_le (by omega)]; omega
  have hmul : height / threads * threads ≤ height := Int.ediv_mul_le _ (by omega)
  unfold chunk
  rw [hdiv, if_neg (by omega)]
  exact ⟨hge, hmul, rfl⟩

theorem rangeLen_bounds (height : Int) (T m k : Nat) (hm : 1 ≤ m)
    (hTm : ((T * m : Nat) : Int) ≤ height) (hk : k < T) :
    1 ≤ rangeLen height T m k ∧ ((k * m : Nat) : Int) + rangeLen height T m k ≤ height := by
  unfold rangeLen
  by_cases hl : k + 1 = T
  · rw [if_pos hl]
    subst hl
    push_cast at hTm ⊢
    constructor
    · nlinarith
    · nlinarith
  · rw [if_neg hl]
    have h1 : (k + 1) * m ≤ T * m := Nat.mul_le_mul_right m (by omega)
    have h2 : (((k + 1) * m : Nat) : Int) ≤ ((T * m : Nat) : Int) := by exact_mod_cast h1
    push_cast at h2 hTm ⊢
    constructor
    · omega
    · nlinarith

theorem adequate_inBounds (scaler : Scaler) (vertical : Bool)
    (threads taps width height dp sp : Int)
    (dst src : Slice Nat) (cof off : Slice Int)
    (h1 : 1 ≤ threads) (h2 : threads ≤ height)
    (ha : Adequate vertical threads taps width height dp sp dst src cof off)
    (k : Nat) (hk : k < threads.toNat) :
    (workerAt scaler vertical taps width height dp sp off threads.toNat
      (chunk height threads).toNat k).InBounds dst src cof off := by
  obtain ⟨hw, hdp, htaps, hdst, hcof, hoff, _, hsrc⟩ := ha
  obtain ⟨hc1, hc2, _⟩ := chunk_of_le height threads h1 h2
  have hmc : (((chunk height threads).toNat : Nat) : Int) = chunk height threads :=
    Int.toNat_of_nonneg (by omega)
  have hTc : ((threads.toNat : Nat) : Int) = threads := Int.toNat_of_nonneg (by omega)
  have hm : 1 ≤ (chunk height threads).toNat := by omega
  have hTm : ((threads.toNat * (chunk height threads).toNat : Nat) : Int) ≤ height := by
    push_cast; rw [hmc, hTc]; linarith
  obtain ⟨hr1, hr2⟩ := rangeLen_bounds height _ _ k hm hTm hk
  have hs := hsrc k hk
  set m := (chunk height threads).toNat
  set ih := rangeLen height threads.toNat m k
  have hr0 : (0 : Int) ≤ ((k * m : Nat) : Int) := Int.natCast_nonneg _
  set r : Int := ((k * m : Nat) : Int)
  have hprod : dp * (r + ih - 1) ≤ dp * (height - 1) :=
    mul_le_mul_of_nonneg_left (by omega) hdp
  have hprod2 : 0 ≤ dp * (ih - 1) := mul_nonneg hdp (by omega)
  have hrd : 0 ≤ r * dp := mul_nonneg hr0 hdp
  have hrt : 0 ≤ r * taps := mul_nonneg hr0 htaps
  have hit : 0 ≤ ih * taps := mul_nonneg (by omega) htaps
  have hwt : 0 ≤ width * taps := mul_nonneg hw htaps
  have hprod3 : (r + ih) * taps ≤ height * taps :=
    mul_le_mul_of_nonneg_right hr2 htaps
  cases vertical with
  | false =>
    simp only [Bool.false_eq_true, if_false] at hcof hoff hs
    simp only [Worker.InBounds, workerAt, cursorAt, Bool.false_eq_true, if_false]
    refine ⟨⟨hrd, by linarith, by linarith⟩, hs, ⟨le_refl _, by linarith, by linarith⟩,
      ⟨le_refl _, by linarith, by linarith⟩⟩
  | true =>
    simp only [if_true] at hcof hoff hs
    simp only [Worker.InBounds, workerAt, cursorAt, if_true]
    refine ⟨⟨hrd, by linarith, by linarith⟩, hs, ⟨hrt, by linarith, by linarith⟩,
      ⟨hr0, by linarith, by linarith⟩⟩

theorem filter_height_eq (l : List Worker) (h : ∀ w ∈ l, w.height ≠ 0) :
    l.filter (fun w => decide (w.height ≠ 0)) = l :=
  List.filter_eq_self.mpr (fun w hw => decide_eq_true (h w hw))

/-- Closed form of a run with `1 ≤ threads ≤ height` on adequate buffers: no panic, and
the launched workers are `workerAt 0, ..., workerAt (threads - 1)`. -/
theorem scaleSlices_eq (scaler : Scaler) (vertical : Bool)
    (threads taps width height dp sp : Int)
    (dst src : Slice Nat) (cof off : Slice Int)
    (h1 : 1 ≤ threads) (h2 : threads ≤ height)
    (ha : Adequate vertical threads taps width height dp sp dst src cof off) :
    scaleSlices scaler vertical threads taps width height dp sp dst src cof off
      = ⟨(List.range threads.toNat).map
          (workerAt scaler vertical taps width height dp sp off threads.toNat
            (chunk height threads).toNat), none⟩ := by
  obtain ⟨hc1, hc2, _⟩ := chunk_of_le height threads h1 h2
  have hmc : (((chunk height threads).toNat : Nat) : Int) = chunk height threads :=
    Int.toNat_of_nonneg (by omega)
  have hTc : ((threads.toNat : Nat) : Int) = threads := Int.toNat_of_nonneg (by omega)
  have hm : 1 ≤ (chunk height threads).toNat := by omega
  have hTm : ((threads.toNat * (chunk height threads).toNat : Nat) : Int) ≤ height := by
    push_cast; rw [hmc, hTc]; linarith
  have hb := adequate_inBounds scaler vertical threads taps width height dp sp dst src cof off
    h1 h2 ha
  have hoffl : vertical = true → ∀ k, k + 1 < threads.toNat →
      (k + 1) * (chunk height threads).toNat ≤ off.len := by
    intro hv k hk
    have hlen := (ha.2.2.2.2.2.2.1 hv).2
    have h3 : (k + 1) * (chunk height threads).toNat
        ≤ (threads.toNat - 1) * (chunk height threads).toNat :=
      Nat.mul_le_mul_right _ (by omega)
    have h4 : (((threads.toNat - 1) * (chunk height threads).toNat : Nat) : Int) ≤ off.len := by
      have : ((threads.toNat - 1 : Nat) : Int) = threads - 1 := by omega
      push_cast
      rw [this, hmc]
      linarith
    have h5 : (((k + 1) * (chunk height threads).toNat : Nat) : Int) ≤ off.len :=
      le_trans (by exact_mod_cast h3) h4
    exact_mod_cast h5
  have hwf : vertical = true → off.WellFormed := fun hv => (ha.2.2.2.2.2.2.1 hv).1
  unfold scaleSlices
  rw [if_neg (by omega)]
  have hloop := sliceLoop_eq scaler vertical taps width height dp sp dst src cof off
    threads.toNat (chunk height threads).toNat hm (fun k hk _ => hb k hk) hoffl hwf
    threads.toNat 0 (by omega)
  have hc0 : cursorAt vertical taps dp sp off (0 * (chunk height threads).toNat)
      = ⟨0, 0, 0, 0⟩ := by
    cases vertical <;> simp [cursorAt, offSum]
  rw [hc0, hTc, hmc] at hloop
  rw [show ((0 : Nat) : Int) = 0 from rfl] at hloop
  rw [hloop, List.range_eq_range']
  congr 1
  apply filter_height_eq
  intro w hw
  obtain ⟨k, hk, rfl⟩ := List.mem_map.mp hw
  have hk2 : k < threads.toNat := by
    have := List.mem_range'_1.mp hk
    omega
  have := (rangeLen_bounds height _ _ k hm hTm hk2).1
  show rangeLen height threads.toNat (chunk height threads).toNat k ≠ 0
  omega

/-! ## Runs that may panic: what was launched is an initial part of the closed form -/

theorem Slice.index_some {α : Type} (s : Slice α) (i : Nat) (d : α)
    (h : s.index (i : Int) = some d) :
    ∃ h2 : i < s.store.length, s.store.get ⟨i, h2⟩ = d := by
  unfold Slice.index at h
  split at h
  · simp only [Int.toNat_natCast, List.get?_eq_getElem?] at h
    obtain ⟨h2, h3⟩ := List.getElem?_eq_some_iff.mp h
    exact ⟨h2, h3⟩
  · cases h

theorem srcWalk_some (off : Slice Int) (sp : Int) (a : Nat) :
    ∀ (n j : Nat) (s s2 : Int),
      srcWalk off sp (a : Int) n (j : Int) s = some s2 →
        s2 = s + sp * ((off.store.drop (a + j)).take n).sum := by
  intro n
  induction n with
  | zero =>
    intro j s s2 h
    simp only [srcWalk, Option.some.injEq] at h
    simp [h]
  | succ n ih =>
    intro j s s2 h
    unfold srcWalk at h
    have hcast : ((a : Int) + (j : Int)) = ((a + j : Nat) : Int) := by push_cast; ring
    rw [hcast] at h
    cases hidx : off.index ((a + j : Nat) : Int) with
    | none => rw [hidx] at h; cases h
    | some d =>
      rw [hidx] at h
      simp only [] at h
      obtain ⟨h2, h3⟩ := off.index_some (a + j) d hidx
      have hj : ((j : Int) + 1) = ((j + 1 : Nat) : Int) := by push_cast; ring
      rw [hj] at h
      have := ih (j + 1) _ s2 h
      rw [this, List.drop_eq_getElem_cons h2, List.take_succ_cons, List.sum_cons]
      have h4 : off.store[a + j] = d := h3
      have h5 : a + (j + 1) = a + j + 1 := by omega
      rw [h4, h5]; ring

/-- Whatever the buffers, the workers launched by the loop of `scaleSlices` from
iteration `i` on are the closed-form workers of iterations `i, ..., i + p - 1` for some
`p`; and if the run does not panic, of all the iterations left. -/
theorem sliceLoop_launched (scaler : Scaler) (vertical : Bool) (taps width height dp sp : Int)
    (dst src : Slice Nat) (cof off : Slice Int) (T m : Nat) (hm : 1 ≤ m) :
    ∀ n i : Nat, i + n = T →
      ∃ p, p ≤ n ∧
        (sliceLoop scaler vertical (T : Int) taps width height dp sp (m : Int) dst src cof off
          n (i : Int) (cursorAt vertical taps dp sp off (i * m))).launched
          = launchedOf scaler vertical taps width height dp sp off T m (List.range' i p) ∧
        ((sliceLoop scaler vertical (T : Int) taps width height dp sp (m : Int) dst src cof off
          n (i : Int) (cursorAt vertical taps dp sp off (i * m))).fault = none → p = n) := by
  intro n
  induction n with
  | zero => intro i _; exact ⟨0, le_refl _, by simp [sliceLoop, launchedOf], fun _ => rfl⟩
  | succ n ih =>
    intro i hin
    have hlast : ((i : Int) + 1 = (T : Int)) ↔ i + 1 = T := by
      constructor <;> intro h <;> omega
    have hih : (if decide ((i : Int) + 1 = (T : Int)) = true
        then height - (m : Int) * ((T : Int) - 1) else (m : Int)) = rangeLen height T m i := by
      unfold rangeLen
      by_cases h : i + 1 = T
      · rw [if_pos h, if_pos (by simpa using hlast.mpr h)]
      · rw [if_neg h, if_neg (by simpa using fun h2 => h (hlast.mp h2))]
    unfold sliceLoop
    simp only [hih]
    by_cases h0 : rangeLen height T m i = 0
    · have hl : i + 1 = T := by
        by_contra hne
        rw [rangeLen_of_not_last _ _ _ _ hne] at h0
        omega
      have hn : n = 0 := by omega
      subst hn
      have hw : (workerAt scaler vertical taps width height dp sp off T m i).height = 0 := h0
      refine ⟨1, le_refl _, ?_, fun _ => rfl⟩
      simp [h0, sliceLoop, launchedOf, hw]
    · have hw : (workerAt scaler vertical taps width height dp sp off T m i).height ≠ 0 := h0
      have hone : launchedOf scaler vertical taps width height dp sp off T m (List.range' i 1)
          = [workerAt scaler vertical taps width height dp sp off T m i] := by
        simp [launchedOf, hw]
      have hcons : ∀ p, launchedOf scaler vertical taps width height dp sp off T m
          (List.range' i (p + 1))
          = workerAt scaler vertical taps width height dp sp off T m i ::
            launchedOf scaler vertical taps width height dp sp off T m (List.range' (i + 1) p) := by
        intro p
        unfold launchedOf
        rw [List.range'_succ, List.map_cons, List.filter_cons, if_pos (decide_eq_true hw)]
      rw [if_neg h0]
      cases hd : dst.slice (cursorAt vertical taps dp sp off (i * m)).dst_idx
          ((cursorAt vertical taps dp sp off (i * m)).dst_idx
            + dp * (rangeLen height T m i - 1) + width) with
      | none => exact ⟨0, by omega, by simp [launchedOf], by simp⟩
      | some _ =>
        cases hs : src.sliceFrom (cursorAt vertical taps dp sp off (i * m)).src_idx with
        | none => exact ⟨0, by omega, by simp [launchedOf], by simp⟩
        | some _ =>
          cases hc : cof.slice (cursorAt vertical taps dp sp off (i * m)).cof_idx
              ((cursorAt vertical taps dp sp off (i * m)).cof_idx
                + (if vertical = true then rangeLen height T m i else width) * taps) with
          | none => exact ⟨0, by omega, by simp [launchedOf], by simp⟩
          | some _ =>
            cases ho : off.slice (cursorAt vertical taps dp sp off (i * m)).off_idx
                ((cursorAt vertical taps dp sp off (i * m)).off_idx
                  + if vertical = true then rangeLen height T m i else width) with
            | none => exact ⟨0, by omega, by simp [launchedOf], by simp⟩
            | some _ =>
              simp only []
              by_cases hl : i + 1 = T
              · have hn : n = 0 := by omega
                subst hn
                refine ⟨1, le_refl _, ?_, fun _ => rfl⟩
                rw [hone]
                simp [hlast.mpr hl, workerAt]
              · have hl2 : ¬ ((i : Int) + 1 = (T : Int)) := fun h => hl (hlast.mp h)
                have hrl := rangeLen_of_not_last height T m i hl
                simp only [hl2, decide_False, Bool.false_eq_true, if_false]
                obtain ⟨p, hp, hlaunched, hfault⟩ := ih (i + 1) (by omega)
                rw [cursorAt_step] at hlaunched hfault
                have hcast : ((i : Int) + 1) = ((i + 1 : Nat) : Int) := by push_cast; ring
                cases vertical with
                | false =>
                  simp only [Bool.false_eq_true, if_false] at hlaunched hfault ⊢
                  simp only [hrl, hcast]
                  have hcur : ({ cursorAt false taps dp sp off (i * m) with
                      dst_idx := (cursorAt false taps dp sp off (i * m)).dst_idx + (m : Int) * dp
                      src_idx := (cursorAt false taps dp sp off (i * m)).src_idx + sp * (m : Int) }
                        : Cursor)
                      = { dst_idx := (cursorAt false taps dp sp off (i * m)).dst_idx + (m : Int) * dp
                          src_idx := (cursorAt false taps dp sp off (i * m)).src_idx + sp * (m : Int)
                          off_idx := (cursorAt false taps dp sp off (i * m)).off_idx
                          cof_idx := (cursorAt false taps dp sp off (i * m)).cof_idx } := rfl
                  rw [hcur]
                  refine ⟨p + 1, by omega, ?_, fun hf => by rw [hfault hf]⟩
                  rw [hcons p]
                  simp only [Outcome.push, hlaunched]
                  simp [workerAt, hrl]
                | true =>
                  simp only [if_true] at hlaunched hfault ⊢
                  have hoi : (cursorAt true taps dp sp off (i * m)).off_idx
                      = ((i * m : Nat) : Int) := by
                    simp [cursorAt]
                  simp only [hrl, hcast, Int.toNat_natCast, hoi]
                  have h00 : (0 : Int) = ((0 : Nat) : Int) := rfl
                  rw [h00]
                  cases hwalk : srcWalk off sp ((i * m : Nat) : Int) m ((0 : Nat) : Int)
                      (cursorAt true taps dp sp off (i * m)).src_idx with
                  | none =>
                    refine ⟨1, by omega, ?_, by simp⟩
                    rw [hone]
                    simp [workerAt, hrl, cursorAt]
                  | some s =>
                    have hs2 := srcWalk_some off sp (i * m) m 0 _ s hwalk
                    simp only [Nat.add_zero] at hs2
                    simp only []
                    rw [hs2, ← hoi]
                    refine ⟨p + 1, by omega, ?_, fun hf => by rw [hfault hf]⟩
                    rw [hcons p]
                    simp only [Outcome.push, hlaunched]
                    simp [workerAt, hrl]

/-- Whatever the buffers, for `1 ≤ threads ≤ height` the `k`-th worker `scaleSlices`
launched is the closed-form worker of iteration `k`. -/
theorem scaleSlices_launched (scaler : Scaler) (vertical : Bool)
    (threads taps width height dp sp : Int)
    (dst src : Slice Nat) (cof off : Slice Int)
    (h1 : 1 ≤ threads) (h2 : threads ≤ height) :
    ∃ p, p ≤ threads.toNat ∧
      (scaleSlices scaler vertical threads taps width height dp sp dst src cof off).launched
        = (List.range p).map (workerAt scaler vertical taps width height dp sp off
            threads.toNat (chunk height threads).toNat) ∧
      ((scaleSlices scaler vertical threads taps width height dp sp dst src cof off).fault = none
        → p = threads.toNat) := by
  obtain ⟨hc1, hc2, _⟩ := chunk_of_le height threads h1 h2
  have hmc : (((chunk height threads).toNat : Nat) : Int) = chunk height threads :=
    Int.toNat_of_nonneg (by omega)
  have hTc : ((threads.toNat : Nat) : Int) = threads := Int.toNat_of_nonneg (by omega)
  have hm : 1 ≤ (chunk height threads).toNat := by omega
  have hTm : ((threads.toNat * (chunk height threads).toNat : Nat) : Int) ≤ height := by
    push_cast; rw [hmc, hTc]; linarith
  have hloop := sliceLoop_launched scaler vertical taps width height dp sp dst src cof off
    threads.toNat (chunk height threads).toNat hm threads.toNat 0 (by omega)
  have hc0 : cursorAt vertical taps dp sp off (0 * (chunk height threads).toNat)
      = ⟨0, 0, 0, 0⟩ := by
    cases vertical <;> simp [cursorAt, offSum]
  rw [hc0, hTc, hmc] at hloop
  rw [show ((0 : Nat) : Int) = 0 from rfl] at hloop
  obtain ⟨p, hp, hl, hf⟩ := hloop
  refine ⟨p, hp, ?_, ?_⟩
  · unfold scaleSlices
    rw [if_neg (by omega), hl, List.range_eq_range']
    apply filter_height_eq
    intro w hw
    obtain ⟨k, hk, rfl⟩ := List.mem_map.mp hw
    have hk2 : k < threads.toNat := by
      have := List.mem_range'_1.mp hk
      omega
    have := (rangeLen_bounds height _ _ k hm hTm hk2).1
    show rangeLen height threads.toNat (chunk height threads).toNat k ≠ 0
    omega
  · intro h
    apply hf
    unfold scaleSlices at h
    rw [if_neg (by omega)] at h
    exact h

theorem scaleSlices_launched_getElem (scaler : Scaler) (vertical : Bool)
    (threads taps width height dp sp : Int)
    (dst src : Slice Nat) (cof off : Slice Int)
    (h1 : 1 ≤ threads) (h2 : threads ≤ height) (k : Nat) (w : Worker)
    (hw : (scaleSlices scaler vertical threads taps width height dp sp dst src cof off).launched[k]?
      = some w) :
    k < threads.toNat ∧
      w = workerAt scaler vertical taps width height dp sp off threads.toNat
        (chunk height threads).toNat k := by
  obtain ⟨p, hp, hl, _⟩ := scaleSlices_launched scaler vertical threads taps width height dp sp
    dst src cof off h1 h2
  rw [hl, List.getElem?_map] at hw
  by_cases hk : k < p
  · rw [List.getElem?_range hk] at hw
    simp only [Option.map_some', Option.some.injEq] at hw
    exact ⟨by omega, hw.symm⟩
  · rw [List.getElem?_eq_none (by simpa using hk)] at hw
    cases hw

theorem Slice.sliceFrom_some {α : Type} (s : Slice α) (lo : Int) (v : Slice α)
    (h : s.sliceFrom lo = some v) : s.sliceFrom lo = some (s.sub lo s.len) := by
  unfold Slice.sliceFrom at h ⊢
  split at h
  · rename_i hc; rw [if_pos hc]
  · cases h

theorem fieldLoop_getElem (c : Context) (dst src : Slice Nat) (width height dp sp : Int) :
    ∀ (ks : List Kernel) (i j : Nat) (t : FieldTask),
      (fieldLoop c dst src (c.dwidth width) (c.dheight height) dp sp c.field ks (i : Int)).tasks[j]?
        = some t →
      ∃ k, ks[j]? = some k ∧ t = fieldTaskAt c width height dp sp (i + j) k ∧
        dst.sliceFrom t.dstLo = some (dst.sub t.dstLo dst.len) ∧
        src.sliceFrom t.srcLo = some (src.sub t.srcLo src.len) := by
  intro ks
  induction ks with
  | nil => intro i j t h; simp [fieldLoop] at h
  | cons k ks ih =>
    intro i j t h
    unfold fieldLoop at h
    cases hd : dst.sliceFrom (dp * (i : Int)) with
    | none => rw [hd] at h; simp at h
    | some _ =>
      cases hs : src.sliceFrom (sp * (i : Int)) with
      | none => rw [hd, hs] at h; simp at h
      | some _ =>
        rw [hd, hs] at h
        simp only [ResizeOutcome.push] at h
        cases j with
        | zero =>
          simp only [List.getElem?_cons_zero, Option.some.injEq] at h
          refine ⟨k, by simp, by rw [← h]; simp [fieldTaskAt, Context.dwidth, Context.dheight],
            ?_, ?_⟩
          · rw [← h]; exact dst.sliceFrom_some _ _ hd
          · rw [← h]; exact src.sliceFrom_some _ _ hs
        | succ j =>
          simp only [List.getElem?_cons_succ] at h
          have hcast : ((i : Int) + 1) = ((i + 1 : Nat) : Int) := by push_cast; ring
          rw [hcast] at h
          obtain ⟨k2, hk2, ht, hds, hss⟩ := ih (i + 1) j t h
          refine ⟨k2, by simpa using hk2, ?_, hds, hss⟩
          rw [ht]
          congr 1
          omega

theorem field_cases (c : Context) : c.field = 0 ∨ c.field = 1 := by
  unfold Context.field bin
  split <;> simp

/-- Every field task `Resize` started is the closed-form task of its index, its index
is at most `field`, and its two buffer windows exist. -/
theorem Resize_getElem (c : Context) (dst src : Slice Nat) (width height dp sp : Int)
    (i : Nat) (t : FieldTask)
    (h : (Resize c dst src width height dp sp).tasks[i]? = some t) :
    (i : Int) ≤ c.field ∧ ∃ k, c.kernels[i]? = some k ∧
      t = fieldTaskAt c width height dp sp i k ∧
      dst.sliceFrom t.dstLo = some (dst.sub t.dstLo dst.len) ∧
      src.sliceFrom t.srcLo = some (src.sub t.srcLo src.len) := by
  unfold Resize at h
  simp only [] at h
  split at h
  · obtain ⟨k, hk, ht, hds, hss⟩ := fieldLoop_getElem c dst src width height dp sp _ 0 i t h
    rw [List.getElem?_take] at hk
    split at hk
    · rename_i hlt
      refine ⟨?_, k, hk, by simpa using ht, hds, hss⟩
      have : (c.field) = bin (c.cfg.Vertical && c.cfg.Interlaced) := rfl
      rcases field_cases c with h0 | h0 <;> rw [this] at h0 <;> rw [h0] at hlt <;>
        rw [show c.field = _ from this, h0] <;> simp at hlt <;> omega
    · cases hk
  · simp at h

theorem fieldLoop_tasks (c : Context) (dst src : Slice Nat) (width height dp sp : Int) :
    ∀ (ks : List Kernel) (i : Nat),
      (fieldLoop c dst src (c.dwidth width) (c.dheight height) dp sp c.field ks (i : Int)).fault
        = none →
      (fieldLoop c dst src (c.dwidth width) (c.dheight height) dp sp c.field ks (i : Int)).tasks
        = (ks.enumFrom i).map (fun p => fieldTaskAt c width height dp sp p.1 p.2) := by
  intro ks
  induction ks with
  | nil => intro i _; simp [fieldLoop]
  | cons k ks ih =>
    intro i h
    unfold fieldLoop at h ⊢
    cases hd : dst.sliceFrom (dp * (i : Int)) with
    | none => rw [hd] at h; simp at h
    | some _ =>
      cases hs : src.sliceFrom (sp * (i : Int)) with
      | none => rw [hd, hs] at h; simp at h
      | some _ =>
        rw [hd, hs] at h
        simp only [ResizeOutcome.push] at h ⊢
        have hcast : ((i : Int) + 1) = ((i + 1 : Nat) : Int) := by push_cast; ring
        rw [hcast] at h ⊢
        rw [ih (i + 1) h]
        simp [fieldTaskAt, Context.dwidth, Context.dheight]

theorem Resize_tasks_of_no_fault (c : Context) (dst src : Slice Nat)
    (width height dp sp : Int)
    (hf : (Resize c dst src width height dp sp).fault = none) :
    (Resize c dst src width height dp sp).tasks
      = ((c.kernels.take (1 + c.field).toNat).enumFrom 0).map
          (fun p => fieldTaskAt c width height dp sp p.1 p.2) ∧
    (1 + c.field).toNat ≤ c.kernels.length := by
  unfold Resize at hf ⊢
  simp only [] at hf ⊢
  by_cases hk : 1 + bin (c.cfg.Vertical && c.cfg.Interlaced) ≤ (c.kernels.length : Int)
  · rw [if_pos hk] at hf ⊢
    refine ⟨fieldLoop_tasks c dst src width height dp sp _ 0 hf, ?_⟩
    have : c.field = bin (c.cfg.Vertical && c.cfg.Interlaced) := rfl
    omega
  · rw [if_neg hk] at hf
    simp at hf


/-! ## Reading through windows -/

theorem Slice.sub_index {α : Type} (s : Slice α) (lo hi j : Int) (hlo : 0 ≤ lo) :
    (s.sub lo hi).index j
      = if 0 ≤ j ∧ j < hi - lo then s.store.get? (lo + j).toNat else none := by
  unfold Slice.index Slice.sub
  by_cases h : 0 ≤ j ∧ j < hi - lo
  · rw [if_pos h, if_pos ⟨h.1, by simp only []; omega⟩]
    simp only [List.get?_eq_getElem?, List.getElem?_drop]
    rw [Int.toNat_add hlo h.1]
  · rw [if_neg h, if_neg]
    intro h2
    apply h
    refine ⟨h2.1, ?_⟩
    have := h2.2
    simp only [] at this
    omega

/-- Reading a window at `j` is reading the window that starts at the buffer's first
element at `lo + j`, as long as the two range checks agree. -/
theorem Slice.sub_index_shift {α : Type} (s : Slice α) (lo hi hi2 j : Int)
    (hlo : 0 ≤ lo) (hj : 0 ≤ j) (hiff : j < hi - lo ↔ lo + j < hi2) :
    (s.sub lo hi).index j = (s.sub 0 hi2).index (lo + j) := by
  rw [Slice.sub_index s lo hi j hlo, Slice.sub_index s 0 hi2 (lo + j) (le_refl _)]
  by_cases h : j < hi - lo
  · rw [if_pos ⟨hj, h⟩, if_pos ⟨by omega, by have := hiff.mp h; omega⟩]
    simp
  · rw [if_neg (fun h2 => h h2.2), if_neg]
    intro h2
    apply h
    apply hiff.mpr
    omega

theorem optSum_get (l : List Int) : ∀ n, n ≤ l.length →
    optSum ((List.range n).map (fun j => l.get? j)) = some (l.take n).sum := by
  induction l with
  | nil => intro n hn; simp at hn; subst hn; simp [optSum]
  | cons a l ih =>
    intro n hn
    cases n with
    | zero => simp [optSum]
    | succ n =>
      rw [List.range_succ_eq_map, List.map_cons, List.map_map]
      have h1 : ((fun j => (a :: l).get? j) ∘ Nat.succ) = fun j => l.get? j := by
        funext j; simp
      rw [h1]
      simp only [List.get?_cons_zero, optSum]
      rw [ih n (by simpa using hn)]
      simp

theorem offSum_nonneg (off : Slice Int) (hoff : ∀ d ∈ off.store, 0 ≤ d) (r : Nat) :
    0 ≤ offSum off r :=
  List.sum_nonneg (fun d hd => hoff d (List.mem_of_mem_take hd))

theorem optSum_window (off : Slice Int) (a : Nat) (hi : Int) (n : Nat)
    (h1 : (a : Int) + n ≤ hi) (h2 : hi ≤ off.cap) :
    optSum ((List.range n).map (fun (j : Nat) => (off.sub a hi).index (j : Int)))
      = some ((off.store.drop a).take n).sum := by
  have hcap : (off.cap : Int) = off.store.length := rfl
  rw [← optSum_get (off.store.drop a) n (by simp only [List.length_drop]; omega)]
  congr 1
  apply List.map_congr_left
  intro j hj
  have hj2 : j < n := List.mem_range.mp hj
  rw [Slice.sub_index _ _ _ _ (Int.natCast_nonneg a),
    if_pos ⟨Int.natCast_nonneg j, by omega⟩]
  simp only [List.get?_eq_getElem?, List.getElem?_drop]
  congr 1

/-- A vertical routine run on the windows of a range that starts at output row `a`
computes, for its row `r`, the sample a run on the whole buffers computes for row
`a + r`. -/
theorem routineSample_vertical_shift (rescale : Int → Int) (src : Slice Nat)
    (cof off : Slice Int) (taps sp height ih : Int) (a r x : Nat)
    (htaps : 0 ≤ taps) (hcur : 0 ≤ sp * offSum off a) (hoff : ∀ d ∈ off.store, 0 ≤ d)
    (hr : (r : Int) < ih) (hah : (a : Int) + ih ≤ height) (hcap : height ≤ off.cap) :
    routineSample rescale true (src.sub (sp * offSum off a) src.len)
        (cof.sub ((a : Int) * taps) ((a : Int) * taps + ih * taps))
        (off.sub a ((a : Int) + ih)) taps sp r x
      = routineSample rescale true (src.sub 0 src.len) (cof.sub 0 (height * taps))
          (off.sub 0 height) taps sp (a + r) x := by
  unfold routineSample
  simp only [if_true]
  rw [optSum_window off a _ r (by omega) (by omega)]
  have h0 := optSum_window off 0 height (a + r) (by push_cast; omega) hcap
  simp only [Nat.cast_zero, List.drop_zero] at h0
  rw [h0]
  simp only []
  have hS : 0 ≤ ((off.store.drop a).take r).sum :=
    List.sum_nonneg (fun d hd => hoff d (List.mem_of_mem_drop (List.mem_of_mem_take hd)))
  have hA := offSum_nonneg off hoff a
  have hsum : (off.store.take (a + r)).sum = offSum off a + ((off.store.drop a).take r).sum :=
    offSum_add off a r
  rw [hsum]
  set S := ((off.store.drop a).take r).sum
  unfold sample
  congr 2
  apply List.map_congr_left
  intro i hi
  have hi2 : (i : Int) < taps := by
    have := List.mem_range.mp hi
    omega
  have hi0 : (0 : Int) ≤ (i : Int) := Int.natCast_nonneg i
  have hx0 : (0 : Int) ≤ (x : Int) := Int.natCast_nonneg x
  have hr0 : (0 : Int) ≤ (r : Int) := Int.natCast_nonneg r
  have ha0 : (0 : Int) ≤ (a : Int) := Int.natCast_nonneg a
  unfold tapTerm
  have hc1 : (r : Int) * taps + i < ih * taps := by nlinarith
  have hc2 : (a : Int) * taps + ((r : Int) * taps + i) < height * taps := by nlinarith
  have ec := Slice.sub_index_shift cof ((a : Int) * taps) ((a : Int) * taps + ih * taps)
    (height * taps) ((r : Int) * taps + i) (mul_nonneg ha0 htaps)
    (by nlinarith) (by constructor <;> intro _ <;> omega)
  have es : (src.sub (sp * offSum off a) src.len).index (sp * S + x + sp * i)
      = (src.sub 0 src.len).index (sp * offSum off a + (sp * S + x + sp * i)) := by
    by_cases hsp : 0 ≤ sp
    · exact Slice.sub_index_shift src (sp * offSum off a) src.len src.len
        (sp * S + x + sp * i) hcur
        (by nlinarith [mul_nonneg hsp hS, mul_nonneg hsp hi0])
        (by constructor <;> intro _ <;> omega)
    · have h0a : offSum off a = 0 := by nlinarith
      rw [h0a, mul_zero, zero_add]
  rw [ec, es]
  have e1 : (a : Int) * taps + ((r : Int) * taps + i) = ((a + r : Nat) : Int) * taps + i := by
    push_cast; ring
  have e2 : sp * offSum off a + (sp * S + x + sp * i) = sp * (offSum off a + S) + x + sp * i := by
    ring
  rw [e1, e2]

/-- A horizontal routine run on the source window of a range that starts at output
row `a` computes, for its row `r`, the sample a run on the whole source buffer
computes for row `a + r`. -/
theorem routineSample_horizontal_shift (rescale : Int → Int) (src : Slice Nat)
    (cof off : Slice Int) (taps sp width : Int) (a r x : Nat)
    (hcur : 0 ≤ sp * (a : Int)) (hoff : ∀ d ∈ off.store, 0 ≤ d) :
    routineSample rescale false (src.sub (sp * (a : Int)) src.len)
        (cof.sub 0 (width * taps)) (off.sub 0 width) taps sp r x
      = routineSample rescale false (src.sub 0 src.len) (cof.sub 0 (width * taps))
          (off.sub 0 width) taps sp (a + r) x := by
  unfold routineSample
  simp only [Bool.false_eq_true, if_false]
  cases ho : (off.sub 0 width).index (x : Int) with
  | none => rfl
  | some o =>
    simp only []
    have ho0 : 0 ≤ o := by
      rw [Slice.sub_index _ _ _ _ (le_refl _)] at ho
      split at ho
      · exact hoff o (List.get?_mem ho)
      · cases ho
    unfold sample
    congr 2
    apply List.map_congr_left
    intro i _
    have hi0 : (0 : Int) ≤ (i : Int) := Int.natCast_nonneg i
    have hr0 : (0 : Int) ≤ (r : Int) := Int.natCast_nonneg r
    have ha0 : (0 : Int) ≤ (a : Int) := Int.natCast_nonneg a
    unfold tapTerm
    have es : (src.sub (sp * (a : Int)) src.len).index ((r : Int) * sp + o + 1 * i)
        = (src.sub 0 src.len).index (sp * (a : Int) + ((r : Int) * sp + o + 1 * i)) := by
      by_cases hsp : 0 ≤ sp
      · exact Slice.sub_index_shift src (sp * (a : Int)) src.len src.len
          ((r : Int) * sp + o + 1 * i) hcur
          (by nlinarith [mul_nonneg hr0 hsp])
          (by constructor <;> intro _ <;> omega)
      · have h0a : (a : Int) = 0 := by nlinarith
        rw [h0a, mul_zero, zero_add]
    rw [es]
    have e2 : sp * (a : Int) + ((r : Int) * sp + o + 1 * i)
        = ((a + r : Nat) : Int) * sp + o + 1 * i := by
      push_cast; ring
    rw [e2]

theorem range_blocks (m : Nat) : ∀ n : Nat,
    (List.range n).flatMap (fun k => (List.range m).map (fun r => k * m + r))
      = List.range (n * m) := by
  intro n
  induction n with
  | zero => simp
  | succ n ih =>
    rw [List.range_succ, List.flatMap_append, ih, List.flatMap_singleton]
    have : (n + 1) * m = n * m + m := by ring
    rw [this, List.range_add]

/-- The output rows of the ranges `0 .. T-1`, one after the other, are the rows
`0 .. height-1`. -/
theorem range_partition (height : Int) (T m : Nat) (hT : 1 ≤ T)
    (hTm : ((T * m : Nat) : Int) ≤ height) :
    (List.range T).flatMap
        (fun k => (List.range (rangeLen height T m k).toNat).map (fun r => k * m + r))
      = List.range height.toNat := by
  obtain ⟨n, rfl⟩ : ∃ n, T = n + 1 := ⟨T - 1, by omega⟩
  rw [List.range_succ, List.flatMap_append, List.flatMap_singleton]
  have h1 : (List.range n).flatMap
      (fun k => (List.range (rangeLen height (n + 1) m k).toNat).map (fun r => k * m + r))
      = (List.range n).flatMap (fun k => (List.range m).map (fun r => k * m + r)) := by
    apply List.flatMap_congr
    intro k hk
    have hk2 : k < n := List.mem_range.mp hk
    rw [rangeLen_of_not_last _ _ _ _ (by omega), Int.toNat_natCast]
  rw [h1, range_blocks]
  have h2 : rangeLen height (n + 1) m n = height - ((n * m : Nat) : Int) := by
    unfold rangeLen
    rw [if_pos rfl]
    push_cast; ring
  have h3 : height.toNat = n * m + (height - ((n * m : Nat) : Int)).toNat := by
    push_cast at hTm ⊢
    have : (0 : Int) ≤ (n : Int) * (m : Int) := by positivity
    have : (0 : Int) ≤ (m : Int) := by positivity
    zify
    rw [Int.toNat_of_nonneg (by nlinarith), Int.toNat_of_nonneg (by nlinarith)]
    ring
  rw [h2, h3, List.range_add]

/-- The bytes written by the worker of iteration `k` are the bytes of the output rows
of its range, as a run on the whole buffers writes them. -/
theorem workerAt_writes (rescale : Int → Int) (scaler : Scaler) (vertical : Bool)
    (taps width height dp sp : Int) (src : Slice Nat) (cof off : Slice Int)
    (T m k : Nat) (hs : scaler.vertical = vertical)
    (htaps : 0 ≤ taps)
    (hcur : 0 ≤ (if vertical then sp * offSum off (k * m) else sp * ((k * m : Nat) : Int)))
    (hoff : ∀ d ∈ off.store, 0 ≤ d)
    (hrow : ((k * m : Nat) : Int) + rangeLen height T m k ≤ height)
    (hcap : vertical = true → height ≤ off.cap) :
    (workerAt scaler vertical taps width height dp sp off T m k).writes rescale src cof off
      = (List.range (rangeLen height T m k).toNat).flatMap
          (fun r => rowWrites rescale vertical src cof off taps width height dp sp (k * m + r)) := by
  unfold Worker.writes routineWrites rowWrites
  rw [List.map_flatMap]
  apply List.flatMap_congr
  intro r hr
  have hr2 : (r : Int) < rangeLen height T m k := by
    have : r < (rangeLen height T m k).toNat := List.mem_range.mp hr
    omega
  rw [List.map_map]
  apply List.map_congr_left
  intro x _
  simp only [Function.comp, workerAt, hs]
  cases vertical with
  | false =>
    simp only [cursorAt, Bool.false_eq_true, if_false]
    refine Prod.ext ?_ ?_
    · simp only []; push_cast; ring
    · simp only []
      rw [zero_add, zero_add]
      exact routineSample_horizontal_shift rescale src cof off taps sp width (k * m) r x
        (by simpa using hcur) hoff
  | true =>
    simp only [cursorAt, if_true]
    refine Prod.ext ?_ ?_
    · simp only []; push_cast; ring
    · simp only []
      exact routineSample_vertical_shift rescale src cof off taps sp height
        (rangeLen height T m k) (k * m) r x htaps (by simpa using hcur) hoff hr2 hrow (hcap rfl)

theorem adequate_one (vertical : Bool) (threads taps width height dp sp : Int)
    (dst src : Slice Nat) (cof off : Slice Int)
    (ha : Adequate vertical threads taps width height dp sp dst src cof off) :
    Adequate vertical 1 taps width height dp sp dst src cof off := by
  obtain ⟨hw, hdp, htaps, hdst, hcof, hoff, hv, _⟩ := ha
  refine ⟨hw, hdp, htaps, hdst, hcof, hoff, fun h => ⟨(hv h).1, by simp⟩, ?_⟩
  intro k hk
  have hk0 : k = 0 := by
    have : (1 : Int).toNat = 1 := rfl
    omega
  subst hk0
  cases vertical <;> simp [offSum]

/-- Closed form of the bytes written by a run with `1 ≤ threads ≤ height`: the rows
`0 .. height-1` of a run on the whole buffers, in order. -/
theorem scaleSlices_writes (rescale : Int → Int) (scaler : Scaler) (vertical : Bool)
    (threads taps width height dp sp : Int)
    (dst src : Slice Nat) (cof off : Slice Int)
    (h1 : 1 ≤ threads) (h2 : threads ≤ height)
    (hs : scaler.vertical = vertical)
    (hoff : ∀ d ∈ off.store, 0 ≤ d)
    (ha : Adequate vertical threads taps width height dp sp dst src cof off) :
    (scaleSlices scaler vertical threads taps width height dp sp dst src cof off).writes
        rescale src cof off
      = (List.range height.toNat).flatMap
          (rowWrites rescale vertical src cof off taps width height dp sp) := by
  obtain ⟨hc1, hc2, _⟩ := chunk_of_le height threads h1 h2
  have hmc : (((chunk height threads).toNat : Nat) : Int) = chunk height threads :=
    Int.toNat_of_nonneg (by omega)
  have hTc : ((threads.toNat : Nat) : Int) = threads := Int.toNat_of_nonneg (by omega)
  have hm : 1 ≤ (chunk height threads).toNat := by omega
  have hTm : ((threads.toNat * (chunk height threads).toNat : Nat) : Int) ≤ height := by
    push_cast; rw [hmc, hTc]; linarith
  rw [scaleSlices_eq scaler vertical threads taps width height dp sp dst src cof off h1 h2 ha]
  unfold Outcome.writes
  simp only []
  rw [List.flatMap_map]
  have hcongr : (List.range threads.toNat).flatMap
      (fun k => (workerAt scaler vertical taps width height dp sp off threads.toNat
        (chunk height threads).toNat k).writes rescale src cof off)
      = (List.range threads.toNat).flatMap (fun k =>
          ((List.range (rangeLen height threads.toNat (chunk height threads).toNat k).toNat).map
            (fun r => k * (chunk height threads).toNat + r)).flatMap
              (rowWrites rescale vertical src cof off taps width height dp sp)) := by
    apply List.flatMap_congr
    intro k hk
    have hk2 : k < threads.toNat := List.mem_range.mp hk
    rw [workerAt_writes rescale scaler vertical taps width height dp sp src cof off _ _ k hs
      ha.2.2.1 (ha.2.2.2.2.2.2.2 k hk2).1 hoff (rangeLen_bounds height _ _ k hm hTm hk2).2
      (fun hv => by have := ha.2.2.2.2.2.1; rw [hv] at this; simpa using this)]
    rw [List.flatMap_map]
  rw [hcongr, ← List.flatMap_assoc,
    range_partition height threads.toNat (chunk height threads).toNat (by omega) hTm]

/-- With `0 ≤ width ≤ dp` no destination index is written twice by the rows
`0 .. height-1`. -/
theorem rowWrites_nodup (rescale : Int → Int) (vertical : Bool) (src : Slice Nat)
    (cof off : Slice Int) (taps width height dp sp : Int) (hwd : width ≤ dp) :
    (((List.range height.toNat).flatMap
        (rowWrites rescale vertical src cof off taps width height dp sp)).map Prod.fst).Nodup := by
  rw [List.map_flatMap, List.nodup_flatMap]
  have hrow : ∀ r : Nat,
      (rowWrites rescale vertical src cof off taps width height dp sp r).map Prod.fst
        = (List.range width.toNat).map (fun (x : Nat) => (r : Int) * dp + (x : Int)) := by
    intro r
    unfold rowWrites
    rw [List.map_map]
    rfl
  constructor
  · intro r _
    rw [hrow r]
    apply List.Nodup.map _ (List.nodup_range _)
    intro x1 x2 h
    simp only [] at h
    omega
  · apply List.Pairwise.imp _ (List.pairwise_lt_range _)
    intro r1 r2 hlt
    rw [Function.onFun, hrow r1, hrow r2]
    intro b hb1 hb2
    obtain ⟨x1, hx1, rfl⟩ := List.mem_map.mp hb1
    obtain ⟨x2, hx2, h⟩ := List.mem_map.mp hb2
    have hx1w : (x1 : Int) < width := by
      have := List.mem_range.mp hx1
      omega
    have hx2w : (0 : Int) ≤ (x2 : Int) := Int.natCast_nonneg x2
    have hr : (r1 : Int) + 1 ≤ (r2 : Int) := by exact_mod_cast hlt
    have hdp : 0 ≤ dp := by omega
    have := mul_le_mul_of_nonneg_right hr hdp
    nlinarith

/-- Claim C1, as amended.  Partitioning does not change the result: for
`1 ≤ threads ≤ height`, either orientation (the routine being one of that orientation),
non-negative offsets and adequate buffers, neither the run with `threads` workers nor
the run with one worker panics, and the workers of the first write exactly the bytes
(index in the destination buffer, value) the single worker of the second writes, each
worker running the routine of the spec's contract on the windows it was handed.  When
moreover `width ≤ dp`, no destination index is written twice in either run, so the
bytes left in the destination are those pairs whatever the order in which the workers
run. -/
theorem scaleSlices_partition_invariant (rescale : Int → Int) (scaler : Scaler)
    (vertical : Bool) (threads taps width height dp sp : Int)
    (dst src : Slice Nat) (cof off : Slice Int)
    (h1 : 1 ≤ threads) (h2 : threads ≤ height)
    (hs : scaler.vertical = vertical)
    (hoff : ∀ d ∈ off.store, 0 ≤ d)
    (ha : Adequate vertical threads taps width height dp sp dst src cof off) :
    (scaleSlices scaler vertical threads taps width height dp sp dst src cof off).fault = none ∧
    (scaleSlices scaler vertical 1 taps width height dp sp dst src cof off).fault = none ∧
    (scaleSlices scaler vertical threads taps width height dp sp dst src cof off).writes
        rescale src cof off
      = (scaleSlices scaler vertical 1 taps width height dp sp dst src cof off).writes
        rescale src cof off ∧
    (width ≤ dp →
      (((scaleSlices scaler vertical threads taps width height dp sp dst src cof off).writes
          rescale src cof off).map Prod.fst).Nodup ∧
      (((scaleSlices scaler vertical 1 taps width height dp sp dst src cof off).writes
          rescale src cof off).map Prod.fst).Nodup) := by
  have ha1 := adequate_one vertical threads taps width height dp sp dst src cof off ha
  have e1 := scaleSlices_writes rescale scaler vertical threads taps width height dp sp dst src
    cof off h1 h2 hs hoff ha
  have e2 := scaleSlices_writes rescale scaler vertical 1 taps width height dp sp dst src
    cof off (le_refl _) (by omega) hs hoff ha1
  refine ⟨?_, ?_, ?_, ?_⟩
  · rw [scaleSlices_eq scaler vertical threads taps width height dp sp dst src cof off h1 h2 ha]
  · rw [scaleSlices_eq scaler vertical 1 taps width height dp sp dst src cof off (le_refl _)
      (by omega) ha1]
  · rw [e1, e2]
  · intro hwd
    rw [e1, e2]
    exact ⟨rowWrites_nodup rescale vertical src cof off taps width height dp sp hwd,
      rowWrites_nodup rescale vertical src cof off taps width height dp sp hwd⟩

theorem scaleSlices_partition_invariant_witness :
    (scaleSlices .v8scale2 true 2 2 2 3 2 2
        (Slice.ofList [0, 0, 0, 0, 0, 0]) (Slice.ofList [10, 20, 30, 40, 50, 60, 70, 80])
        (Slice.ofList [32, 32, 16, 48, 48, 16]) (Slice.ofList [1, 1, 1])).writes
        (fun v => (v + 32) / 64) (Slice.ofList [10, 20, 30, 40, 50, 60, 70, 80])
        (Slice.ofList [32, 32, 16, 48, 48, 16]) (Slice.ofList [1, 1, 1])
      = (scaleSlices .v8scale2 true 1 2 2 3 2 2
        (Slice.ofList [0, 0, 0, 0, 0, 0]) (Slice.ofList [10, 20, 30, 40, 50, 60, 70, 80])
        (Slice.ofList [32, 32, 16, 48, 48, 16]) (Slice.ofList [1, 1, 1])).writes
        (fun v => (v + 32) / 64) (Slice.ofList [10, 20, 30, 40, 50, 60, 70, 80])
        (Slice.ofList [32, 32, 16, 48, 48, 16]) (Slice.ofList [1, 1, 1]) :=
  (scaleSlices_partition_invariant (fun v => (v + 32) / 64) .v8scale2 true 2 2 2 3 2 2
    (Slice.ofList [0, 0, 0, 0, 0, 0]) (Slice.ofList [10, 20, 30, 40, 50, 60, 70, 80])
    (Slice.ofList [32, 32, 16, 48, 48, 16]) (Slice.ofList [1, 1, 1])
    (by decide) (by decide) rfl (by decide) (by decide)).2.2.1

/-- Claim C1 fails as stated: vertical orientation, four output rows of one byte,
one tap, offsets `[2, 1, -1, 0]` and buffers that are adequate.  Neither run panics.
The single worker of the run with one thread computes row 3 from source row
`2 + 1 - 1 = 2` and writes the value 30.  In the run with two threads the second
worker is handed `src[3:]` and the offsets `[-1, 0]`; its second row lies one row
before the start of its window, which the window cannot reach. -/
theorem scaleSlices_negative_offset_writes_differ :
    ((1 : Int) ≤ 4 ∧ (1 : Int) ≤ 2 ∧ (2 : Int) ≤ 4 ∧ Scaler.v8scaleN.vertical = true) ∧
    Adequate true 2 1 1 4 1 1 (Slice.ofList [0, 0, 0, 0])
      (Slice.ofList [10, 20, 30, 40, 50, 60]) (Slice.ofList [64, 64, 64, 64])
      (Slice.ofList [2, 1, -1, 0]) ∧
    (scaleSlices .v8scaleN true 2 1 1 4 1 1 (Slice.ofList [0, 0, 0, 0])
      (Slice.ofList [10, 20, 30, 40, 50, 60]) (Slice.ofList [64, 64, 64, 64])
      (Slice.ofList [2, 1, -1, 0])).fault = none ∧
    (scaleSlices .v8scaleN true 1 1 1 4 1 1 (Slice.ofList [0, 0, 0, 0])
      (Slice.ofList [10, 20, 30, 40, 50, 60]) (Slice.ofList [64, 64, 64, 64])
      (Slice.ofList [2, 1, -1, 0])).fault = none ∧
    (scaleSlices .v8scaleN true 2 1 1 4 1 1 (Slice.ofList [0, 0, 0, 0])
      (Slice.ofList [10, 20, 30, 40, 50, 60]) (Slice.ofList [64, 64, 64, 64])
      (Slice.ofList [2, 1, -1, 0])).writes (fun v => (v + 32) / 64)
      (Slice.ofList [10, 20, 30, 40, 50, 60]) (Slice.ofList [64, 64, 64, 64])
      (Slice.ofList [2, 1, -1, 0])
      = [(0, some 10), (1, some 30), (2, some 40), (3, none)] ∧
    (scaleSlices .v8scaleN true 1 1 1 4 1 1 (Slice.ofList [0, 0, 0, 0])
      (Slice.ofList [10, 20, 30, 40, 50, 60]) (Slice.ofList [64, 64, 64, 64])
      (Slice.ofList [2, 1, -1, 0])).writes (fun v => (v + 32) / 64)
      (Slice.ofList [10, 20, 30, 40, 50, 60]) (Slice.ofList [64, 64, 64, 64])
      (Slice.ofList [2, 1, -1, 0])
      = [(0, some 10), (1, some 30), (2, some 40), (3, some 30)] := by
  decide

theorem sum_rangeLen (height : Int) (T m : Nat) (hT : 1 ≤ T) :
    ((List.range T).map (rangeLen height T m)).sum = height := by
  obtain ⟨n, rfl⟩ : ∃ n, T = n + 1 := ⟨T - 1, by omega⟩
  rw [List.range_succ, List.map_append, List.sum_append]
  have h1 : (List.range n).map (rangeLen height (n + 1) m)
      = (List.range n).map (fun _ => (m : Int)) := by
    apply List.map_congr_left
    intro k hk
    have hk2 : k < n := List.mem_range.mp hk
    exact rangeLen_of_not_last _ _ _ _ (by omega)
  rw [h1]
  simp [rangeLen]
  ring

/-- Claim C2.  For `1 ≤ threads ≤ height`, with `nh = height / threads` (floor):
whatever the buffers, the `k`-th worker `scaleSlices` launches starts at output row
`k * nh` (its destination window starts at byte `k * nh * dp`) and has `nh` rows,
except the last, worker `threads - 1`, which has `height - (threads-1)*nh
= nh + height % threads` rows and ends at row `height`; every range is non-empty, each
range ends where the next begins, and a range ends before any later range begins.  A run
that does not panic launches exactly `threads` workers and the range lengths add up to
`height`; on adequate buffers the run does not panic. -/
theorem scaleSlices_ranges (scaler : Scaler) (vertical : Bool)
    (threads taps width height dp sp : Int)
    (dst src : Slice Nat) (cof off : Slice Int)
    (h1 : 1 ≤ threads) (h2 : threads ≤ height) :
    (∀ (k : Nat) (w : Worker),
      (scaleSlices scaler vertical threads taps width height dp sp dst src cof off).launched[k]?
        = some w →
      (k : Int) < threads ∧
      w.dstLo = (k : Int) * (height / threads) * dp ∧
      w.height = (if (k : Int) + 1 = threads then height - (threads - 1) * (height / threads)
                  else height / threads) ∧
      1 ≤ w.height ∧
      (k : Int) * (height / threads) + w.height
        = (if (k : Int) + 1 = threads then height else ((k : Int) + 1) * (height / threads))) ∧
    ((scaleSlices scaler vertical threads taps width height dp sp dst src cof off).fault = none →
      ((scaleSlices scaler vertical threads taps width height dp sp dst src cof off).launched.length
        : Int) = threads ∧
      ((scaleSlices scaler vertical threads taps width height dp sp dst src cof off).launched.map
        Worker.height).sum = height) ∧
    (Adequate vertical threads taps width height dp sp dst src cof off →
      (scaleSlices scaler vertical threads taps width height dp sp dst src cof off).fault = none) ∧
    height - (threads - 1) * (height / threads) = height / threads + height % threads ∧
    (∀ j k : Nat, j < k → ((j : Int) + 1) * (height / threads) ≤ (k : Int) * (height / threads)) := by
  obtain ⟨hc1, hc2, hc3⟩ := chunk_of_le height threads h1 h2
  have hmc : (((chunk height threads).toNat : Nat) : Int) = chunk height threads :=
    Int.toNat_of_nonneg (by omega)
  have hTc : ((threads.toNat : Nat) : Int) = threads := Int.toNat_of_nonneg (by omega)
  have hm : 1 ≤ (chunk height threads).toNat := by omega
  have hTm : ((threads.toNat * (chunk height threads).toNat : Nat) : Int) ≤ height := by
    push_cast; rw [hmc, hTc]; linarith
  refine ⟨?_, ?_, ?_, ?_, ?_⟩
  · intro k w hw
    obtain ⟨hk, rfl⟩ := scaleSlices_launched_getElem scaler vertical threads taps width height
      dp sp dst src cof off h1 h2 k w hw
    refine ⟨by omega, ?_, ?_, ?_, ?_⟩
    · simp only [workerAt, cursorAt]
      push_cast
      rw [hmc, hc3]
    · show rangeLen height threads.toNat (chunk height threads).toNat k = _
      unfold rangeLen
      by_cases hl : (k : Int) + 1 = threads
      · rw [if_pos hl, if_pos (by omega), hmc, hTc, hc3]; ring
      · rw [if_neg hl, if_neg (by omega), hmc, hc3]
    · exact (rangeLen_bounds height _ _ k hm hTm hk).1
    · show _ + rangeLen height threads.toNat (chunk height threads).toNat k = _
      unfold rangeLen
      by_cases hl : (k : Int) + 1 = threads
      · rw [if_pos hl, if_pos (by omega), hmc, hTc, hc3]
        have : (k : Int) = threads - 1 := by omega
        rw [this]; ring
      · rw [if_neg hl, if_neg (by omega), hmc, hc3]; ring
  · intro hf
    obtain ⟨p, _, hl, hp⟩ := scaleSlices_launched scaler vertical threads taps width height dp sp
      dst src cof off h1 h2
    have hp2 := hp hf
    subst hp2
    rw [hl]
    refine ⟨by simpa using hTc, ?_⟩
    simp only [List.map_map]
    exact sum_rangeLen height threads.toNat (chunk height threads).toNat (by omega)
  · intro ha
    rw [scaleSlices_eq scaler vertical threads taps width height dp sp dst src cof off h1 h2 ha]
  · have := Int.ediv_add_emod height threads
    linarith
  · intro j k hjk
    rw [← hc3]
    have : ((j : Int) + 1) ≤ (k : Int) := by omega
    exact mul_le_mul_of_nonneg_right this (by omega)

theorem scaleSlices_ranges_witness :
    ((scaleSlices .v8scale2 true 3 2 2 7 2 2
        (Slice.ofList (List.replicate 14 0)) (Slice.ofList (List.replicate 24 0))
        (Slice.ofList (List.replicate 14 1))
        (Slice.ofList [1, 2, 1, 2, 1, 2, 1])).launched.length : Int) = 3 ∧
    ((scaleSlices .v8scale2 true 3 2 2 7 2 2
        (Slice.ofList (List.replicate 14 0)) (Slice.ofList (List.replicate 24 0))
        (Slice.ofList (List.replicate 14 1))
        (Slice.ofList [1, 2, 1, 2, 1, 2, 1])).launched.map Worker.height).sum = 7 :=
  (scaleSlices_ranges .v8scale2 true 3 2 2 7 2 2
    (Slice.ofList (List.replicate 14 0)) (Slice.ofList (List.replicate 24 0))
    (Slice.ofList (List.replicate 14 1)) (Slice.ofList [1, 2, 1, 2, 1, 2, 1])
    (by decide) (by decide)).2.1 (by decide)

theorem chunk_of_gt (height threads : Int) (h0 : 0 ≤ height) (h : height < threads) :
    chunk height threads = 1 := by
  have hdiv : Int.tdiv height threads = 0 := by
    rw [Int.tdiv_eq_ediv h0 (by omega)]
    exact Int.ediv_eq_zero_of_lt h0 h
  unfold chunk
  rw [hdiv, if_pos (by omega)]

theorem Slice.slice_eq_none {α : Type} (s : Slice α) (lo hi : Int) (h : hi < lo) :
    s.slice lo hi = none := by
  unfold Slice.slice
  rw [if_neg (by omega)]

/-- With a nominal chunk of one row and a negative remainder for the last iteration,
the loop of `scaleSlices` ends in a panic: the destination slice expression of the
last iteration has its high bound below its low bound. -/
theorem sliceLoop_fault (scaler : Scaler) (vertical : Bool)
    (threads taps width height dp sp : Int)
    (dst src : Slice Nat) (cof off : Slice Int)
    (hneg : height - 1 * (threads - 1) < 0) (hw : 1 ≤ width) (hwd : width ≤ dp) :
    ∀ (n : Nat) (i : Int) (c : Cursor), i + ((n : Int) + 1) = threads →
      (sliceLoop scaler vertical threads taps width height dp sp 1 dst src cof off
        (n + 1) i c).fault ≠ none := by
  intro n
  induction n with
  | zero =>
    intro i c hi
    have hl : i + 1 = threads := by simpa using hi
    unfold sliceLoop
    simp only [hl, decide_True, if_true]
    rw [if_neg (by omega)]
    have hprod : dp * (height - 1 * (threads - 1) - 1) ≤ dp * (-2) :=
      mul_le_mul_of_nonneg_left (by omega) (by omega)
    rw [Slice.slice_eq_none dst _ _ (by linarith)]
    simp
  | succ n ih =>
    intro i c hi
    have hl : ¬ (i + 1 = threads) := by
      push_cast at hi
      omega
    unfold sliceLoop
    simp only [hl, decide_False, Bool.false_eq_true, if_false]
    rw [if_neg (by omega)]
    have hrec : ∀ c2, (sliceLoop scaler vertical threads taps width height dp sp 1 dst src cof off
        (n + 1) (i + 1) c2).fault ≠ none := fun c2 => ih (i + 1) c2 (by push_cast at hi ⊢; omega)
    cases dst.slice c.dst_idx (c.dst_idx + dp * (1 - 1) + width) with
    | none => simp
    | some _ =>
      cases src.sliceFrom c.src_idx with
      | none => simp
      | some _ =>
        cases cof.slice c.cof_idx (c.cof_idx + (if vertical = true then 1 else width) * taps) with
        | none => simp
        | some _ =>
          cases off.slice c.off_idx (c.off_idx + if vertical = true then 1 else width) with
          | none => simp
          | some _ =>
            simp only []
            cases vertical with
            | false =>
              simp only [Bool.false_eq_true, if_false, Outcome.push]
              exact hrec _
            | true =>
              simp only [if_true]
              cases srcWalk off sp c.off_idx (1 : Int).toNat 0 c.src_idx with
              | none => simp
              | some s =>
                simp only [Outcome.push]
                exact hrec _

/-- Claim C3 (fails on the code).  With at least two more threads than output rows
(`threads ≥ height + 2`) and `1 ≤ width ≤ dp`, every run of `scaleSlices` panics,
whatever the buffers: iteration `threads - 1` computes the negative range length
`height - (threads - 1)`, the skip `ih == 0` does not fire, and the destination slice
expression has `high < low`.  The claim asks for exactly `height` workers and no
panic. -/
theorem scaleSlices_excess_threads_fault (scaler : Scaler) (vertical : Bool)
    (threads taps width height dp sp : Int)
    (dst src : Slice Nat) (cof off : Slice Int)
    (hh : 1 ≤ height) (hT : height + 2 ≤ threads) (hw : 1 ≤ width) (hwd : width ≤ dp) :
    (scaleSlices scaler vertical threads taps width height dp sp dst src cof off).fault
      ≠ none := by
  unfold scaleSlices
  rw [if_neg (by omega), chunk_of_gt height threads (by omega) (by omega)]
  obtain ⟨n, hn⟩ : ∃ n : Nat, threads.toNat = n + 1 := ⟨threads.toNat - 1, by omega⟩
  rw [hn]
  exact sliceLoop_fault scaler vertical threads taps width height dp sp dst src cof off
    (by omega) hw hwd n 0 _ (by omega)

theorem scaleSlices_excess_threads_fault_witness :
    (scaleSlices .h8scale2 false 3 2 4 1 4 4
        (Slice.ofList [0, 0, 0, 0]) (Slice.ofList [1, 2, 3, 4, 5, 6])
        (Slice.ofList [32, 32, 32, 32, 32, 32, 32, 32]) (Slice.ofList [0, 1, 2, 3])).fault
      ≠ none :=
  scaleSlices_excess_threads_fault .h8scale2 false 3 2 4 1 4 4
    (Slice.ofList [0, 0, 0, 0]) (Slice.ofList [1, 2, 3, 4, 5, 6])
    (Slice.ofList [32, 32, 32, 32, 32, 32, 32, 32]) (Slice.ofList [0, 1, 2, 3])
    (by decide) (by decide) (by decide) (by decide)

/-- The run behind the failure of claim C3, evaluated: one output row and three
threads.  On a destination of one row, worker 0 is launched and iteration 1 panics on
`dst[4:8]`; on a destination with room for three rows, workers 0 and 1 are launched and
the last iteration, whose range length is `-1`, panics on `dst[8:4]`. -/
theorem scaleSlices_three_threads_one_row :
    scaleSlices .h8scale2 false 3 2 4 1 4 4
        (Slice.ofList [0, 0, 0, 0]) (Slice.ofList [1, 2, 3, 4, 5, 6])
        (Slice.ofList [32, 32, 32, 32, 32, 32, 32, 32]) (Slice.ofList [0, 1, 2, 3])
      = ⟨[{ scaler := .h8scale2, dstLo := 0, dstHi := 4, srcLo := 0, cofLo := 0, cofHi := 8
            offLo := 0, offHi := 4, taps := 2, width := 4, height := 1, dp := 4, sp := 4 }],
          some .sliceBounds⟩ ∧
    scaleSlices .h8scale2 false 3 2 4 1 4 4
        (Slice.ofList [0, 0, 0, 0, 0, 0, 0, 0, 0, 0, 0, 0])
        (Slice.ofList [1, 2, 3, 4, 5, 6, 7, 8, 9, 10, 11, 12, 13, 14])
        (Slice.ofList [32, 32, 32, 32, 32, 32, 32, 32]) (Slice.ofList [0, 1, 2, 3])
      = ⟨[{ scaler := .h8scale2, dstLo := 0, dstHi := 4, srcLo := 0, cofLo := 0, cofHi := 8
            offLo := 0, offHi := 4, taps := 2, width := 4, height := 1, dp := 4, sp := 4 },
          { scaler := .h8scale2, dstLo := 4, dstHi := 8, srcLo := 4, cofLo := 0, cofHi := 8
            offLo := 0, offHi := 4, taps := 2, width := 4, height := 1, dp := 4, sp := 4 }],
          some .sliceBounds⟩ := by
  decide

/-- With one thread more than output rows the skip fires: one row and two threads
launch exactly one worker, without panic. -/
theorem scaleSlices_two_threads_one_row :
    scaleSlices .h8scale2 false 2 2 4 1 4 4
        (Slice.ofList [0, 0, 0, 0]) (Slice.ofList [1, 2, 3, 4, 5, 6])
        (Slice.ofList [32, 32, 32, 32, 32, 32, 32, 32]) (Slice.ofList [0, 1, 2, 3])
      = ⟨[{ scaler := .h8scale2, dstLo := 0, dstHi := 4, srcLo := 0, cofLo := 0, cofHi := 8
            offLo := 0, offHi := 4, taps := 2, width := 4, height := 1, dp := 4, sp := 4 }],
          none⟩ := by
  decide

/-! ## Destination bytes -/

theorem mem_footprint (base : Int) (w : Worker) (b : Int) (hb : b ∈ w.footprint base) :
    ∃ r x : Nat, (r : Int) < w.height ∧ (x : Int) < w.width ∧
      b = base + w.dstLo + (r : Int) * w.dp + (x : Int) := by
  unfold Worker.footprint at hb
  obtain ⟨r, hr, hb2⟩ := List.mem_flatMap.mp hb
  obtain ⟨x, hx, hb3⟩ := List.mem_map.mp hb2
  have hr2 := List.mem_range.mp hr
  have hx2 := List.mem_range.mp hx
  exact ⟨r, x, by omega, by omega, hb3.symm⟩

theorem row_unique (dp R1 R2 x1 x2 : Int) (hx1 : 0 ≤ x1) (hx2 : 0 ≤ x2)
    (h1 : x1 < dp) (h2 : x2 < dp) (h : dp * R1 + x1 = dp * R2 + x2) : R1 = R2 := by
  rcases lt_trichotomy R1 R2 with hlt | heq | hgt
  · exfalso
    have : dp * (R1 + 1) ≤ dp * R2 := mul_le_mul_of_nonneg_left (by omega) (by omega)
    nlinarith
  · exact heq
  · exfalso
    have : dp * (R2 + 1) ≤ dp * R1 := mul_le_mul_of_nonneg_left (by omega) (by omega)
    nlinarith

theorem rows_disjoint (height : Int) (T m k1 k2 r1 r2 : Nat)
    (hk : k1 < k2)
    (hr1 : (r1 : Int) < rangeLen height T m k1) (hk2 : k2 < T) :
    k1 * m + r1 < k2 * m + r2 := by
  rw [rangeLen_of_not_last _ _ _ _ (by omega)] at hr1
  have h1 : (k1 + 1) * m ≤ k2 * m := Nat.mul_le_mul_right m (by omega)
  have h2 : (k1 + 1) * m = k1 * m + m := by ring
  omega

/-- Claim C4.  In every `Resize` call with `1 ≤ Threads ≤ dheight` (the destination
height per field) and destination row width `dwidth ≤ dp`, whatever the buffers, two
distinct launched workers (worker `k1` of field task `i1` and worker `k2` of field
task `i2`, with `(i1, k1) ≠ (i2, k2)`) write no common destination byte, a worker of
range length `ih`, width `w` and stride `s` writing the bytes `r*s + x`, `0 ≤ r < ih`,
`0 ≤ x < w`, of its destination window. -/
theorem Resize_writes_disjoint (c : Context) (dst src : Slice Nat)
    (width height dp sp : Int)
    (hT1 : 1 ≤ c.cfg.Threads) (hT2 : c.cfg.Threads ≤ c.dheight height)
    (hw : c.dwidth width ≤ dp)
    (i1 i2 k1 k2 : Nat) (t1 t2 : FieldTask) (w1 w2 : Worker)
    (ht1 : (Resize c dst src width height dp sp).tasks[i1]? = some t1)
    (ht2 : (Resize c dst src width height dp sp).tasks[i2]? = some t2)
    (hw1 : (t1.run dst src).launched[k1]? = some w1)
    (hw2 : (t2.run dst src).launched[k2]? = some w2)
    (hne : (i1, k1) ≠ (i2, k2)) :
    ∀ b, b ∈ w1.footprint t1.dstLo → b ∉ w2.footprint t2.dstLo := by
  intro b hb1 hb2
  obtain ⟨hi1, q1, _, rfl, _, _⟩ := Resize_getElem c dst src width height dp sp i1 t1 ht1
  obtain ⟨hi2, q2, _, rfl, _, _⟩ := Resize_getElem c dst src width height dp sp i2 t2 ht2
  obtain ⟨hk1, rfl⟩ := scaleSlices_launched_getElem _ _ _ _ _ _ _ _ _ _ _ _ hT1 hT2 k1 w1 hw1
  obtain ⟨hk2, rfl⟩ := scaleSlices_launched_getElem _ _ _ _ _ _ _ _ _ _ _ _ hT1 hT2 k2 w2 hw2
  obtain ⟨r1, x1, hr1, hx1, e1⟩ := mem_footprint _ _ b hb1
  obtain ⟨r2, x2, hr2, hx2, e2⟩ := mem_footprint _ _ b hb2
  simp only [fieldTaskAt, workerAt, cursorAt] at hr1 hx1 e1 hr2 hx2 e2 hk1 hk2
  set T := c.cfg.Threads.toNat
  set m := (chunk (c.dheight height) c.cfg.Threads).toNat
  have hx10 : (0 : Int) ≤ (x1 : Int) := Int.natCast_nonneg _
  have hx20 : (0 : Int) ≤ (x2 : Int) := Int.natCast_nonneg _
  have hrows : (i1 : Int) = i2 ∧ ((k1 * m + r1 : Nat) : Int) = ((k2 * m + r2 : Nat) : Int) := by
    rcases field_cases c with hF | hF
    · rw [hF] at hi1 hi2 e1 e2
      have h1 : (i1 : Int) = 0 := by omega
      have h2 : (i2 : Int) = 0 := by omega
      refine ⟨by omega, ?_⟩
      apply row_unique dp _ _ x1 x2 hx10 hx20 (by omega) (by omega)
      rw [h1] at e1
      rw [h2] at e2
      simp only [Int.toNat_zero, pow_zero, mul_one, mul_zero, zero_add] at e1 e2
      push_cast at e1 e2 ⊢
      linarith
    · rw [hF] at hi1 hi2 e1 e2
      have hR := row_unique dp (2 * ((k1 * m + r1 : Nat) : Int) + i1)
        (2 * ((k2 * m + r2 : Nat) : Int) + i2) x1 x2 hx10 hx20 (by omega) (by omega) (by
          simp only [Int.toNat_one, pow_one] at e1 e2
          push_cast at e1 e2 ⊢
          linarith)
      omega
  obtain ⟨hi, hrow⟩ := hrows
  have hi' : i1 = i2 := by exact_mod_cast hi
  have hrow' : k1 * m + r1 = k2 * m + r2 := by exact_mod_cast hrow
  have hkk : k1 = k2 := by
    rcases lt_trichotomy k1 k2 with hlt | heq | hgt
    · have := rows_disjoint (c.dheight height) T m k1 k2 r1 r2 hlt hr1 hk2
      omega
    · exact heq
    · have := rows_disjoint (c.dheight height) T m k2 k1 r2 r1 hgt hr2 hk1
      omega
  exact hne (by rw [hi', hkk])

theorem Resize_writes_disjoint_witness :
    (1 : Int) ∈ sampleWorker.footprint 0 ∧ (1 : Int) ∉ sampleWorker.footprint 2 :=
  ⟨by decide,
    Resize_writes_disjoint sampleInterlaced sampleDst sampleSrc 2 6 2 2
      (by decide) (by decide) (by decide) 0 1 0 0
      (fieldTaskAt sampleInterlaced 2 6 2 2 0 sampleKernel)
      (fieldTaskAt sampleInterlaced 2 6 2 2 1 sampleKernel)
      sampleWorker sampleWorker (by decide) (by decide) (by decide) (by decide) (by decide)
      1 (by decide)⟩

/-! ## The source cursor of a vertical partition -/

/-- Claim C5.  Vertical orientation, `1 ≤ threads ≤ height`, any offsets table and any
buffers: a launched worker `k` starts its source window at
`sp * (off[0] + ... + off[start - 1])` with `start = k * (height / threads)` its first
output row, and its offsets window starts at `start`.  That cursor is the one the
cursor walk of the code reaches when it replays the deltas of rows `0 .. start-1` in a
single pass from zero (the table holding them), so no delta is skipped or counted
twice. -/
theorem scaleSlices_source_cursor (scaler : Scaler)
    (threads taps width height dp sp : Int)
    (dst src : Slice Nat) (cof off : Slice Int)
    (h1 : 1 ≤ threads) (h2 : threads ≤ height) (k : Nat) (w : Worker)
    (hw : (scaleSlices scaler true threads taps width height dp sp dst src cof off).launched[k]?
      = some w) :
    w.srcLo = sp * (off.store.take (k * (height / threads).toNat)).sum ∧
    w.offLo = (k : Int) * (height / threads) ∧
    (off.WellFormed → k * (height / threads).toNat ≤ off.len →
      srcWalk off sp 0 (k * (height / threads).toNat) 0 0 = some w.srcLo) := by
  obtain ⟨hc1, _, hc3⟩ := chunk_of_le height threads h1 h2
  obtain ⟨_, rfl⟩ := scaleSlices_launched_getElem scaler true threads taps width height dp sp
    dst src cof off h1 h2 k w hw
  have hmc : (((height / threads).toNat : Nat) : Int) = height / threads :=
    Int.toNat_of_nonneg (by omega)
  rw [hc3]
  refine ⟨rfl, ?_, ?_⟩
  · simp only [workerAt, cursorAt, if_true]
    push_cast
    rw [hmc]
  · intro hwf hlen
    have := srcWalk_eq off sp 0 hwf (k * (height / threads).toNat) 0 0 (by omega)
    simp only [Nat.cast_zero, Nat.add_zero, List.drop_zero, zero_add] at this
    rw [this]
    simp [workerAt, cursorAt, offSum]

theorem scaleSlices_source_cursor_witness :
    (6 : Int) = 1 * ((Slice.ofList [1, 2, 1, 2, 1, 2, 1] : Slice Int).store.take
      (2 * ((7 : Int) / 3).toNat)).sum :=
  (scaleSlices_source_cursor .v8scale2 3 2 1 7 1 1
    (Slice.ofList (List.replicate 7 0)) (Slice.ofList (List.replicate 11 0))
    (Slice.ofList (List.replicate 14 1)) (Slice.ofList [1, 2, 1, 2, 1, 2, 1])
    (by decide) (by decide) 2
    { scaler := .v8scale2, dstLo := 4, dstHi := 7, srcLo := 6, cofLo := 8, cofHi := 14
      offLo := 4, offHi := 7, taps := 2, width := 1, height := 3, dp := 1, sp := 1 }
    (by decide)).1

/-! ## Selectors and construction -/

/-- Claim C6.  The selectors are total functions of the tap count: each maps 2, 4, 6,
8, 10, 12 to the specialised routine of its own orientation for that tap count, and
every other integer (odd, zero, negative, above 12) to the generic routine of its
orientation. -/
theorem selectors_total :
    (getHorizontalScaler 2 = .h8scale2 ∧ getHorizontalScaler 4 = .h8scale4 ∧
      getHorizontalScaler 6 = .h8scale6 ∧ getHorizontalScaler 8 = .h8scale8 ∧
      getHorizontalScaler 10 = .h8scale10 ∧ getHorizontalScaler 12 = .h8scale12) ∧
    (getVerticalScaler 2 = .v8scale2 ∧ getVerticalScaler 4 = .v8scale4 ∧
      getVerticalScaler 6 = .v8scale6 ∧ getVerticalScaler 8 = .v8scale8 ∧
      getVerticalScaler 10 = .v8scale10 ∧ getVerticalScaler 12 = .v8scale12) ∧
    (∀ taps : Int, taps ≠ 2 → taps ≠ 4 → taps ≠ 6 → taps ≠ 8 → taps ≠ 10 → taps ≠ 12 →
      getHorizontalScaler taps = .h8scaleN ∧ getVerticalScaler taps = .v8scaleN) ∧
    (∀ taps : Int, (getHorizontalScaler taps).vertical = false ∧
      (getVerticalScaler taps).vertical = true) := by
  refine ⟨by decide, by decide, ?_, ?_⟩
  · intro taps h2 h4 h6 h8 h10 h12
    simp [getHorizontalScaler, getVerticalScaler, h2, h4, h6, h8, h10, h12]
  · intro taps
    unfold getHorizontalScaler getVerticalScaler
    constructor <;> (repeat' split) <;> rfl

theorem selectors_total_witness :
    getHorizontalScaler 3 = .h8scaleN ∧ getVerticalScaler (-4) = .v8scaleN :=
  ⟨(selectors_total.2.2.1 3 (by decide) (by decide) (by decide) (by decide) (by decide)
      (by decide)).1,
   (selectors_total.2.2.1 (-4) (by decide) (by decide) (by decide) (by decide) (by decide)
      (by decide)).2⟩

/-- Claim C7.  For every configuration and filter, the context `NewResize` returns has
`Depth = 8`, every other configuration field equal to the caller's, only kernels that
`makeKernel` built from the configuration with `Depth` already 8, and the caller's
`Config` holds the value it had before the call. -/
theorem NewResize_depth {F : Type} (mk : Config → F → Int → Kernel) (cfg : Config)
    (filter : F) :
    (NewResize mk cfg filter).1.cfg.Depth = 8 ∧
    (NewResize mk cfg filter).1.cfg.Input = cfg.Input ∧
    (NewResize mk cfg filter).1.cfg.Output = cfg.Output ∧
    (NewResize mk cfg filter).1.cfg.Vertical = cfg.Vertical ∧
    (NewResize mk cfg filter).1.cfg.Interlaced = cfg.Interlaced ∧
    (NewResize mk cfg filter).1.cfg.Threads = cfg.Threads ∧
    (∀ k ∈ (NewResize mk cfg filter).1.kernels,
      ∃ i : Int, k = mk (NewResize mk cfg filter).1.cfg filter i) ∧
    (NewResize mk cfg filter).2 = cfg := by
  unfold NewResize
  cases hv : cfg.Vertical <;> cases hi : cfg.Interlaced <;> simp

/-! ## The field tasks of `Resize` -/

theorem fieldLoop_ok (c : Context) (dst src : Slice Nat) (dwidth dheight dp sp field : Int) :
    ∀ (ks : List Kernel) (i : Nat),
      (∀ j : Nat, j < ks.length →
        (0 ≤ dp * ((i + j : Nat) : Int) ∧ dp * ((i + j : Nat) : Int) ≤ dst.len) ∧
        (0 ≤ sp * ((i + j : Nat) : Int) ∧ sp * ((i + j : Nat) : Int) ≤ src.len)) →
      (fieldLoop c dst src dwidth dheight dp sp field ks (i : Int)).fault = none ∧
      (fieldLoop c dst src dwidth dheight dp sp field ks (i : Int)).tasks.length = ks.length := by
  intro ks
  induction ks with
  | nil => intro i _; simp [fieldLoop]
  | cons k ks ih =>
    intro i h
    have h0 := h 0 (by simp)
    simp only [Nat.add_zero] at h0
    unfold fieldLoop
    rw [dst.sliceFrom_eq_some _ h0.1, src.sliceFrom_eq_some _ h0.2]
    simp only [ResizeOutcome.push, List.length_cons]
    have hcast : ((i : Int) + 1) = ((i + 1 : Nat) : Int) := by push_cast; ring
    rw [hcast]
    have := ih (i + 1) (fun j hj => by
      have := h (j + 1) (by simpa using hj)
      have e : i + (j + 1) = i + 1 + j := by omega
      rw [e] at this
      exact this)
    exact ⟨this.1, by rw [this.2]⟩

/-- Claim C8.  Let `field` be 1 for a vertical interlaced configuration and 0 otherwise.
Whatever the context and the buffers, the `i`-th field task `Resize` starts has
`i ≤ field` and is `scaleSlices` on `dst[dp*i:]` and `src[sp*i:]` with strides
`dp << field` and `sp << field`, the tap count, coefficients and offsets of kernel `i`,
the configured routine, orientation and thread count, and destination width and height
`(width, Output >> field)` when vertical, `(Output, height)` when horizontal.  A call
that does not panic starts exactly `1 + field` field tasks; the call does not panic when
the context holds `1 + field` kernels and the windows `dst[dp*i:]`, `src[sp*i:]` exist.
A progressive configuration runs one task, on the buffers themselves with the strides
`dp` and `sp`. -/
theorem Resize_tasks (c : Context) (dst src : Slice Nat) (width height dp sp : Int)
    (field : Int)
    (hfield : field = if c.cfg.Vertical = true ∧ c.cfg.Interlaced = true then 1 else 0) :
    (∀ (i : Nat) (t : FieldTask),
      (Resize c dst src width height dp sp).tasks[i]? = some t →
      (i : Int) ≤ field ∧ ∃ k,
        c.kernels[i]? = some k ∧
        t = { scaler := c.scaler, vertical := c.cfg.Vertical, threads := c.cfg.Threads
              taps := k.size
              width := if c.cfg.Vertical then width else c.cfg.Output
              height := if c.cfg.Vertical then c.cfg.Output >>> field.toNat else height
              dp := dp * 2 ^ field.toNat, sp := sp * 2 ^ field.toNat
              dstLo := dp * (i : Int), srcLo := sp * (i : Int)
              cof := k.coeffs, off := k.offsets } ∧
        dst.sliceFrom (dp * (i : Int)) = some (dst.sub (dp * (i : Int)) dst.len) ∧
        src.sliceFrom (sp * (i : Int)) = some (src.sub (sp * (i : Int)) src.len) ∧
        t.run dst src = scaleSlices c.scaler c.cfg.Vertical c.cfg.Threads k.size
          (if c.cfg.Vertical then width else c.cfg.Output)
          (if c.cfg.Vertical then c.cfg.Output >>> field.toNat else height)
          (dp * 2 ^ field.toNat) (sp * 2 ^ field.toNat)
          (dst.sub (dp * (i : Int)) dst.len) (src.sub (sp * (i : Int)) src.len)
          k.coeffs k.offsets) ∧
    ((Resize c dst src width height dp sp).fault = none →
      ((Resize c dst src width height dp sp).tasks.length : Int) = 1 + field) ∧
    (1 + field ≤ (c.kernels.length : Int) →
      (∀ i : Nat, (i : Int) ≤ field →
        (0 ≤ dp * (i : Int) ∧ dp * (i : Int) ≤ dst.len) ∧
        (0 ≤ sp * (i : Int) ∧ sp * (i : Int) ≤ src.len)) →
      (Resize c dst src width height dp sp).fault = none) ∧
    (field = 0 → (Resize c dst src width height dp sp).fault = none →
      ∃ k, c.kernels[0]? = some k ∧
        (Resize c dst src width height dp sp).tasks =
          [{ scaler := c.scaler, vertical := c.cfg.Vertical, threads := c.cfg.Threads
             taps := k.size
             width := if c.cfg.Vertical then width else c.cfg.Output
             height := if c.cfg.Vertical then c.cfg.Output else height
             dp := dp, sp := sp, dstLo := 0, srcLo := 0
             cof := k.coeffs, off := k.offsets }]) := by
  have hf : c.field = field := by
    rw [hfield]
    unfold Context.field bin
    cases c.cfg.Vertical <;> cases c.cfg.Interlaced <;> simp
  subst hf
  have hf01 := field_cases c
  have hlenof : (Resize c dst src width height dp sp).fault = none →
      (Resize c dst src width height dp sp).tasks.length = (1 + c.field).toNat := by
    intro hnf
    obtain ⟨ht, hl⟩ := Resize_tasks_of_no_fault c dst src width height dp sp hnf
    rw [ht, List.length_map, List.enumFrom_length, List.length_take]
    omega
  refine ⟨?_, ?_, ?_, ?_⟩
  · intro i t ht
    obtain ⟨hi, k, hk, rfl, hds, hss⟩ := Resize_getElem c dst src width height dp sp i t ht
    exact ⟨hi, k, hk, rfl, hds, hss, rfl⟩
  · intro hnf
    rw [hlenof hnf]
    omega
  · intro hk hwin
    have hlen : (c.kernels.take (1 + c.field).toNat).length = (1 + c.field).toNat := by
      rw [List.length_take]
      omega
    have hres : Resize c dst src width height dp sp
        = fieldLoop c dst src (c.dwidth width) (c.dheight height) dp sp c.field
            (c.kernels.take (1 + c.field).toNat) ((0 : Nat) : Int) := by
      unfold Resize
      simp only []
      rw [if_pos (show 1 + bin (c.cfg.Vertical && c.cfg.Interlaced) ≤ (c.kernels.length : Int)
        from hk)]
      rfl
    rw [hres]
    exact (fieldLoop_ok c dst src (c.dwidth width) (c.dheight height) dp sp c.field
      (c.kernels.take (1 + c.field).toNat) 0 (fun j hj => by
        rw [hlen] at hj
        have := hwin j (by omega)
        simpa using this)).1
  · intro h0 hnf
    have hl : (Resize c dst src width height dp sp).tasks.length = 1 := by
      rw [hlenof hnf, h0]; rfl
    obtain ⟨t, htt⟩ := List.length_eq_one.mp hl
    obtain ⟨_, k, hk2, ht, _, _⟩ := Resize_getElem c dst src width height dp sp 0 t
      (by rw [htt]; rfl)
    refine ⟨k, hk2, ?_⟩
    rw [htt, ht]
    have hshift : ∀ a : Int, a >>> (0 : Nat) = a := fun a => by
      have := Int.shiftRight_eq_div_pow a 0
      simpa using this
    simp [fieldTaskAt, Context.dwidth, Context.dheight, h0, hshift]

theorem Resize_tasks_witness :
    ((Resize sampleInterlaced sampleDst sampleSrc 2 6 2 2).tasks.length : Int) = 1 + 1 :=
  (Resize_tasks sampleInterlaced sampleDst sampleSrc 2 6 2 2 1 (by decide)).2.1 (by decide)

/-! ## Coverage of the destination rows -/

/-- The rows assigned by a field task that runs `1 ≤ threads ≤ height` workers
without panic are the rows `0 .. height-1` of its field, in order. -/
theorem FieldTask.rowStarts_eq (t : FieldTask) (dst src : Slice Nat)
    (h1 : 1 ≤ t.threads) (h2 : t.threads ≤ t.height)
    (hf : (t.run dst src).fault = none) :
    t.rowStarts dst src
      = (List.range t.height.toNat).map (fun (a : Nat) => t.dstLo + (a : Int) * t.dp) := by
  obtain ⟨hc1, hc2, _⟩ := chunk_of_le t.height t.threads h1 h2
  have hmc : (((chunk t.height t.threads).toNat : Nat) : Int) = chunk t.height t.threads :=
    Int.toNat_of_nonneg (by omega)
  have hTc : ((t.threads.toNat : Nat) : Int) = t.threads := Int.toNat_of_nonneg (by omega)
  have hTm : ((t.threads.toNat * (chunk t.height t.threads).toNat : Nat) : Int) ≤ t.height := by
    push_cast; rw [hmc, hTc]; linarith
  obtain ⟨p, _, hl, hp⟩ := scaleSlices_launched t.scaler t.vertical t.threads t.taps t.width
    t.height t.dp t.sp (dst.sub t.dstLo dst.len) (src.sub t.srcLo src.len) t.cof t.off h1 h2
  have hp2 := hp hf
  subst hp2
  unfold FieldTask.rowStarts FieldTask.run
  rw [hl, List.flatMap_map,
    ← range_partition t.height t.threads.toNat (chunk t.height t.threads).toNat (by omega) hTm,
    List.map_flatMap]
  apply List.flatMap_congr
  intro k _
  unfold Worker.rowStarts
  rw [List.map_map]
  apply List.map_congr_left
  intro r _
  simp only [workerAt, cursorAt, Function.comp]
  push_cast
  ring

/-- The rows assigned by a `Resize` call that runs without panic, in closed form: field
`i` takes the rows `2^field * a + i`, `0 ≤ a < dheight`. -/
theorem assignedRows_eq (c : Context) (dst src : Slice Nat) (width height dp sp : Int)
    (hT1 : 1 ≤ c.cfg.Threads) (hT2 : c.cfg.Threads ≤ c.dheight height)
    (hf : (Resize c dst src width height dp sp).fault = none)
    (hrun : ∀ t ∈ (Resize c dst src width height dp sp).tasks, (t.run dst src).fault = none) :
    assignedRows c dst src width height dp sp
      = (List.range (1 + c.field).toNat).flatMap (fun (i : Nat) =>
          (List.range (c.dheight height).toNat).map
            (fun (a : Nat) => dp * (2 ^ c.field.toNat * (a : Int) + (i : Int)))) := by
  obtain ⟨htasks, hlen⟩ := Resize_tasks_of_no_fault c dst src width height dp sp hf
  unfold assignedRows
  have hrows : ∀ t ∈ (Resize c dst src width height dp sp).tasks,
      t.rowStarts dst src
        = (List.range (c.dheight height).toNat).map
            (fun (a : Nat) => t.dstLo + (a : Int) * (dp * 2 ^ c.field.toNat)) := by
    intro t ht
    have ht2 := ht
    rw [htasks] at ht2
    obtain ⟨q, _, rfl⟩ := List.mem_map.mp ht2
    exact FieldTask.rowStarts_eq _ dst src hT1 hT2 (hrun _ ht)
  rw [List.flatMap_congr hrows, htasks, List.flatMap_map]
  rcases field_cases c with h0 | h0
  · obtain ⟨k0, ks, hks⟩ : ∃ k0 ks, c.kernels = k0 :: ks := by
      cases hk : c.kernels with
      | nil => rw [hk, h0] at hlen; simp at hlen
      | cons k0 ks => exact ⟨k0, ks, rfl⟩
    rw [h0, hks]
    simp [fieldTaskAt, List.range_succ]
    intro a _
    ring
  · obtain ⟨k0, k1, ks, hks⟩ : ∃ k0 k1 ks, c.kernels = k0 :: k1 :: ks := by
      cases hk : c.kernels with
      | nil => rw [hk, h0] at hlen; simp at hlen
      | cons k0 ks =>
        cases ks with
        | nil => rw [hk, h0] at hlen; simp at hlen
        | cons k1 ks => exact ⟨k0, k1, ks, rfl⟩
    rw [h0, hks]
    have h2 : (1 + (1 : Int)).toNat = 2 := rfl
    simp [fieldTaskAt, h2, List.range_succ]
    congr 1 <;> apply List.map_congr_left <;> intro a _ <;> ring

theorem dheight_rows (c : Context) (height : Int) :
    (c.cfg.Vertical = false → 2 ^ c.field.toNat * c.dheight height = height) ∧
    (c.cfg.Vertical = true → c.cfg.Interlaced = false →
      2 ^ c.field.toNat * c.dheight height = c.cfg.Output) ∧
    (c.cfg.Vertical = true → c.cfg.Interlaced = true →
      2 ^ c.field.toNat * c.dheight height = 2 * (c.cfg.Output / 2)) := by
  have hshift0 : ∀ a : Int, a >>> (0 : Nat) = a := fun a => by
    have := Int.shiftRight_eq_div_pow a 0
    simpa using this
  have hshift1 : ∀ a : Int, a >>> (1 : Nat) = a / 2 := fun a => by
    have := Int.shiftRight_eq_div_pow a 1
    simpa using this
  unfold Context.dheight Context.field bin
  refine ⟨?_, ?_, ?_⟩
  · intro hv; simp [hv]
  · intro hv hi; simp [hv, hi, hshift0]
  · intro hv hi; simp [hv, hi, hshift1]

/-- Claim C9, as amended.  A `Resize` call with `1 ≤ Threads ≤ dheight` and a positive
destination stride that runs without panic assigns to its workers exactly the
destination rows `0 .. 2^field * dheight - 1`, each exactly once (a row being given by
the index `dp * row` of its first byte).  These are the rows `0 .. height-1` for a
horizontal resize, `0 .. Output-1` for a vertical progressive one, and
`0 .. 2*(Output/2) - 1` for a vertical interlaced one: all `Output` rows when
`Output` is even. -/
theorem Resize_rows_covered (c : Context) (dst src : Slice Nat) (width height dp sp : Int)
    (hT1 : 1 ≤ c.cfg.Threads) (hT2 : c.cfg.Threads ≤ c.dheight height) (hdp : 0 < dp)
    (hf : (Resize c dst src width height dp sp).fault = none)
    (hrun : ∀ t ∈ (Resize c dst src width height dp sp).tasks, (t.run dst src).fault = none) :
    (∀ row : Int, 0 ≤ row → row < 2 ^ c.field.toNat * c.dheight height →
      dp * row ∈ assignedRows c dst src width height dp sp) ∧
    (∀ b ∈ assignedRows c dst src width height dp sp,
      ∃ row : Int, 0 ≤ row ∧ row < 2 ^ c.field.toNat * c.dheight height ∧ b = dp * row) ∧
    (assignedRows c dst src width height dp sp).Nodup ∧
    (c.cfg.Vertical = false → 2 ^ c.field.toNat * c.dheight height = height) ∧
    (c.cfg.Vertical = true → c.cfg.Interlaced = false →
      2 ^ c.field.toNat * c.dheight height = c.cfg.Output) ∧
    (c.cfg.Vertical = true → c.cfg.Interlaced = true →
      2 ^ c.field.toNat * c.dheight height = 2 * (c.cfg.Output / 2)) := by
  have heq := assignedRows_eq c dst src width height dp sp hT1 hT2 hf hrun
  have hdh : 0 ≤ c.dheight height := by omega
  have hinj : ∀ (u v : Int), dp * u = dp * v → u = v := fun u v h =>
    mul_left_cancel₀ (by omega) h
  refine ⟨?_, ?_, ?_, dheight_rows c height⟩
  · intro row h0 h1
    rw [heq]
    rcases field_cases c with hF | hF
    · rw [hF] at h1 ⊢
      simp only [Int.toNat_zero, pow_zero, one_mul] at h1
      refine List.mem_flatMap.mpr ⟨0, by simp, List.mem_map.mpr ⟨row.toNat, ?_, ?_⟩⟩
      · exact List.mem_range.mpr (by omega)
      · rw [Int.toNat_of_nonneg h0]; simp
    · rw [hF] at h1 ⊢
      simp only [Int.toNat_one, pow_one] at h1
      refine List.mem_flatMap.mpr ⟨(row % 2).toNat, ?_,
        List.mem_map.mpr ⟨(row / 2).toNat, ?_, ?_⟩⟩
      · exact List.mem_range.mpr (by
          have : (1 + (1 : Int)).toNat = 2 := rfl
          omega)
      · exact List.mem_range.mpr (by omega)
      · rw [Int.toNat_of_nonneg (by omega), Int.toNat_of_nonneg (by omega)]
        simp only [Int.toNat_one, pow_one]
        congr 1
        omega
  · intro b hb
    rw [heq] at hb
    obtain ⟨i, hi, hb2⟩ := List.mem_flatMap.mp hb
    obtain ⟨a, ha, rfl⟩ := List.mem_map.mp hb2
    have hi2 := List.mem_range.mp hi
    have ha2 := List.mem_range.mp ha
    refine ⟨_, ?_, ?_, rfl⟩
    · positivity
    · rcases field_cases c with hF | hF
      · rw [hF] at hi2 ⊢
        have : (1 + (0 : Int)).toNat = 1 := rfl
        simp only [Int.toNat_zero, pow_zero, one_mul]
        omega
      · rw [hF] at hi2 ⊢
        have : (1 + (1 : Int)).toNat = 2 := rfl
        simp only [Int.toNat_one, pow_one]
        omega
  · rw [heq]
    rcases field_cases c with hF | hF
    · rw [hF]
      have : (1 + (0 : Int)).toNat = 1 := rfl
      rw [this]
      simp only [List.range_succ, List.range_zero, List.nil_append, List.flatMap_singleton]
      refine List.Nodup.map ?_ (List.nodup_range _)
      intro u v h
      have := hinj _ _ h
      simp only [Int.toNat_zero, pow_zero, one_mul] at this
      omega
    · rw [hF]
      have : (1 + (1 : Int)).toNat = 2 := rfl
      rw [this]
      simp only [List.range_succ, List.range_zero, List.nil_append, List.flatMap_append,
        List.flatMap_singleton, List.flatMap_nil, Int.toNat_one, pow_one]
      refine List.Nodup.append ?_ ?_ ?_
      · refine List.Nodup.map ?_ (List.nodup_range _)
        intro u v h
        have := hinj _ _ h
        omega
      · refine List.Nodup.map ?_ (List.nodup_range _)
        intro u v h
        have := hinj _ _ h
        omega
      · intro b hb0 hb1
        obtain ⟨u, _, rfl⟩ := List.mem_map.mp hb0
        obtain ⟨v, _, hv⟩ := List.mem_map.mp hb1
        have := hinj _ _ hv
        omega

theorem Resize_rows_covered_witness :
    (2 * 3 : Int) ∈ assignedRows sampleInterlaced sampleDst sampleSrc 2 6 2 2 :=
  (Resize_rows_covered sampleInterlaced sampleDst sampleSrc 2 6 2 2
    (by decide) (by decide) (by decide) (by decide) (by decide)).1 3 (by decide) (by decide)

/-- Claim C9 fails as stated: a vertical interlaced resize to the odd output extent 5,
with one thread per field and buffers large enough, runs without panic and assigns the
rows 0, 2, 1, 3 (first bytes 0, 4, 2, 6 with `dp = 2`); row 4, first byte 8, of the
configured output extent is assigned to no worker. -/
theorem Resize_odd_interlaced_row_unassigned :
    (1 ≤ sampleOdd.cfg.Threads ∧ sampleOdd.cfg.Threads ≤ sampleOdd.dheight 6) ∧
    (Resize sampleOdd sampleDst5 sampleSrc 2 6 2 2).fault = none ∧
    (∀ t ∈ (Resize sampleOdd sampleDst5 sampleSrc 2 6 2 2).tasks,
      (t.run sampleDst5 sampleSrc).fault = none) ∧
    assignedRows sampleOdd sampleDst5 sampleSrc 2 6 2 2 = [0, 4, 2, 6] ∧
    (4 : Int) < sampleOdd.cfg.Output ∧
    (2 * 4 : Int) ∉ assignedRows sampleOdd sampleDst5 sampleSrc 2 6 2 2 := by
  decide

/-! ## What every launched worker carries -/

theorem Slice.slice_some {α : Type} (s : Slice α) (lo hi : Int) (v : Slice α)
    (h : s.slice lo hi = some v) : 0 ≤ lo ∧ lo ≤ hi ∧ hi ≤ s.cap := by
  unfold Slice.slice at h
  split at h
  · assumption
  · cases h

theorem Slice.sliceFrom_some_bounds {α : Type} (s : Slice α) (lo : Int) (v : Slice α)
    (h : s.sliceFrom lo = some v) : 0 ≤ lo ∧ lo ≤ s.len := by
  unfold Slice.sliceFrom at h
  split at h
  · assumption
  · cases h

/-- Whatever the arguments, a worker the loop of `scaleSlices` launched was handed four
slice expressions that are in range, and the routine, tap count, width and strides
`scaleSlices` received. -/
theorem sliceLoop_mem (scaler : Scaler) (vertical : Bool)
    (threads taps width height dp sp nh : Int)
    (dst src : Slice Nat) (cof off : Slice Int) :
    ∀ (n : Nat) (i : Int) (c : Cursor) (w : Worker),
      w ∈ (sliceLoop scaler vertical threads taps width height dp sp nh dst src cof off
        n i c).launched →
      w.InBounds dst src cof off ∧ w.scaler = scaler ∧ w.taps = taps ∧ w.width = width ∧
        w.dp = dp ∧ w.sp = sp := by
  intro n
  induction n with
  | zero => intro i c w h; simp [sliceLoop] at h
  | succ n ih =>
    intro i c w h
    unfold sliceLoop at h
    simp only [] at h
    generalize (if decide (i + 1 = threads) = true then height - nh * (threads - 1) else nh)
      = ihv at h
    by_cases h0 : ihv = 0
    · rw [if_pos h0] at h
      exact ih _ _ w h
    · rw [if_neg h0] at h
      cases e1 : dst.slice c.dst_idx (c.dst_idx + dp * (ihv - 1) + width) with
      | none => rw [e1] at h; simp at h
      | some v1 =>
        cases e2 : src.sliceFrom c.src_idx with
        | none => rw [e1, e2] at h; simp at h
        | some v2 =>
          cases e3 : cof.slice c.cof_idx
              (c.cof_idx + (if vertical = true then ihv else width) * taps) with
          | none => rw [e1, e2, e3] at h; simp at h
          | some v3 =>
            cases e4 : off.slice c.off_idx
                (c.off_idx + if vertical = true then ihv else width) with
            | none => rw [e1, e2, e3, e4] at h; simp at h
            | some v4 =>
              rw [e1, e2, e3, e4] at h
              simp only [] at h
              have hb := dst.slice_some _ _ _ e1
              have hs := src.sliceFrom_some_bounds _ _ e2
              have hc := cof.slice_some _ _ _ e3
              have ho := off.slice_some _ _ _ e4
              have hw0 : ∀ w2 : Worker,
                  w2 = { scaler := scaler
                         dstLo := c.dst_idx, dstHi := c.dst_idx + dp * (ihv - 1) + width
                         srcLo := c.src_idx
                         cofLo := c.cof_idx
                         cofHi := c.cof_idx + (if vertical = true then ihv else width) * taps
                         offLo := c.off_idx
                         offHi := c.off_idx + (if vertical = true then ihv else width)
                         taps := taps, width := width, height := ihv, dp := dp, sp := sp } →
                  w2.InBounds dst src cof off ∧ w2.scaler = scaler ∧ w2.taps = taps ∧
                    w2.width = width ∧ w2.dp = dp ∧ w2.sp = sp := by
                intro w2 hw2
                subst hw2
                exact ⟨⟨hb, hs, hc, ho⟩, rfl, rfl, rfl, rfl, rfl⟩
              by_cases hl : decide (i + 1 = threads) = true
              · rw [if_pos hl] at h
                simp only [List.mem_singleton] at h
                exact hw0 w h
              · rw [if_neg hl] at h
                cases vertical with
                | false =>
                  simp only [Bool.false_eq_true, if_false, Outcome.push, List.mem_cons] at h
                  rcases h with h | h
                  · exact hw0 w (by simpa using h)
                  · exact ih _ _ w h
                | true =>
                  simp only [if_true] at h
                  cases e5 : srcWalk off sp c.off_idx ihv.toNat 0 c.src_idx with
                  | none =>
                    rw [e5] at h
                    simp only [List.mem_singleton] at h
                    exact hw0 w (by simpa using h)
                  | some s =>
                    rw [e5] at h
                    simp only [Outcome.push, List.mem_cons] at h
                    rcases h with h | h
                    · exact hw0 w (by simpa using h)
                    · exact ih _ _ w h

/-- Whatever the arguments, a worker `scaleSlices` launched was handed four slice
expressions that are in range, and the routine, tap count, width and strides
`scaleSlices` received. -/
theorem scaleSlices_mem (scaler : Scaler) (vertical : Bool)
    (threads taps width height dp sp : Int)
    (dst src : Slice Nat) (cof off : Slice Int) (w : Worker)
    (h : w ∈ (scaleSlices scaler vertical threads taps width height dp sp dst src cof
      off).launched) :
    w.InBounds dst src cof off ∧ w.scaler = scaler ∧ w.taps = taps ∧ w.width = width ∧
      w.dp = dp ∧ w.sp = sp := by
  unfold scaleSlices at h
  split at h
  · simp at h
  · exact sliceLoop_mem scaler vertical threads taps width height dp sp _ dst src cof off
      _ _ _ w h

/-! ## Destination windows of one partition -/

/-- Facts on the first row and the length of the range of iteration `k`. -/
theorem start_facts (height threads : Int) (h1 : 1 ≤ threads) (h2 : threads ≤ height)
    (k : Nat) (hk : k < threads.toNat) :
    ((k * (chunk height threads).toNat : Nat) : Int) = (k : Int) * (height / threads) ∧
    1 ≤ rangeLen height threads.toNat (chunk height threads).toNat k ∧
    (k : Int) * (height / threads) + rangeLen height threads.toNat (chunk height threads).toNat k
      ≤ height ∧
    (k + 1 < threads.toNat →
      rangeLen height threads.toNat (chunk height threads).toNat k = height / threads) ∧
    (k + 1 = threads.toNat →
      (k : Int) * (height / threads) + rangeLen height threads.toNat (chunk height threads).toNat k
        = height) ∧
    1 ≤ height / threads := by
  obtain ⟨hc1, hc2, hc3⟩ := chunk_of_le height threads h1 h2
  have hmc : (((chunk height threads).toNat : Nat) : Int) = chunk height threads :=
    Int.toNat_of_nonneg (by omega)
  have hTc : ((threads.toNat : Nat) : Int) = threads := Int.toNat_of_nonneg (by omega)
  have hm : 1 ≤ (chunk height threads).toNat := by omega
  have hTm : ((threads.toNat * (chunk height threads).toNat : Nat) : Int) ≤ height := by
    push_cast; rw [hmc, hTc]; linarith
  have hb := rangeLen_bounds height _ _ k hm hTm hk
  have hcast : ((k * (chunk height threads).toNat : Nat) : Int) = (k : Int) * (height / threads) := by
    push_cast; rw [hmc, hc3]
  refine ⟨hcast, hb.1, by rw [← hcast]; exact hb.2, ?_, ?_, by rw [← hc3]; exact hc1⟩
  · intro hlt
    rw [rangeLen_of_not_last _ _ _ _ (by omega), hmc, hc3]
  · intro hl
    unfold rangeLen
    rw [if_pos hl, hmc, hTc, hc3]
    have : (k : Int) = threads - 1 := by omega
    rw [this]; ring

/-- With `1 ≤ threads ≤ height` and `1 ≤ width ≤ dp`, the destination window of a
launched worker ends at or before the start of the window of every later one. -/
theorem scaleSlices_dst_ordered (scaler : Scaler) (vertical : Bool)
    (threads taps width height dp sp : Int)
    (dst src : Slice Nat) (cof off : Slice Int)
    (h1 : 1 ≤ threads) (h2 : threads ≤ height) (hw1 : 1 ≤ width) (hwd : width ≤ dp)
    (j k : Nat) (wj wk : Worker) (hjk : j < k)
    (hj : (scaleSlices scaler vertical threads taps width height dp sp dst src cof off).launched[j]?
      = some wj)
    (hk : (scaleSlices scaler vertical threads taps width height dp sp dst src cof off).launched[k]?
      = some wk) :
    wj.dstHi ≤ wk.dstLo := by
  have hdp : 0 ≤ dp := by omega
  obtain ⟨hj2, rfl⟩ := scaleSlices_launched_getElem scaler vertical threads taps width height
    dp sp dst src cof off h1 h2 j wj hj
  obtain ⟨hk2, rfl⟩ := scaleSlices_launched_getElem scaler vertical threads taps width height
    dp sp dst src cof off h1 h2 k wk hk
  obtain ⟨hcj, _, _, hnl, _, hnh⟩ := start_facts height threads h1 h2 j hj2
  obtain ⟨hck, _, _, _, _, _⟩ := start_facts height threads h1 h2 k hk2
  simp only [workerAt, cursorAt]
  rw [hcj, hck, hnl (by omega)]
  have hjk2 : ((j : Int) + 1) * (height / threads) ≤ (k : Int) * (height / threads) :=
    mul_le_mul_of_nonneg_right (by omega) (by omega)
  have hmul : dp * (((j : Int) + 1) * (height / threads)) ≤ dp * ((k : Int) * (height / threads)) :=
    mul_le_mul_of_nonneg_left hjk2 hdp
  nlinarith

/-- Claim C11.  Within one `scaleSlices` call with `1 ≤ threads ≤ height` and
`1 ≤ width ≤ dp`, whatever the buffers: the destination window of the `k`-th launched
worker is the byte range `[dp*start, dp*start + dp*(ih-1) + width)` of the destination
buffer, `start = k * (height / threads)` its first output row and `ih` its range length;
the range is non-empty and in range of the buffer; the window of a worker ends at or
before the start of the window of every later worker (so the windows of two distinct
workers are disjoint, and each ends at or before the start of the next); and the window
of the last worker, `threads - 1`, ends at `dp*(height-1) + width`. -/
theorem scaleSlices_dst_windows (scaler : Scaler) (vertical : Bool)
    (threads taps width height dp sp : Int)
    (dst src : Slice Nat) (cof off : Slice Int)
    (h1 : 1 ≤ threads) (h2 : threads ≤ height) (hw1 : 1 ≤ width) (hwd : width ≤ dp) :
    (∀ (k : Nat) (w : Worker),
      (scaleSlices scaler vertical threads taps width height dp sp dst src cof off).launched[k]?
        = some w →
      w.dstLo = dp * ((k : Int) * (height / threads)) ∧
      w.dstHi = dp * ((k : Int) * (height / threads)) + dp * (w.height - 1) + width ∧
      w.dstLo < w.dstHi ∧ 0 ≤ w.dstLo ∧ w.dstHi ≤ dst.cap ∧
      dst.slice w.dstLo w.dstHi = some (dst.sub w.dstLo w.dstHi) ∧
      ((k : Int) + 1 = threads → w.dstHi = dp * (height - 1) + width)) ∧
    (∀ (j k : Nat) (wj wk : Worker), j < k →
      (scaleSlices scaler vertical threads taps width height dp sp dst src cof off).launched[j]?
        = some wj →
      (scaleSlices scaler vertical threads taps width height dp sp dst src cof off).launched[k]?
        = some wk →
      wj.dstHi ≤ wk.dstLo) := by
  have hTc : ((threads.toNat : Nat) : Int) = threads := Int.toNat_of_nonneg (by omega)
  have hdp : 0 ≤ dp := by omega
  constructor
  · intro k w hw
    have hmem := (scaleSlices_mem scaler vertical threads taps width height dp sp dst src cof off
      w (List.getElem?_mem hw)).1.1
    obtain ⟨hk, rfl⟩ := scaleSlices_launched_getElem scaler vertical threads taps width height
      dp sp dst src cof off h1 h2 k w hw
    obtain ⟨hcast, hr1, hr2, _, hlast, _⟩ := start_facts height threads h1 h2 k hk
    have hlo : (workerAt scaler vertical taps width height dp sp off threads.toNat
        (chunk height threads).toNat k).dstLo = dp * ((k : Int) * (height / threads)) := by
      simp only [workerAt, cursorAt]
      rw [hcast]; ring
    have hhi : (workerAt scaler vertical taps width height dp sp off threads.toNat
        (chunk height threads).toNat k).dstHi
        = dp * ((k : Int) * (height / threads))
          + dp * (rangeLen height threads.toNat (chunk height threads).toNat k - 1) + width := by
      simp only [workerAt, cursorAt]
      rw [hcast]; ring
    have hpos : 0 ≤ dp * (rangeLen height threads.toNat (chunk height threads).toNat k - 1) :=
      mul_nonneg hdp (by omega)
    refine ⟨hlo, hhi, ?_, hmem.1, hmem.2.2, dst.slice_eq_some _ _ hmem, ?_⟩
    · rw [hlo, hhi]; linarith
    · intro hl
      rw [hhi]
      have := hlast (by omega)
      have e : rangeLen height threads.toNat (chunk height threads).toNat k
          = height - (k : Int) * (height / threads) := by linarith
      rw [e]; ring
  · intro j k wj wk hjk hj hk
    exact scaleSlices_dst_ordered scaler vertical threads taps width height dp sp dst src cof off
      h1 h2 hw1 hwd j k wj wk hjk hj hk

theorem scaleSlices_dst_windows_witness : sampleFirst.dstHi ≤ sampleLast.dstLo :=
  (scaleSlices_dst_windows .v8scale2 true 3 2 2 7 2 2
    (Slice.ofList (List.replicate 14 0)) (Slice.ofList (List.replicate 24 0))
    (Slice.ofList (List.replicate 14 1)) sampleOff7
    (by decide) (by decide) (by decide) (by decide)).2 0 2 sampleFirst sampleLast
    (by decide) (by decide) (by decide)

/-! ## Kernel windows of one partition -/

theorem take_blocks {α : Type} (l : List α) (m : Nat) : ∀ n : Nat,
    (List.range n).flatMap (fun k => (l.drop (k * m)).take m) = l.take (n * m) := by
  intro n
  induction n with
  | zero => simp
  | succ n ih =>
    rw [List.range_succ, List.flatMap_append, ih, List.flatMap_singleton]
    have : (n + 1) * m = n * m + m := by ring
    rw [this, List.take_add]

/-- The windows of the ranges `0 .. T-1` of a table, one after the other, are the
first `height` entries of the table. -/
theorem take_partition {α : Type} (l : List α) (height : Int) (T m : Nat) (hT : 1 ≤ T)
    (hTm : ((T * m : Nat) : Int) ≤ height) :
    (List.range T).flatMap
        (fun k => (l.drop (k * m)).take (rangeLen height T m k).toNat)
      = l.take height.toNat := by
  obtain ⟨n, rfl⟩ : ∃ n, T = n + 1 := ⟨T - 1, by omega⟩
  rw [List.range_succ, List.flatMap_append, List.flatMap_singleton]
  have h1 : (List.range n).flatMap
      (fun k => (l.drop (k * m)).take (rangeLen height (n + 1) m k).toNat)
      = (List.range n).flatMap (fun k => (l.drop (k * m)).take m) := by
    apply List.flatMap_congr
    intro k hk
    have hk2 : k < n := List.mem_range.mp hk
    rw [rangeLen_of_not_last _ _ _ _ (by omega), Int.toNat_natCast]
  rw [h1, take_blocks]
  have h2 : rangeLen height (n + 1) m n = height - ((n * m : Nat) : Int) := by
    unfold rangeLen
    rw [if_pos rfl]
    push_cast; ring
  have h3 : height.toNat = n * m + (height - ((n * m : Nat) : Int)).toNat := by
    push_cast at hTm ⊢
    have : (0 : Int) ≤ (n : Int) * (m : Int) := by positivity
    have : (0 : Int) ≤ (m : Int) := by positivity
    zify
    rw [Int.toNat_of_nonneg (by nlinarith), Int.toNat_of_nonneg (by nlinarith)]
    ring
  rw [h2, h3, List.take_add]

theorem Slice.sub_index_some {α : Type} (s : Slice α) (lo hi j : Int) (hlo : 0 ≤ lo)
    (hj : 0 ≤ j) (hjh : lo + j < hi) (hcap : hi ≤ s.cap) :
    ∃ d, (s.sub lo hi).index j = some d := by
  rw [Slice.sub_index s lo hi j hlo, if_pos ⟨hj, by omega⟩]
  have hlt : (lo + j).toNat < s.store.length := by
    have : (s.cap : Int) = s.store.length := rfl
    omega
  exact ⟨s.store[(lo + j).toNat], by simp [List.getElem?_eq_getElem hlt]⟩

/-- Claim C12.  Vertical orientation, `1 ≤ threads ≤ height`, whatever the buffers.  The
`k`-th launched worker, with first output row `start = k * (height / threads)` and
range length `ih`, is handed the coefficient window `cof[start*taps : (start+ih)*taps]`
and the offset window `off[start : start+ih]`; entry `r` of its offset window and
entry `r*taps + i` of its coefficient window exist and are the entries `start + r` and
`(start+r)*taps + i` of the tables `off[0:height]` and `cof[0:height*taps]`, the
kernel's entries for output row `start + r`.  In a run that does not panic, the windows
of the workers in launch order, laid end to end, are `cof[0:height*taps]` and
`off[0:height]`. -/
theorem scaleSlices_vertical_windows (scaler : Scaler)
    (threads taps width height dp sp : Int)
    (dst src : Slice Nat) (cof off : Slice Int)
    (h1 : 1 ≤ threads) (h2 : threads ≤ height) :
    (∀ (k : Nat) (w : Worker),
      (scaleSlices scaler true threads taps width height dp sp dst src cof off).launched[k]?
        = some w →
      w.cofLo = (k : Int) * (height / threads) * taps ∧
      w.cofHi = ((k : Int) * (height / threads) + w.height) * taps ∧
      w.offLo = (k : Int) * (height / threads) ∧
      w.offHi = (k : Int) * (height / threads) + w.height ∧
      (∀ r : Nat, (r : Int) < w.height →
        (∃ d, (off.sub w.offLo w.offHi).index (r : Int) = some d) ∧
        (off.sub w.offLo w.offHi).index (r : Int)
          = (off.sub 0 height).index ((k : Int) * (height / threads) + (r : Int))) ∧
      (∀ r i : Nat, (r : Int) < w.height → (i : Int) < taps →
        (∃ d, (cof.sub w.cofLo w.cofHi).index ((r : Int) * taps + (i : Int)) = some d) ∧
        (cof.sub w.cofLo w.cofHi).index ((r : Int) * taps + (i : Int))
          = (cof.sub 0 (height * taps)).index
              (((k : Int) * (height / threads) + (r : Int)) * taps + (i : Int)))) ∧
    ((scaleSlices scaler true threads taps width height dp sp dst src cof off).fault = none →
      (scaleSlices scaler true threads taps width height dp sp dst src cof off).launched.flatMap
          (fun w => (cof.sub w.cofLo w.cofHi).toList)
        = (cof.sub 0 (height * taps)).toList ∧
      (scaleSlices scaler true threads taps width height dp sp dst src cof off).launched.flatMap
          (fun w => (off.sub w.offLo w.offHi).toList)
        = (off.sub 0 height).toList) := by
  have hTc : ((threads.toNat : Nat) : Int) = threads := Int.toNat_of_nonneg (by omega)
  obtain ⟨hc1, hc2, hc3⟩ := chunk_of_le height threads h1 h2
  have hmc : (((chunk height threads).toNat : Nat) : Int) = chunk height threads :=
    Int.toNat_of_nonneg (by omega)
  have hTm : ((threads.toNat * (chunk height threads).toNat : Nat) : Int) ≤ height := by
    push_cast; rw [hmc, hTc]; linarith
  constructor
  · intro k w hw
    have hmem := (scaleSlices_mem scaler true threads taps width height dp sp dst src cof off
      w (List.getElem?_mem hw)).1
    obtain ⟨hk, rfl⟩ := scaleSlices_launched_getElem scaler true threads taps width height
      dp sp dst src cof off h1 h2 k w hw
    obtain ⟨hcast, hr1, hr2, _, _, hnh⟩ := start_facts height threads h1 h2 k hk
    obtain ⟨_, _, hcb, hob⟩ := hmem
    simp only [workerAt, cursorAt, if_true] at hcb hob ⊢
    rw [hcast] at hcb hob ⊢
    set ih := rangeLen height threads.toNat (chunk height threads).toNat k
    set st := (k : Int) * (height / threads)
    have hst : 0 ≤ st := mul_nonneg (Int.natCast_nonneg k) (by omega)
    have htaps : 0 ≤ taps := by
      by_contra hneg
      have := mul_nonneg (show (0 : Int) ≤ ih - 1 by omega) (show (0 : Int) ≤ -taps by omega)
      nlinarith [hcb.2.1]
    refine ⟨rfl, by ring, rfl, rfl, ?_, ?_⟩
    · intro r hr
      have hr0 : (0 : Int) ≤ (r : Int) := Int.natCast_nonneg r
      exact ⟨Slice.sub_index_some off st (st + ih) r hst hr0 (by omega) hob.2.2,
        Slice.sub_index_shift off st (st + ih) height r hst hr0
          (by constructor <;> intro _ <;> omega)⟩
    · intro r i hr hi
      have hr0 : (0 : Int) ≤ (r : Int) := Int.natCast_nonneg r
      have hi0 : (0 : Int) ≤ (i : Int) := Int.natCast_nonneg i
      have hj0 : 0 ≤ (r : Int) * taps + (i : Int) := by positivity
      have hA1 : ((r : Int) + 1) * taps ≤ ih * taps :=
        mul_le_mul_of_nonneg_right (by omega) htaps
      have hA2 : (st + (r : Int) + 1) * taps ≤ height * taps :=
        mul_le_mul_of_nonneg_right (by omega) htaps
      have hc1 : (r : Int) * taps + (i : Int) < ih * taps := by
        have e1 : ((r : Int) + 1) * taps = (r : Int) * taps + taps := by ring
        linarith
      have hc2 : st * taps + ((r : Int) * taps + (i : Int)) < height * taps := by
        have e2 : (st + (r : Int) + 1) * taps = st * taps + (r : Int) * taps + taps := by ring
        linarith
      have hshift := Slice.sub_index_shift cof (st * taps) (st * taps + ih * taps)
        (height * taps) ((r : Int) * taps + (i : Int)) (mul_nonneg hst htaps) hj0
        (by constructor <;> intro _ <;> omega)
      have e : st * taps + ((r : Int) * taps + (i : Int)) = (st + (r : Int)) * taps + (i : Int) := by
        ring
      rw [e] at hshift
      exact ⟨Slice.sub_index_some cof (st * taps) (st * taps + ih * taps) _
        (mul_nonneg hst htaps) hj0 (by omega) hcb.2.2, hshift⟩
  · intro hf
    obtain ⟨p, _, hl, hp⟩ := scaleSlices_launched scaler true threads taps width height dp sp
      dst src cof off h1 h2
    have hp2 := hp hf
    subst hp2
    have hw0 : workerAt scaler true taps width height dp sp off threads.toNat
        (chunk height threads).toNat 0
        ∈ (scaleSlices scaler true threads taps width height dp sp dst src cof off).launched := by
      rw [hl]
      exact List.mem_map.mpr ⟨0, List.mem_range.mpr (by omega), rfl⟩
    have hb0 := (scaleSlices_mem scaler true threads taps width height dp sp dst src cof off
      _ hw0).1.2.2.1
    have hr0 := (start_facts height threads h1 h2 0 (by omega)).2.1
    simp only [workerAt, cursorAt, if_true] at hb0
    have htaps : 0 ≤ taps := by
      by_contra hneg
      have := mul_nonneg
        (show (0 : Int) ≤ rangeLen height threads.toNat (chunk height threads).toNat 0 - 1
          by omega)
        (show (0 : Int) ≤ -taps by omega)
      nlinarith [hb0.2.1]
    have htc : ((taps.toNat : Nat) : Int) = taps := Int.toNat_of_nonneg htaps
    rw [hl, List.flatMap_map, List.flatMap_map]
    constructor
    · have hTm2 : ((threads.toNat * ((chunk height threads).toNat * taps.toNat) : Nat) : Int)
          ≤ height * taps := by
        push_cast
        rw [htc]
        push_cast at hTm
        nlinarith
      have := take_partition cof.store (height * taps) threads.toNat
        ((chunk height threads).toNat * taps.toNat) (by omega) hTm2
      have hrhs : (cof.sub 0 (height * taps)).toList = cof.store.take (height * taps).toNat := by
        simp [Slice.toList, Slice.sub]
      rw [hrhs]
      refine Eq.trans ?_ this
      apply List.flatMap_congr
      intro k _
      simp only [Slice.toList, Slice.sub, workerAt, cursorAt, if_true]
      have e1 : (((k * (chunk height threads).toNat : Nat) : Int) * taps).toNat
          = k * ((chunk height threads).toNat * taps.toNat) := by
        zify
        rw [Int.toNat_of_nonneg (by positivity), htc]
        ring
      have e2 : (((k * (chunk height threads).toNat : Nat) : Int) * taps
            + rangeLen height threads.toNat (chunk height threads).toNat k * taps
            - ((k * (chunk height threads).toNat : Nat) : Int) * taps)
          = rangeLen (height * taps) threads.toNat ((chunk height threads).toNat * taps.toNat) k := by
        unfold rangeLen
        split
        · push_cast; rw [htc]; ring
        · push_cast; rw [htc]; ring
      rw [e1, e2]
    · have := take_partition off.store height threads.toNat (chunk height threads).toNat
        (by omega) hTm
      have hrhs : (off.sub 0 height).toList = off.store.take height.toNat := by
        simp [Slice.toList, Slice.sub]
      rw [hrhs]
      refine Eq.trans ?_ this
      apply List.flatMap_congr
      intro k _
      simp only [Slice.toList, Slice.sub, workerAt, cursorAt, if_true]
      have e2 : (((k * (chunk height threads).toNat : Nat) : Int)
            + rangeLen height threads.toNat (chunk height threads).toNat k
            - ((k * (chunk height threads).toNat : Nat) : Int))
          = rangeLen height threads.toNat (chunk height threads).toNat k := by
        ring
      rw [e2, Int.toNat_natCast]

theorem scaleSlices_vertical_windows_witness :
    (scaleSlices .v8scale2 true 3 2 2 7 2 2
        (Slice.ofList (List.replicate 14 0)) (Slice.ofList (List.replicate 24 0))
        sampleCof7 sampleOff7).launched.flatMap
          (fun w => (sampleOff7.sub w.offLo w.offHi).toList)
      = (sampleOff7.sub 0 7).toList :=
  ((scaleSlices_vertical_windows .v8scale2 3 2 2 7 2 2
    (Slice.ofList (List.replicate 14 0)) (Slice.ofList (List.replicate 24 0))
    sampleCof7 sampleOff7 (by decide) (by decide)).2 (by decide)).2

/-- Claim C13.  Horizontal orientation, `1 ≤ threads ≤ height`, whatever the buffers:
every launched worker is handed the coefficient window `cof[0 : width*taps]` and the
offset window `off[0 : width]` (the coefficient and offset cursors stay at 0), and the
source window of the `k`-th launched worker starts at byte `sp * start`, with
`start = k * (height / threads)` its first output row (its destination window starts at
`dp * start`). -/
theorem scaleSlices_horizontal_windows (scaler : Scaler)
    (threads taps width height dp sp : Int)
    (dst src : Slice Nat) (cof off : Slice Int)
    (h1 : 1 ≤ threads) (h2 : threads ≤ height) (k : Nat) (w : Worker)
    (hw : (scaleSlices scaler false threads taps width height dp sp dst src cof off).launched[k]?
      = some w) :
    w.cofLo = 0 ∧ w.cofHi = width * taps ∧
    cof.slice w.cofLo w.cofHi = some (cof.sub 0 (width * taps)) ∧
    w.offLo = 0 ∧ w.offHi = width ∧
    off.slice w.offLo w.offHi = some (off.sub 0 width) ∧
    w.srcLo = sp * ((k : Int) * (height / threads)) ∧
    src.sliceFrom w.srcLo = some (src.sub (sp * ((k : Int) * (height / threads))) src.len) ∧
    w.dstLo = dp * ((k : Int) * (height / threads)) := by
  have hmem := (scaleSlices_mem scaler false threads taps width height dp sp dst src cof off
    w (List.getElem?_mem hw)).1
  obtain ⟨hk, rfl⟩ := scaleSlices_launched_getElem scaler false threads taps width height
    dp sp dst src cof off h1 h2 k w hw
  obtain ⟨hcast, _, _, _, _, _⟩ := start_facts height threads h1 h2 k hk
  obtain ⟨_, hsb, hcb, hob⟩ := hmem
  have e3 := cof.slice_eq_some _ _ hcb
  have e4 := off.slice_eq_some _ _ hob
  have e2 := src.sliceFrom_eq_some _ hsb
  simp only [workerAt, cursorAt, Bool.false_eq_true, if_false, zero_add] at e2 e3 e4
  rw [hcast] at e2
  refine ⟨rfl, ?_, ?_, rfl, ?_, ?_, ?_, ?_, ?_⟩
  · simp [workerAt, cursorAt]
  · simpa [workerAt, cursorAt] using e3
  · simp [workerAt, cursorAt]
  · simpa [workerAt, cursorAt] using e4
  · simp only [workerAt, cursorAt, Bool.false_eq_true, if_false]
    rw [hcast]
  · simp only [workerAt, cursorAt, Bool.false_eq_true, if_false]
    rw [hcast]
    exact e2
  · simp only [workerAt, cursorAt]
    rw [hcast]; ring

theorem scaleSlices_horizontal_windows_witness :
    sampleHorizontal.srcLo = 3 * (((1 : Nat) : Int) * (4 / 2)) :=
  (scaleSlices_horizontal_windows .h8scale2 2 2 2 4 2 3
    (Slice.ofList (List.replicate 8 0)) (Slice.ofList (List.replicate 12 0))
    (Slice.ofList [32, 32, 32, 32]) (Slice.ofList [0, 1])
    (by decide) (by decide) 1 sampleHorizontal (by decide)).2.2.2.2.2.2.1

/-! ## Construction: routine and kernels -/

theorem selector_orientation (taps : Int) :
    (getHorizontalScaler taps).vertical = false ∧ (getVerticalScaler taps).vertical = true := by
  unfold getHorizontalScaler getVerticalScaler
  constructor <;> (repeat' split) <;> rfl

/-- Claim C14.  For every configuration and filter, the routine of the context built by
`NewResize` is `getVerticalScaler(taps)` when the configuration is vertical, interlaced
or not, and `getHorizontalScaler(taps)` otherwise, `taps` being the tap count of the
kernel of field 0, the first kernel of the context; so the routine is of the vertical
orientation exactly when the configuration is vertical, whatever the `Interlaced` flag. -/
theorem NewResize_scaler {F : Type} (mk : Config → F → Int → Kernel) (cfg : Config)
    (filter : F) :
    (NewResize mk cfg filter).1.kernels[0]? = some (mk { cfg with Depth := 8 } filter 0) ∧
    (NewResize mk cfg filter).1.scaler
      = (if cfg.Vertical then getVerticalScaler (mk { cfg with Depth := 8 } filter 0).size
         else getHorizontalScaler (mk { cfg with Depth := 8 } filter 0).size) ∧
    (NewResize mk cfg filter).1.scaler.vertical = cfg.Vertical ∧
    (∀ b : Bool, (NewResize mk { cfg with Interlaced := b } filter).1.scaler.vertical
      = (NewResize mk cfg filter).1.scaler.vertical) := by
  have hs : ∀ c : Config, (NewResize mk c filter).1.scaler
      = (if c.Vertical then getVerticalScaler (mk { c with Depth := 8 } filter 0).size
         else getHorizontalScaler (mk { c with Depth := 8 } filter 0).size) := by
    intro c
    unfold NewResize
    cases c.Vertical <;> cases c.Interlaced <;> simp
  have hv : ∀ c : Config, (NewResize mk c filter).1.scaler.vertical = c.Vertical := by
    intro c
    rw [hs c]
    cases c.Vertical
    · simpa using (selector_orientation _).1
    · simpa using (selector_orientation _).2
  refine ⟨?_, hs cfg, hv cfg, fun b => by rw [hv, hv]⟩
  unfold NewResize
  cases cfg.Vertical <;> cases cfg.Interlaced <;> simp

theorem NewResize_kernels_eq {F : Type} (mk : Config → F → Int → Kernel) (cfg : Config)
    (filter : F) :
    (NewResize mk cfg filter).1.kernels
      = (if cfg.Vertical = true ∧ cfg.Interlaced = true
         then [mk { cfg with Depth := 8 } filter 0, mk { cfg with Depth := 8 } filter 1]
         else [mk { cfg with Depth := 8 } filter 0]) ∧
    (NewResize mk cfg filter).1.field
      = (if cfg.Vertical = true ∧ cfg.Interlaced = true then 1 else 0) ∧
    (NewResize mk cfg filter).1.cfg.Vertical = cfg.Vertical ∧
    (NewResize mk cfg filter).1.scaler
      = (if cfg.Vertical then getVerticalScaler (mk { cfg with Depth := 8 } filter 0).size
         else getHorizontalScaler (mk { cfg with Depth := 8 } filter 0).size) := by
  unfold Context.field bin NewResize
  cases cfg.Vertical <;> cases cfg.Interlaced <;> simp

theorem Resize_fault_none (c : Context) (dst src : Slice Nat) (width height dp sp : Int)
    (hk : 1 + c.field ≤ (c.kernels.length : Int))
    (hwin : ∀ i : Nat, (i : Int) ≤ c.field →
      (0 ≤ dp * (i : Int) ∧ dp * (i : Int) ≤ dst.len) ∧
      (0 ≤ sp * (i : Int) ∧ sp * (i : Int) ≤ src.len)) :
    (Resize c dst src width height dp sp).fault = none := by
  have hf01 := field_cases c
  have hlen : (c.kernels.take (1 + c.field).toNat).length = (1 + c.field).toNat := by
    rw [List.length_take]
    omega
  have hres : Resize c dst src width height dp sp
      = fieldLoop c dst src (c.dwidth width) (c.dheight height) dp sp c.field
          (c.kernels.take (1 + c.field).toNat) ((0 : Nat) : Int) := by
    unfold Resize
    simp only []
    rw [if_pos (show 1 + bin (c.cfg.Vertical && c.cfg.Interlaced) ≤ (c.kernels.length : Int)
      from hk)]
    rfl
  rw [hres]
  exact (fieldLoop_ok c dst src (c.dwidth width) (c.dheight height) dp sp c.field
    (c.kernels.take (1 + c.field).toNat) 0 (fun j hj => by
      rw [hlen] at hj
      have := hwin j (by omega)
      simpa using this)).1

/-- Claim C15.  Every context built by `NewResize` holds exactly two kernels when the
configuration is vertical and interlaced, kernel `i` built by `makeKernel` for field
`i`, and exactly one kernel, that of field 0, otherwise.  The number of kernels is
`1 + field` for the value `field` that `Resize` computes from the context, so the
bounds of `c.kernels[:1+field]` are in range, and `Resize` does not panic when the
buffer windows `dst[dp*i:]`, `src[sp*i:]` of its fields exist. -/
theorem NewResize_kernels {F : Type} (mk : Config → F → Int → Kernel) (cfg : Config)
    (filter : F) :
    (NewResize mk cfg filter).1.kernels
      = (if cfg.Vertical = true ∧ cfg.Interlaced = true
         then [mk { cfg with Depth := 8 } filter 0, mk { cfg with Depth := 8 } filter 1]
         else [mk { cfg with Depth := 8 } filter 0]) ∧
    ((NewResize mk cfg filter).1.kernels.length : Int)
      = 1 + bin ((NewResize mk cfg filter).1.cfg.Vertical
                  && (NewResize mk cfg filter).1.cfg.Interlaced) ∧
    (0 ≤ 1 + bin ((NewResize mk cfg filter).1.cfg.Vertical
                  && (NewResize mk cfg filter).1.cfg.Interlaced) ∧
      1 + bin ((NewResize mk cfg filter).1.cfg.Vertical
                  && (NewResize mk cfg filter).1.cfg.Interlaced)
        ≤ ((NewResize mk cfg filter).1.kernels.length : Int)) ∧
    (∀ (dst src : Slice Nat) (width height dp sp : Int),
      (∀ i : Nat, (i : Int) ≤ (NewResize mk cfg filter).1.field →
        (0 ≤ dp * (i : Int) ∧ dp * (i : Int) ≤ dst.len) ∧
        (0 ≤ sp * (i : Int) ∧ sp * (i : Int) ≤ src.len)) →
      (Resize (NewResize mk cfg filter).1 dst src width height dp sp).fault = none) := by
  have hk := (NewResize_kernels_eq mk cfg filter).1
  have hlen : ((NewResize mk cfg filter).1.kernels.length : Int)
      = 1 + bin ((NewResize mk cfg filter).1.cfg.Vertical
                  && (NewResize mk cfg filter).1.cfg.Interlaced) := by
    unfold bin NewResize
    cases cfg.Vertical <;> cases cfg.Interlaced <;> simp
  have hf := field_cases (NewResize mk cfg filter).1
  have hfe : (NewResize mk cfg filter).1.field
      = bin ((NewResize mk cfg filter).1.cfg.Vertical
              && (NewResize mk cfg filter).1.cfg.Interlaced) := rfl
  refine ⟨hk, hlen, ⟨by rw [← hfe]; omega, by rw [hlen]⟩, ?_⟩
  intro dst src width height dp sp hwin
  exact Resize_fault_none _ dst src width height dp sp (by rw [hlen, ← hfe]) hwin

theorem NewResize_kernels_witness :
    (Resize (NewResize sampleMk sampleConfig ()).1 sampleDst sampleSrc40 2 6 2 2).fault = none :=
  (NewResize_kernels sampleMk sampleConfig ()).2.2.2 sampleDst sampleSrc40 2 6 2 2
    (by
      intro i hi
      have h : (NewResize sampleMk sampleConfig ()).1.field = 1 := by decide
      rw [h] at hi
      have : i = 0 ∨ i = 1 := by omega
      rcases this with rfl | rfl <;> decide)

/-! ## The routine dispatched for a field -/

/-- Whatever `makeKernel` is: the tap count of field task `i` of a `Resize` call on a
context built by `NewResize` is that of kernel `i`, its routine is the one the selector
of the configuration's orientation returns for the tap count of kernel 0, and every
worker the task launches is handed that routine and that tap count. -/
theorem Resize_task_routine {F : Type} (mk : Config → F → Int → Kernel) (cfg : Config)
    (filter : F) (dst src : Slice Nat) (width height dp sp : Int) (i : Nat) (t : FieldTask)
    (ht : (Resize (NewResize mk cfg filter).1 dst src width height dp sp).tasks[i]? = some t) :
    t.taps = (mk { cfg with Depth := 8 } filter (i : Int)).size ∧
    t.scaler
      = (if cfg.Vertical then getVerticalScaler (mk { cfg with Depth := 8 } filter 0).size
         else getHorizontalScaler (mk { cfg with Depth := 8 } filter 0).size) ∧
    (∀ w ∈ (t.run dst src).launched, w.scaler = t.scaler ∧ w.taps = t.taps) ∧
    ((mk { cfg with Depth := 8 } filter (i : Int)).size
        = (mk { cfg with Depth := 8 } filter 0).size →
      t.scaler = (if cfg.Vertical then getVerticalScaler t.taps
                  else getHorizontalScaler t.taps)) ∧
    (i = 0 → t.scaler = (if cfg.Vertical then getVerticalScaler t.taps
                         else getHorizontalScaler t.taps)) := by
  obtain ⟨hk, hfield, _, hs⟩ := NewResize_kernels_eq mk cfg filter
  obtain ⟨hi, k, hki, rfl, _, _⟩ := Resize_getElem _ dst src width height dp sp i t ht
  have hkernel : k = mk { cfg with Depth := 8 } filter (i : Int) := by
    rw [hk] at hki
    rw [hfield] at hi
    by_cases hvi : cfg.Vertical = true ∧ cfg.Interlaced = true
    · rw [if_pos hvi] at hki hi
      have : i = 0 ∨ i = 1 := by omega
      rcases this with rfl | rfl
      · simpa using hki.symm
      · simpa using hki.symm
    · rw [if_neg hvi] at hki hi
      have : i = 0 := by omega
      subst this
      simpa using hki.symm
  have htaps : (fieldTaskAt (NewResize mk cfg filter).1 width height dp sp i k).taps
      = (mk { cfg with Depth := 8 } filter (i : Int)).size := by
    rw [← hkernel]; rfl
  have hsc : (fieldTaskAt (NewResize mk cfg filter).1 width height dp sp i k).scaler
      = (if cfg.Vertical then getVerticalScaler (mk { cfg with Depth := 8 } filter 0).size
         else getHorizontalScaler (mk { cfg with Depth := 8 } filter 0).size) := hs
  refine ⟨htaps, hsc, ?_, ?_, ?_⟩
  · intro w hw
    have := scaleSlices_mem _ _ _ _ _ _ _ _ _ _ _ _ w hw
    exact ⟨this.2.1, this.2.2.1⟩
  · intro he
    rw [hsc, htaps, he]
  · intro h0
    subst h0
    rw [hsc, htaps]
    rfl

/-- Claim C19.  For every kernel builder of the specification, every context built by
`NewResize` and every field task `i` a `Resize` call on it starts: the tap count of the
task is that of kernel `i`, the kernel built for field `i`; the routine of the task is
the routine the selector of the configuration's orientation returns for that tap count;
every worker the task launches is handed that tap count and the selector's routine for
it.  In particular, in a vertical interlaced context the second field is resampled by
`getVerticalScaler` applied to the tap count of the second kernel. -/
theorem Resize_dispatch {F : Type} (b : KernelBuilder F) (cfg : Config)
    (filter : F) (dst src : Slice Nat) (width height dp sp : Int) (i : Nat) (t : FieldTask)
    (ht : (Resize (NewResize b.makeKernel cfg filter).1 dst src width height dp sp).tasks[i]?
      = some t) :
    t.taps = (b.makeKernel { cfg with Depth := 8 } filter (i : Int)).size ∧
    t.scaler = (if cfg.Vertical then getVerticalScaler t.taps
                else getHorizontalScaler t.taps) ∧
    (∀ w ∈ (t.run dst src).launched,
      w.taps = (b.makeKernel { cfg with Depth := 8 } filter (i : Int)).size ∧
      w.scaler = (if cfg.Vertical then getVerticalScaler w.taps
                  else getHorizontalScaler w.taps)) ∧
    (cfg.Vertical = true → cfg.Interlaced = true → i = 1 →
      t.scaler = getVerticalScaler (b.makeKernel { cfg with Depth := 8 } filter 1).size) := by
  obtain ⟨htaps, _, hws, heq, _⟩ := Resize_task_routine b.makeKernel cfg filter dst src
    width height dp sp i t ht
  have hsc := heq rfl
  refine ⟨htaps, hsc, ?_, ?_⟩
  · intro w hw
    obtain ⟨h1, h2⟩ := hws w hw
    refine ⟨by rw [h2, htaps], ?_⟩
    rw [h1, h2]
    exact hsc
  · intro hv _ hi
    subst hi
    rw [hsc, htaps, if_pos hv]
    rfl

theorem Resize_dispatch_witness :
    (fieldTaskAt (NewResize sampleBuilder.makeKernel sampleConfig ()).1 2 6 2 2 1
        (sampleBuilder.makeKernel { sampleConfig with Depth := 8 } () 1)).scaler
      = getVerticalScaler (sampleBuilder.makeKernel { sampleConfig with Depth := 8 } () 1).size :=
  (Resize_dispatch sampleBuilder sampleConfig () sampleDst sampleSrc40 2 6 2 2 1
    (fieldTaskAt (NewResize sampleBuilder.makeKernel sampleConfig ()).1 2 6 2 2 1
      (sampleBuilder.makeKernel { sampleConfig with Depth := 8 } () 1))
    (by decide)).2.2.2 (by decide) (by decide) rfl

/-! ## More threads than rows -/

theorem chunk_pos (height threads : Int) : 1 ≤ chunk height threads := by
  unfold chunk
  split <;> omega

/-- Whatever the buffers and the thread count `threads ≥ 1`, the workers `scaleSlices`
launched are the closed-form workers of iterations `0 .. p-1` that are not skipped, for
some `p`; and if the run does not panic, of all the iterations. -/
theorem scaleSlices_launchedOf (scaler : Scaler) (vertical : Bool)
    (threads taps width height dp sp : Int)
    (dst src : Slice Nat) (cof off : Slice Int) (h1 : 1 ≤ threads) :
    ∃ p, p ≤ threads.toNat ∧
      (scaleSlices scaler vertical threads taps width height dp sp dst src cof off).launched
        = launchedOf scaler vertical taps width height dp sp off threads.toNat
            (chunk height threads).toNat (List.range' 0 p) ∧
      ((scaleSlices scaler vertical threads taps width height dp sp dst src cof off).fault = none
        → p = threads.toNat) := by
  have hc1 := chunk_pos height threads
  have hmc : (((chunk height threads).toNat : Nat) : Int) = chunk height threads :=
    Int.toNat_of_nonneg (by omega)
  have hTc : ((threads.toNat : Nat) : Int) = threads := Int.toNat_of_nonneg (by omega)
  have hloop := sliceLoop_launched scaler vertical taps width height dp sp dst src cof off
    threads.toNat (chunk height threads).toNat (by omega) threads.toNat 0 (by omega)
  have hc0 : cursorAt vertical taps dp sp off (0 * (chunk height threads).toNat)
      = ⟨0, 0, 0, 0⟩ := by
    cases vertical <;> simp [cursorAt, offSum]
  rw [hc0, hTc, hmc] at hloop
  rw [show ((0 : Nat) : Int) = 0 from rfl] at hloop
  unfold scaleSlices
  rw [if_neg (by omega)]
  exact hloop

/-- The range length an iteration computes is zero only in the last iteration of a run
with exactly one thread more than rows. -/
theorem rangeLen_eq_zero_iff (height threads : Int) (h1 : 1 ≤ threads) (hh : 0 ≤ height)
    (k : Nat) (hk : k < threads.toNat) :
    rangeLen height threads.toNat (chunk height threads).toNat k = 0
      ↔ (k + 1 = threads.toNat ∧ threads = height + 1) := by
  have hTc : ((threads.toNat : Nat) : Int) = threads := Int.toNat_of_nonneg (by omega)
  by_cases hle : threads ≤ height
  · have := (start_facts height threads h1 hle k hk).2.1
    constructor
    · intro h; omega
    · intro h; omega
  · have hc : chunk height threads = 1 := chunk_of_gt height threads hh (by omega)
    rw [hc]
    unfold rangeLen
    by_cases hl : k + 1 = threads.toNat
    · rw [if_pos hl, hTc]
      simp only [Int.toNat_one, Nat.cast_one, one_mul]
      constructor
      · intro h; exact ⟨hl, by omega⟩
      · intro h; omega
    · rw [if_neg hl]
      simp only [Int.toNat_one, Nat.cast_one]
      constructor
      · intro h; omega
      · intro h; exact absurd h.1 hl

theorem launchedOf_length_all (scaler : Scaler) (vertical : Bool)
    (taps width height dp sp : Int) (off : Slice Int) (T m : Nat) (l : List Nat)
    (h : ∀ k ∈ l, rangeLen height T m k ≠ 0) :
    launchedOf scaler vertical taps width height dp sp off T m l
      = l.map (workerAt scaler vertical taps width height dp sp off T m) := by
  unfold launchedOf
  apply filter_height_eq
  intro w hw
  obtain ⟨k, hk, rfl⟩ := List.mem_map.mp hw
  exact h k hk

/-- Whatever the buffers and the thread count, the `k`-th worker `scaleSlices` launched
is the closed-form worker of iteration `k` (only the last iteration can be skipped). -/
theorem scaleSlices_launched_getElem_any (scaler : Scaler) (vertical : Bool)
    (threads taps width height dp sp : Int)
    (dst src : Slice Nat) (cof off : Slice Int) (k : Nat) (w : Worker)
    (hw : (scaleSlices scaler vertical threads taps width height dp sp dst src cof off).launched[k]?
      = some w) :
    k < threads.toNat ∧
      w = workerAt scaler vertical taps width height dp sp off threads.toNat
        (chunk height threads).toNat k := by
  by_cases h1 : 1 ≤ threads
  · have hc1 := chunk_pos height threads
    have hmc : (((chunk height threads).toNat : Nat) : Int) = chunk height threads :=
      Int.toNat_of_nonneg (by omega)
    obtain ⟨p, hp, hl, _⟩ := scaleSlices_launchedOf scaler vertical threads taps width height
      dp sp dst src cof off h1
    rw [hl] at hw
    have hnl : ∀ j : Nat, j + 1 ≠ threads.toNat →
        rangeLen height threads.toNat (chunk height threads).toNat j ≠ 0 := by
      intro j hj
      rw [rangeLen_of_not_last _ _ _ _ hj, hmc]
      omega
    have hget : ∀ q : Nat, q ≤ p → k < q →
        ((List.range' 0 q).map (workerAt scaler vertical taps width height dp sp off
          threads.toNat (chunk height threads).toNat))[k]? = some w →
        k < threads.toNat ∧
          w = workerAt scaler vertical taps width height dp sp off threads.toNat
            (chunk height threads).toNat k := by
      intro q hq hk h
      rw [List.getElem?_map, List.getElem?_range' _ _ hk] at h
      simp only [Option.map_some', Option.some.injEq, zero_add, one_mul] at h
      exact ⟨by omega, h.symm⟩
    by_cases hz : p = threads.toNat ∧
        rangeLen height threads.toNat (chunk height threads).toNat (threads.toNat - 1) = 0
    · obtain ⟨hpT, hz0⟩ := hz
      obtain ⟨n, hn⟩ : ∃ n, threads.toNat = n + 1 := ⟨threads.toNat - 1, by omega⟩
      have hsplit : List.range' 0 (n + 1) = List.range' 0 n ++ [n] := by
        rw [← List.range_eq_range', ← List.range_eq_range', List.range_succ]
      rw [hpT, hn, hsplit] at hw
      unfold launchedOf at hw
      rw [List.map_append, List.filter_append] at hw
      have hfirst : ((List.range' 0 n).map (workerAt scaler vertical taps width height dp sp off
          (n + 1) (chunk height threads).toNat)).filter (fun w => decide (w.height ≠ 0))
          = (List.range' 0 n).map (workerAt scaler vertical taps width height dp sp off
              (n + 1) (chunk height threads).toNat) := by
        apply filter_height_eq
        intro w2 hw2
        obtain ⟨j, hj, rfl⟩ := List.mem_map.mp hw2
        have hj2 : j < n := by
          have := List.mem_range'_1.mp hj
          omega
        have := hnl j (by omega)
        rw [hn] at this
        exact this
      have hlast : ([n].map (workerAt scaler vertical taps width height dp sp off
          (n + 1) (chunk height threads).toNat)).filter (fun w => decide (w.height ≠ 0))
          = [] := by
        have h0 : rangeLen height (n + 1) (chunk height threads).toNat n = 0 := by
          rw [hn] at hz0
          simpa using hz0
        simp [workerAt, h0]
      rw [hfirst, hlast, List.append_nil] at hw
      have hk : k < n := by
        by_contra hk
        rw [List.getElem?_eq_none (by simpa using hk)] at hw
        cases hw
      have := hget n (by omega) hk (by rw [hn]; exact hw)
      exact this
    · have hall : ∀ j ∈ List.range' 0 p,
          rangeLen height threads.toNat (chunk height threads).toNat j ≠ 0 := by
        intro j hj
        have hj2 : j < p := by
          have := List.mem_range'_1.mp hj
          omega
        by_cases hjl : j + 1 = threads.toNat
        · intro h0
          apply hz
          have e : threads.toNat - 1 = j := by omega
          exact ⟨by omega, by rw [e]; exact h0⟩
        · exact hnl j hjl
      rw [launchedOf_length_all _ _ _ _ _ _ _ _ _ _ _ hall] at hw
      have hk : k < p := by
        by_contra hk
        rw [List.getElem?_eq_none (by simpa using hk)] at hw
        cases hw
      exact hget p (le_refl _) hk hw
  · exfalso
    unfold scaleSlices at hw
    split at hw
    · simp at hw
    · have : threads.toNat = 0 := by omega
      rw [this] at hw
      simp [sliceLoop] at hw

/-- With `1 ≤ width ≤ dp`, whatever the thread count and the buffers, the destination
window of a launched worker ends at or before the start of the window of every later
one. -/
theorem scaleSlices_dst_ordered_any (scaler : Scaler) (vertical : Bool)
    (threads taps width height dp sp : Int)
    (dst src : Slice Nat) (cof off : Slice Int)
    (hw1 : 1 ≤ width) (hwd : width ≤ dp)
    (j k : Nat) (wj wk : Worker) (hjk : j < k)
    (hj : (scaleSlices scaler vertical threads taps width height dp sp dst src cof off).launched[j]?
      = some wj)
    (hk : (scaleSlices scaler vertical threads taps width height dp sp dst src cof off).launched[k]?
      = some wk) :
    wj.dstHi ≤ wk.dstLo := by
  have hdp : 0 ≤ dp := by omega
  obtain ⟨hj2, rfl⟩ := scaleSlices_launched_getElem_any scaler vertical threads taps width height
    dp sp dst src cof off j wj hj
  obtain ⟨hk2, rfl⟩ := scaleSlices_launched_getElem_any scaler vertical threads taps width height
    dp sp dst src cof off k wk hk
  have hc1 := chunk_pos height threads
  have hmc : (((chunk height threads).toNat : Nat) : Int) = chunk height threads :=
    Int.toNat_of_nonneg (by omega)
  simp only [workerAt, cursorAt]
  rw [rangeLen_of_not_last _ _ _ _ (by omega)]
  have hjk2 : (j + 1) * (chunk height threads).toNat ≤ k * (chunk height threads).toNat :=
    Nat.mul_le_mul_right _ (by omega)
  have hjk3 : (((j + 1) * (chunk height threads).toNat : Nat) : Int)
      ≤ ((k * (chunk height threads).toNat : Nat) : Int) := by exact_mod_cast hjk2
  have hmul := mul_le_mul_of_nonneg_right hjk3 hdp
  push_cast at hmul ⊢
  rw [hmc] at hmul ⊢
  nlinarith

/-! ## Destination windows over a whole call -/

/-- Claim C16, as amended.  In a `Resize` call with `1 ≤ dwidth ≤ dp`, whatever the
thread count and the buffers, the destination windows (byte ranges of `dst`) handed to
two distinct workers of the same field task do not overlap: one ends at or before the
start of the other.  That covers any two distinct workers of a call with `field = 0`
(horizontal or progressive), which has a single field task. -/
theorem Resize_windows_disjoint (c : Context) (dst src : Slice Nat)
    (width height dp sp : Int)
    (hw1 : 1 ≤ c.dwidth width) (hw : c.dwidth width ≤ dp)
    (i1 i2 k1 k2 : Nat) (t1 t2 : FieldTask) (w1 w2 : Worker)
    (ht1 : (Resize c dst src width height dp sp).tasks[i1]? = some t1)
    (ht2 : (Resize c dst src width height dp sp).tasks[i2]? = some t2)
    (hl1 : (t1.run dst src).launched[k1]? = some w1)
    (hl2 : (t2.run dst src).launched[k2]? = some w2)
    (hne : (i1, k1) ≠ (i2, k2))
    (hsame : i1 = i2 ∨ c.field = 0) :
    t1.dstLo + w1.dstHi ≤ t2.dstLo + w2.dstLo ∨ t2.dstLo + w2.dstHi ≤ t1.dstLo + w1.dstLo := by
  obtain ⟨hi1, q1, hq1, rfl, _, _⟩ := Resize_getElem c dst src width height dp sp i1 t1 ht1
  obtain ⟨hi2, q2, hq2, rfl, _, _⟩ := Resize_getElem c dst src width height dp sp i2 t2 ht2
  have hi : i1 = i2 := by
    rcases hsame with h | h
    · exact h
    · omega
  subst hi
  have hq : q1 = q2 := by
    rw [hq1] at hq2
    exact Option.some.inj hq2
  subst hq
  have hk : k1 ≠ k2 := fun h => hne (by rw [h])
  have hdp2 : c.dwidth width ≤ dp * 2 ^ c.field.toNat := by
    rcases field_cases c with hF | hF <;> rw [hF] <;> simp <;> omega
  rcases lt_or_gt_of_ne hk with hlt | hgt
  · left
    have := scaleSlices_dst_ordered_any _ _ _ _ _ _ _ _ _ _ _ _ hw1 hdp2 k1 k2 w1 w2 hlt
      hl1 hl2
    omega
  · right
    have := scaleSlices_dst_ordered_any _ _ _ _ _ _ _ _ _ _ _ _ hw1 hdp2 k2 k1 w2 w1 hgt
      hl2 hl1
    omega

theorem Resize_windows_disjoint_witness :
    (0 : Int) + sampleWorker.dstHi ≤ 0 + sampleSecond.dstLo ∨
    (0 : Int) + sampleSecond.dstHi ≤ 0 + sampleWorker.dstLo :=
  Resize_windows_disjoint sampleInterlaced sampleDst sampleSrc 2 6 2 2
    (by decide) (by decide) 0 0 0 1
    (fieldTaskAt sampleInterlaced 2 6 2 2 0 sampleKernel)
    (fieldTaskAt sampleInterlaced 2 6 2 2 0 sampleKernel)
    sampleWorker sampleSecond
    (by decide) (by decide) (by decide) (by decide) (by decide) (by decide)

/-- Claim C16 fails as stated: in the vertical interlaced resize to four output rows
with one thread per field (`dp = 2`, width 2), which runs without panic, the worker of
field 0 is handed the destination window `dst[0:6]` and the worker of field 1 the window
`dst[2:8]` (window `[0:6]` of `dst[2:]`); the two byte ranges share the bytes 2 to 5. -/
theorem Resize_interlaced_windows_overlap :
    (1 ≤ sampleInterlacedOne.dwidth 2 ∧ sampleInterlacedOne.dwidth 2 ≤ 2) ∧
    (Resize sampleInterlacedOne sampleDst sampleSrc 2 6 2 2).fault = none ∧
    ((Resize sampleInterlacedOne sampleDst sampleSrc 2 6 2 2).tasks.map
      (fun t => (t.run sampleDst sampleSrc).fault)) = [none, none] ∧
    ((Resize sampleInterlacedOne sampleDst sampleSrc 2 6 2 2).tasks.map
      (fun t => (t.run sampleDst sampleSrc).launched.map
        (fun w => (t.dstLo + w.dstLo, t.dstLo + w.dstHi)))) = [[(0, 6)], [(2, 8)]] ∧
    ¬ ((0 : Int) + sampleFieldWorker.dstHi ≤ 2 + sampleFieldWorker.dstLo ∨
       (2 : Int) + sampleFieldWorker.dstHi ≤ 0 + sampleFieldWorker.dstLo) := by
  decide
/-- Claim C17, as amended.  For every `threads ≥ 1` and `height ≥ 0` with
`threads ≤ height + 1`: the workers `scaleSlices` launches are the workers of the
iterations its loop reached (`0 .. p-1`, all of them when the run does not panic), in
order, without the worker of the last iteration when `threads = height + 1`, the only
iteration whose range length is zero; a run that does not panic launches `threads`
workers, except `height` workers when `threads = height + 1`; and every launched worker
has a range of at least one row.  Thread counts `threads ≥ height + 2`, for which the
remainder is negative, are left out here. -/
theorem scaleSlices_worker_count (scaler : Scaler) (vertical : Bool)
    (threads taps width height dp sp : Int)
    (dst src : Slice Nat) (cof off : Slice Int) (h1 : 1 ≤ threads) (hh : 0 ≤ height)
    (hT : threads ≤ height + 1) :
    (∃ p : Nat, p ≤ threads.toNat ∧
      ((scaleSlices scaler vertical threads taps width height dp sp dst src cof off).fault = none
        → p = threads.toNat) ∧
      (scaleSlices scaler vertical threads taps width height dp sp dst src cof off).launched
        = ((List.range p).filter
            (fun (k : Nat) => decide (¬ ((k : Int) + 1 = threads ∧ threads = height + 1)))).map
            (workerAt scaler vertical taps width height dp sp off threads.toNat
              (chunk height threads).toNat)) ∧
    ((scaleSlices scaler vertical threads taps width height dp sp dst src cof off).fault = none →
      ((scaleSlices scaler vertical threads taps width height dp sp dst src cof off).launched.length
        : Int) = (if threads = height + 1 then height else threads)) ∧
    (∀ w ∈ (scaleSlices scaler vertical threads taps width height dp sp dst src cof off).launched,
        1 ≤ w.height) := by
  have hc1 := chunk_pos height threads
  have hmc : (((chunk height threads).toNat : Nat) : Int) = chunk height threads :=
    Int.toNat_of_nonneg (by omega)
  have hTc : ((threads.toNat : Nat) : Int) = threads := Int.toNat_of_nonneg (by omega)
  obtain ⟨p, hp, hl, hf⟩ := scaleSlices_launchedOf scaler vertical threads taps width height
    dp sp dst src cof off h1
  have hz := rangeLen_eq_zero_iff height threads h1 hh
  refine ⟨⟨p, hp, hf, ?_⟩, ?_, ?_⟩
  · rw [hl]
    unfold launchedOf
    rw [← List.range_eq_range', List.filter_map]
    congr 1
    apply List.filter_congr
    intro k hk
    have hk2 : k < threads.toNat := by
      have := List.mem_range.mp hk
      omega
    simp only [Function.comp]
    apply decide_eq_decide.mpr
    show ¬ rangeLen height threads.toNat (chunk height threads).toNat k = 0 ↔ _
    rw [hz k hk2]
    constructor
    · intro h h2; exact h ⟨by omega, h2.2⟩
    · intro h h2; exact h ⟨by omega, h2.2⟩
  · intro hnf
    have hp2 := hf hnf
    subst hp2
    rw [hl]
    by_cases hT : threads = height + 1
    · rw [if_pos hT]
      obtain ⟨n, hn⟩ : ∃ n, threads.toNat = n + 1 := ⟨threads.toNat - 1, by omega⟩
      have hsplit : List.range' 0 (n + 1) = List.range' 0 n ++ [n] := by
        rw [← List.range_eq_range', ← List.range_eq_range', List.range_succ]
      rw [hn, hsplit]
      unfold launchedOf
      rw [List.map_append, List.filter_append]
      have hfirst : ((List.range' 0 n).map (workerAt scaler vertical taps width height dp sp off
          (n + 1) (chunk height threads).toNat)).filter (fun w => decide (w.height ≠ 0))
          = (List.range' 0 n).map (workerAt scaler vertical taps width height dp sp off
              (n + 1) (chunk height threads).toNat) := by
        apply filter_height_eq
        intro w hw
        obtain ⟨k, hk, rfl⟩ := List.mem_map.mp hw
        have hk2 : k < n := by
          have := List.mem_range'_1.mp hk
          omega
        show rangeLen height (n + 1) (chunk height threads).toNat k ≠ 0
        rw [← hn]
        intro h0
        have := (hz k (by omega)).mp h0
        omega
      have hlast : ([n].map (workerAt scaler vertical taps width height dp sp off
          (n + 1) (chunk height threads).toNat)).filter (fun w => decide (w.height ≠ 0))
          = [] := by
        have h0 : rangeLen height (n + 1) (chunk height threads).toNat n = 0 := by
          rw [← hn]
          exact (hz n (by omega)).mpr ⟨by omega, hT⟩
        simp [workerAt, h0]
      rw [hfirst, hlast]
      simp only [List.append_nil, List.length_map, List.length_range']
      omega
    · rw [if_neg hT]
      rw [launchedOf_length_all _ _ _ _ _ _ _ _ _ _ _ (fun k hk h0 => by
        have hk2 : k < threads.toNat := by
          have := List.mem_range'_1.mp hk
          omega
        exact hT ((hz k hk2).mp h0).2)]
      simp only [List.length_map, List.length_range']
      exact hTc
  · intro w hw
    rw [hl] at hw
    unfold launchedOf at hw
    obtain ⟨hw1, hw2⟩ := List.mem_filter.mp hw
    obtain ⟨k, hk, rfl⟩ := List.mem_map.mp hw1
    have hk2 : k < threads.toNat := by
      have := List.mem_range'_1.mp hk
      omega
    have hne : rangeLen height threads.toNat (chunk height threads).toNat k ≠ 0 := by
      simpa using hw2
    show 1 ≤ rangeLen height threads.toNat (chunk height threads).toNat k
    by_cases hle2 : threads ≤ height
    · exact (start_facts height threads h1 hle2 k hk2).2.1
    · have hc : chunk height threads = 1 := chunk_of_gt height threads hh (by omega)
      rw [hc] at hne ⊢
      unfold rangeLen at hne ⊢
      split at hne
      · rename_i hlast
        rw [if_pos hlast]
        rw [hTc] at hne ⊢
        simp only [Int.toNat_one, Nat.cast_one, one_mul] at hne ⊢
        omega
      · rename_i hlast
        rw [if_neg hlast]
        simp

theorem scaleSlices_worker_count_witness :
    ((scaleSlices .h8scale2 false 2 2 4 1 4 4
        (Slice.ofList [0, 0, 0, 0]) (Slice.ofList [1, 2, 3, 4, 5, 6])
        (Slice.ofList [32, 32, 32, 32, 32, 32, 32, 32])
        (Slice.ofList [0, 1, 2, 3])).launched.length : Int)
      = (if (2 : Int) = 1 + 1 then 1 else 2) :=
  (scaleSlices_worker_count .h8scale2 false 2 2 4 1 4 4
    (Slice.ofList [0, 0, 0, 0]) (Slice.ofList [1, 2, 3, 4, 5, 6])
    (Slice.ofList [32, 32, 32, 32, 32, 32, 32, 32]) (Slice.ofList [0, 1, 2, 3])
    (by decide) (by decide) (by decide)).2.1 (by decide)

/-- Claim C17 fails as stated: two output rows and two threads, and a destination
buffer that holds one row of four bytes only.  The first iteration launches its worker
on `dst[0:4]`; the second panics on `dst[4:8]` before its `go` statement, nothing in
`scaleSlices` checking the buffer against the rows.  One worker is launched, not
two. -/
theorem scaleSlices_short_destination_one_launched :
    ((1 : Int) ≤ 2 ∧ (0 : Int) ≤ 2 ∧ (2 : Int) ≠ 2 + 1) ∧
    (scaleSlices .h8scale2 false 2 2 4 2 4 4
        (Slice.ofList [0, 0, 0, 0]) (Slice.ofList [1, 2, 3, 4, 5, 6, 7, 8, 9, 10])
        (Slice.ofList [32, 32, 32, 32, 32, 32, 32, 32])
        (Slice.ofList [0, 1, 2, 3])).launched.length = 1 ∧
    (scaleSlices .h8scale2 false 2 2 4 2 4 4
        (Slice.ofList [0, 0, 0, 0]) (Slice.ofList [1, 2, 3, 4, 5, 6, 7, 8, 9, 10])
        (Slice.ofList [32, 32, 32, 32, 32, 32, 32, 32])
        (Slice.ofList [0, 1, 2, 3])).fault = some .sliceBounds ∧
    (Slice.ofList [0, 0, 0, 0] : Slice Nat).slice 4 8 = none := by
  decide

/-! ## Slice bounds under the preconditions -/

theorem mem_take_of_le {α : Type} (l : List α) (r r2 : Nat) (h : r ≤ r2) (x : α)
    (hx : x ∈ l.take r) : x ∈ l.take r2 := by
  have e : r2 = r + (r2 - r) := by omega
  rw [e, List.take_add]
  exact List.mem_append_left _ hx

theorem offSum_le (off : Slice Int) (r r2 : Nat) (h : r ≤ r2)
    (hnn : ∀ d ∈ off.store.take r2, 0 ≤ d) : 0 ≤ offSum off r ∧ offSum off r ≤ offSum off r2 := by
  constructor
  · exact List.sum_nonneg (fun d hd => hnn d (mem_take_of_le _ _ _ h d hd))
  · have e : r2 = r + (r2 - r) := by omega
    have hs := offSum_add off r (r2 - r)
    rw [← e] at hs
    have : 0 ≤ ((off.store.drop r).take (r2 - r)).sum := by
      apply List.sum_nonneg
      intro d hd
      apply hnn
      rw [e, List.take_add]
      exact List.mem_append_right _ hd
    omega

/-- A slice cut back to its length: same elements, capacity equal to the length. -/
theorem Slice.cap_take {α : Type} (s : Slice α) (hwf : s.WellFormed) :
    (⟨s.store.take s.len, s.len⟩ : Slice α).cap = s.len := by
  unfold Slice.WellFormed Slice.cap at hwf
  simp only [Slice.cap, List.length_take]
  omega

/-- Claim C18, as amended.  With `1 ≤ threads ≤ height`, `1 ≤ width ≤ dp`, `taps ≥ 0`,
a non-negative source stride `sp ≥ 0`, slices whose length is within their capacity,
`len(dst) ≥ dp*(height-1) + width`, `len(cof) ≥ taps*n` and `len(off) ≥ n` (`n = height`
when vertical, `width` when horizontal), and a source buffer at least as long as the
source cursor of the last worker (vertical: all offsets non-negative and `sp` times the
sum of `off[0 .. (threads-1)*(height/threads))` at most `len(src)`; horizontal:
`sp*(threads-1)*(height/threads) ≤ len(src)`): `scaleSlices` does not panic (no slice
out of range, no index out of range, no division by zero), launches `threads` workers,
every slice expression on `dst`, `src`, `cof` and `off` has
`0 ≤ low ≤ high ≤ length`, and every index `off[off_idx+j]` of the cursor walk is in
range. -/
theorem scaleSlices_in_range (scaler : Scaler) (vertical : Bool)
    (threads taps width height dp sp : Int)
    (dst src : Slice Nat) (cof off : Slice Int)
    (h1 : 1 ≤ threads) (h2 : threads ≤ height) (hw1 : 1 ≤ width) (hwd : width ≤ dp)
    (htaps : 0 ≤ taps) (hsp : 0 ≤ sp)
    (hwf : dst.WellFormed ∧ cof.WellFormed ∧ off.WellFormed)
    (hdst : dp * (height - 1) + width ≤ dst.len)
    (hcof : taps * (if vertical then height else width) ≤ cof.len)
    (hoff : (if vertical then height else width) ≤ off.len)
    (hsrcv : vertical = true → (∀ d ∈ off.toList, 0 ≤ d) ∧
      sp * offSum off ((threads - 1) * (height / threads)).toNat ≤ src.len)
    (hsrch : vertical = false → sp * ((threads - 1) * (height / threads)) ≤ src.len) :
    (scaleSlices scaler vertical threads taps width height dp sp dst src cof off).fault = none ∧
    ((scaleSlices scaler vertical threads taps width height dp sp dst src cof off).launched.length
      : Int) = threads ∧
    (∀ w ∈ (scaleSlices scaler vertical threads taps width height dp sp dst src cof off).launched,
      (0 ≤ w.dstLo ∧ w.dstLo ≤ w.dstHi ∧ w.dstHi ≤ dst.len) ∧
      (0 ≤ w.srcLo ∧ w.srcLo ≤ src.len) ∧
      (0 ≤ w.cofLo ∧ w.cofLo ≤ w.cofHi ∧ w.cofHi ≤ cof.len) ∧
      (0 ≤ w.offLo ∧ w.offLo ≤ w.offHi ∧ w.offHi ≤ off.len)) ∧
    (vertical = true → ∀ j : Nat, (j : Int) < (threads - 1) * (height / threads) →
      ∃ d, off.index (j : Int) = some d) := by
  obtain ⟨hwfd, hwfc, hwfo⟩ := hwf
  obtain ⟨hc1, hc2, hc3⟩ := chunk_of_le height threads h1 h2
  have hmc : (((chunk height threads).toNat : Nat) : Int) = chunk height threads :=
    Int.toNat_of_nonneg (by omega)
  have hTc : ((threads.toNat : Nat) : Int) = threads := Int.toNat_of_nonneg (by omega)
  have hdp : 0 ≤ dp := by omega
  -- the rows before the last range
  have hR : (((threads.toNat - 1) * (chunk height threads).toNat : Nat) : Int)
      = (threads - 1) * (height / threads) := by
    have : ((threads.toNat - 1 : Nat) : Int) = threads - 1 := by omega
    push_cast
    rw [this, hmc, hc3]
  have hRh : (threads - 1) * (height / threads) ≤ height := by
    rw [← hc3]
    nlinarith
  have hR0 : 0 ≤ (threads - 1) * (height / threads) := by
    rw [← hR]; exact Int.natCast_nonneg _
  have hRn : ((threads - 1) * (height / threads)).toNat
      = (threads.toNat - 1) * (chunk height threads).toNat := by
    rw [← hR, Int.toNat_natCast]
  have hkR : ∀ k : Nat, k < threads.toNat →
      k * (chunk height threads).toNat ≤ (threads.toNat - 1) * (chunk height threads).toNat :=
    fun k hk => Nat.mul_le_mul_right _ (by omega)
  -- the buffers cut back to their lengths
  have hcapd := dst.cap_take hwfd
  have hcapc := cof.cap_take hwfc
  have hocap : (off.len : Int) ≤ off.cap := by exact_mod_cast hwfo
  have hoffv : vertical = true → height ≤ off.len := fun hv => by
    rw [hv] at hoff; simpa using hoff
  have hcur : ∀ k : Nat, k < threads.toNat →
      0 ≤ (if vertical then sp * offSum off (k * (chunk height threads).toNat)
            else sp * ((k * (chunk height threads).toNat : Nat) : Int)) ∧
      (if vertical then sp * offSum off (k * (chunk height threads).toNat)
            else sp * ((k * (chunk height threads).toNat : Nat) : Int)) ≤ src.len := by
    intro k hk
    cases hv : vertical with
    | false =>
      simp only [Bool.false_eq_true, if_false]
      have hle : ((k * (chunk height threads).toNat : Nat) : Int)
          ≤ (threads - 1) * (height / threads) := by
        rw [← hR]; exact_mod_cast hkR k hk
      have := hsrch hv
      have hmul := mul_le_mul_of_nonneg_left hle hsp
      exact ⟨mul_nonneg hsp (Int.natCast_nonneg _), by linarith⟩
    | true =>
      simp only [if_true]
      obtain ⟨hnn, hlast⟩ := hsrcv hv
      rw [hRn] at hlast
      have hlen : (threads.toNat - 1) * (chunk height threads).toNat ≤ off.len := by
        have := hoffv hv
        have : (((threads.toNat - 1) * (chunk height threads).toNat : Nat) : Int) ≤ off.len := by
          rw [hR]; omega
        exact_mod_cast this
      have hnn2 : ∀ d ∈ off.store.take ((threads.toNat - 1) * (chunk height threads).toNat),
          0 ≤ d := fun d hd => hnn d (mem_take_of_le _ _ _ hlen d hd)
      obtain ⟨ha, hb⟩ := offSum_le off _ _ (hkR k hk) hnn2
      have hmul := mul_le_mul_of_nonneg_left hb hsp
      exact ⟨mul_nonneg hsp ha, by linarith⟩
  have hvert : vertical = true →
      off.WellFormed ∧ chunk height threads * (threads - 1) ≤ off.len := fun hv =>
    ⟨hwfo, by
      have := hoffv hv
      rw [hc3]
      linarith [hRh, mul_comm (threads - 1) (height / threads)]⟩
  have hcofc : (if vertical then height else width) * taps ≤ cof.len := by
    rw [mul_comm]; exact hcof
  have ha : Adequate vertical threads taps width height dp sp dst src cof off :=
    ⟨by omega, hdp, htaps,
      le_trans hdst (by exact_mod_cast hwfd),
      le_trans hcofc (by exact_mod_cast hwfc),
      le_trans hoff hocap, hvert, hcur⟩
  have ha2 : Adequate vertical threads taps width height dp sp
      ⟨dst.store.take dst.len, dst.len⟩ src ⟨cof.store.take cof.len, cof.len⟩ off :=
    ⟨by omega, hdp, htaps, by rw [hcapd]; exact hdst, by rw [hcapc]; exact hcofc,
      le_trans hoff hocap, hvert, hcur⟩
  have heq := scaleSlices_eq scaler vertical threads taps width height dp sp dst src cof off
    h1 h2 ha
  refine ⟨by rw [heq], by rw [heq]; simpa using hTc, ?_, ?_⟩
  · intro w hw
    rw [heq] at hw
    obtain ⟨k, hk, rfl⟩ := List.mem_map.mp hw
    have hk2 : k < threads.toNat := List.mem_range.mp hk
    obtain ⟨hd, hs, hc, ho⟩ := adequate_inBounds scaler vertical threads taps width height dp sp
      ⟨dst.store.take dst.len, dst.len⟩ src ⟨cof.store.take cof.len, cof.len⟩ off h1 h2 ha2
      k hk2
    rw [hcapd] at hd
    rw [hcapc] at hc
    refine ⟨hd, hs, hc, ho.1, ho.2.1, ?_⟩
    obtain ⟨hcast, hr1, hr2, _, _, _⟩ := start_facts height threads h1 h2 k hk2
    cases hv : vertical with
    | false =>
      rw [hv] at hoff
      simp only [workerAt, cursorAt, Bool.false_eq_true, if_false, zero_add]
      simpa using hoff
    | true =>
      have := hoffv hv
      simp only [workerAt, cursorAt, if_true]
      rw [hcast]
      omega
  · intro hv j hj
    have hlen := hoffv hv
    obtain ⟨h3, h4⟩ := off.index_natCast j (by omega) hwfo
    exact ⟨_, h4⟩

theorem scaleSlices_in_range_witness :
    (scaleSlices .v8scale2 true 3 2 2 7 2 2
        (Slice.ofList (List.replicate 14 0)) (Slice.ofList (List.replicate 24 0))
        sampleCof7 sampleOff7).fault = none :=
  (scaleSlices_in_range .v8scale2 true 3 2 2 7 2 2
    (Slice.ofList (List.replicate 14 0)) (Slice.ofList (List.replicate 24 0))
    sampleCof7 sampleOff7
    (by decide) (by decide) (by decide) (by decide) (by decide) (by decide) (by decide)
    (by decide) (by decide) (by decide) (by decide) (by decide)).1

/-- Claim C18 fails as stated: horizontal orientation, two rows, two threads,
`width = dp = taps = 1` and the negative source stride `sp = -1` meet every
precondition of the claim (`sp*(threads-1)*(height/threads) = -1 ≤ len(src)`), yet after
worker 0 the source cursor is `-1` and the slice expression `src[-1:]` of worker 1
panics. -/
theorem scaleSlices_negative_stride_fault :
    ((1 : Int) ≤ 2 ∧ (2 : Int) ≤ 2 ∧ (1 : Int) ≤ 1 ∧ (0 : Int) ≤ 1) ∧
    ((1 : Int) * (2 - 1) + 1 ≤ (Slice.ofList [0, 0] : Slice Nat).len) ∧
    ((1 : Int) * 1 ≤ (Slice.ofList [64] : Slice Int).len) ∧
    ((1 : Int) ≤ (Slice.ofList [0] : Slice Int).len) ∧
    ((-1 : Int) * ((2 - 1) * (2 / 2)) ≤ (Slice.ofList [5, 6, 7, 8] : Slice Nat).len) ∧
    scaleSlices .h8scaleN false 2 1 1 2 1 (-1)
        (Slice.ofList [0, 0]) (Slice.ofList [5, 6, 7, 8]) (Slice.ofList [64]) (Slice.ofList [0])
      = ⟨[{ scaler := .h8scaleN, dstLo := 0, dstHi := 1, srcLo := 0, cofLo := 0, cofHi := 1
            offLo := 0, offHi := 1, taps := 1, width := 1, height := 1, dp := 1, sp := -1 }],
          some .sliceBounds⟩ ∧
    (Slice.ofList [5, 6, 7, 8] : Slice Nat).sliceFrom (-1) = none := by
  decide

end Rez
